import Mathlib

/-!
# Verifiable lock manager: lock table, transaction table and the acquire decision

A shallow embedding of the demand-paging lock manager
(`src/demand-paging/src/enclave/enclave.cpp`): the REGISTER branch of
`enclave_process_request`, the registration check of `enclave_send_job`,
`acquire_lock`, `release_lock`, `abort_transaction` and `lock_to_string`, the
routing of jobs to workers, the encoding of a signature into a capability and
`verify_signature`; and of the transaction class of the insecure lock manager
(`src/experiments/insecure-lockmanager/src/lockmanager/transaction.cpp`).

The lock, transaction and hash table code this variant calls (its `lock.h` and
the like, with their implementations) is not part of the source tree at hand; the
helpers are modelled from the specification and are marked as such.  Jobs are
processed one at a time, so a manager state is the pair of tables and every
operation is a function on states.
-/

namespace LockManager

/-! ## Data model -/

/-- Modelled from the spec: the mode of a `Lock` (section 3, "mode ∈ {Free, Shared,
Exclusive}"); the declaration of the lock type (`lock.h`) is missing. -/
inductive LockMode where
  | Free
  | Shared
  | Exclusive
deriving DecidableEq, Repr

/-- Modelled from the spec: per-row lock state (section 3): the current mode and the
set of owner transaction ids; the declaration of the lock type (`lock.h`) is
missing. -/
structure Lock where
  mode : LockMode
  owners : Finset Nat

instance : DecidableEq Lock := fun a b =>
  decidable_of_iff (a.mode = b.mode ∧ a.owners = b.owners)
    (by cases a; cases b; simp)

/-- The field `lock->exclusive` read by `acquire_lock`: the lock is in Exclusive mode. -/
def Lock.exclusive (l : Lock) : Bool := decide (l.mode = LockMode.Exclusive)

/-- Modelled from the spec: the 2PL phase of a transaction (section 3, "phase ∈
{Growing, Shrinking, Aborted}; initial = Growing"); `transaction.h` of the enclave
variant is missing. -/
inductive Phase where
  | Growing
  | Shrinking
  | Aborted
deriving DecidableEq, Repr

/-- Modelled from the spec: per-transaction state (section 3): id, phase, set of held
rows and remaining budget; the field names are the ones `enclave.cpp` reads
(`transaction_id`, `lock_budget`), the declaration itself is missing. -/
structure Transaction where
  transaction_id : Nat
  phase : Phase
  locked_rows : Finset Nat
  lock_budget : Nat

instance : DecidableEq Transaction := fun a b =>
  decidable_of_iff (a.transaction_id = b.transaction_id ∧ a.phase = b.phase ∧
      a.locked_rows = b.locked_rows ∧ a.lock_budget = b.lock_budget)
    (by cases a; cases b; simp)

/-- The field `transaction->growing_phase` read by `acquire_lock`: the phase is
Growing. -/
def Transaction.growing_phase (t : Transaction) : Bool := decide (t.phase = Phase.Growing)

/-- The field `transaction->locked_rows_size` read by `release_lock`. -/
def Transaction.locked_rows_size (t : Transaction) : Nat := t.locked_rows.card

/-- Modelled from the spec: a table is a mapping from keys to values with unique keys
(section 3 and section 4.4); the hash table code is missing. -/
def HashTable (α : Type) : Type := Nat → Option α

/-- Modelled from the spec: the empty table made by `newHashTable`. -/
def newHashTable (α : Type) : HashTable α := fun _ => none

/-- Modelled from the spec: `get(table, key)`, `nullptr` being `none`. -/
def HashTable.get {α : Type} (t : HashTable α) (key : Nat) : Option α := t key

/-- Modelled from the spec: `contains(table, key)`. -/
def HashTable.contains {α : Type} (t : HashTable α) (key : Nat) : Bool := (t key).isSome

/-- Modelled from the spec: `set(table, key, value)` binds `key` to `value`. -/
def HashTable.set {α : Type} (t : HashTable α) (key : Nat) (v : α) : HashTable α :=
  fun k => if k = key then some v else t k

/-- Modelled from the spec: `remove(table, key)` drops the binding of `key`. -/
def HashTable.remove {α : Type} (t : HashTable α) (key : Nat) : HashTable α :=
  fun k => if k = key then none else t k

/-! ## Lock operations (specification section 4.1) -/

/-- Modelled from the spec: `newLock()`, a lock nobody owns. Its mode is `Free`: an
exclusive request succeeds on a new lock (`LockTest.exclusiveAccess`) and, by
section 4.1, only on a `Free` one. The helper is missing from the sources. -/
def newLock : Lock := ⟨LockMode.Free, ∅⟩

/-- Modelled from the spec: `acquire_shared(tx)` "succeeds iff mode ∈ {Free, Shared}.
Adds tx to owners; sets mode = Shared." The helper `getSharedAccess` is missing. -/
def getSharedAccess (l : Lock) (tx : Nat) : Bool × Lock :=
  if l.mode = LockMode.Free ∨ l.mode = LockMode.Shared then
    (true, ⟨LockMode.Shared, insert tx l.owners⟩)
  else (false, l)

/-- Modelled from the spec: `acquire_exclusive(tx)` "succeeds iff mode = Free. Sets
mode = Exclusive, owners = {tx}." The helper `getExclusiveAccess` is missing. -/
def getExclusiveAccess (l : Lock) (tx : Nat) : Bool × Lock :=
  if l.mode = LockMode.Free then (true, ⟨LockMode.Exclusive, {tx}⟩) else (false, l)

/-- Modelled from the spec: `upgrade(tx)` "succeeds iff mode = Shared ∧ owners = {tx}.
Sets mode = Exclusive." The helper `upgrade` is missing. -/
def upgrade (l : Lock) (tx : Nat) : Bool × Lock :=
  if l.mode = LockMode.Shared ∧ l.owners = {tx} then
    (true, ⟨LockMode.Exclusive, l.owners⟩)
  else (false, l)

/-- Modelled from the spec: `release(tx)` "if tx ∈ owners, removes it; if owners becomes
empty, mode = Free. Releasing a lock you do not own is a silent no-op." The helper
`release` is missing. -/
def release (l : Lock) (tx : Nat) : Lock :=
  if tx ∈ l.owners then
    if l.owners.erase tx = ∅ then ⟨LockMode.Free, ∅⟩ else ⟨l.mode, l.owners.erase tx⟩
  else l

/-! ## Transaction operations (specification section 4.2) -/

/-- Modelled from the spec: `newTransaction(id, budget)`: phase "initial = Growing", no
held rows, the given budget. The helper is missing. -/
def newTransaction (transactionId lockBudget : Nat) : Transaction :=
  ⟨transactionId, Phase.Growing, ∅, lockBudget⟩

/-- Modelled from the spec: `has_lock(row_id)`. The helper `hasLock` is missing. -/
def hasLock (t : Transaction) (rowId : Nat) : Bool := decide (rowId ∈ t.locked_rows)

/-- Modelled from the spec: `add_lock(row_id, mode, lock)`: "precondition phase = Growing
∧ budget_remaining > 0 ∧ row_id ∉ locked_rows. On success, asks lock for the
requested mode; on lock-acquire success, inserts row_id, decrements
budget_remaining, returns true. On failure returns false." Outside the
precondition nothing is acquired and the result is false. The helper `addLock` is
missing; it mutates the transaction and the lock, so both are returned. -/
def addLock (t : Transaction) (rowId : Nat) (isExclusive : Bool) (l : Lock) :
    Bool × Transaction × Lock :=
  if t.phase = Phase.Growing ∧ 0 < t.lock_budget ∧ rowId ∉ t.locked_rows then
    let r := if isExclusive then getExclusiveAccess l t.transaction_id
             else getSharedAccess l t.transaction_id
    if r.1 then
      (true, ⟨t.transaction_id, t.phase, insert rowId t.locked_rows, t.lock_budget - 1⟩, r.2)
    else (false, t, l)
  else (false, t, l)

/-- One row of a release: the lock of `rowId` releases `tx` and is evicted from the
table when it became free. -/
def releaseRow (lockTable : HashTable Lock) (rowId tx : Nat) : HashTable Lock :=
  match lockTable.get rowId with
  | none => lockTable
  | some l =>
    if (release l tx).mode = LockMode.Free then lockTable.remove rowId
    else lockTable.set rowId (release l tx)

/-- Modelled from the spec: `release_lock(row_id, lock_table)`: "if row_id ∈ locked_rows,
transitions phase to Shrinking, asks the lock to release this tx, removes row_id.
If the underlying lock became Free, evicts it from lock_table." The helper
`releaseLock` is missing. -/
def releaseLock (t : Transaction) (rowId : Nat) (lockTable : HashTable Lock) :
    Transaction × HashTable Lock :=
  if rowId ∈ t.locked_rows then
    (⟨t.transaction_id, Phase.Shrinking, t.locked_rows.erase rowId, t.lock_budget⟩,
      releaseRow lockTable rowId t.transaction_id)
  else (t, lockTable)

/-- Modelled from the spec: `release_all(lock_table)`: "iterate all held rows, release
each; clears locked_rows; sets phase Aborted." Every held row is released as
in `releaseRow`; rows are independent keys of the table, so the iteration is the
row-wise map. The helper `releaseAllLocks` is missing. -/
def releaseAllLocks (t : Transaction) (lockTable : HashTable Lock) :
    Transaction × HashTable Lock :=
  (⟨t.transaction_id, Phase.Aborted, ∅, t.lock_budget⟩,
    fun r => if r ∈ t.locked_rows then (releaseRow lockTable r t.transaction_id).get r
             else lockTable.get r)

/-! ## The manager (enclave.cpp) -/

/-- The two global tables `transactionTable_` and `lockTable_`. -/
structure State where
  transactionTable : HashTable Transaction
  lockTable : HashTable Lock

/-- The tables after `enclave_init_values`. -/
def State.init : State := ⟨newHashTable Transaction, newHashTable Lock⟩

/-- Result of `get_block_timeout`. -/
def get_block_timeout : Nat := 0

/-- An `unsigned int` passed for an `int` parameter. -/
def toInt32 (n : Nat) : Int :=
  if n % 2 ^ 32 < 2 ^ 31 then ((n % 2 ^ 32 : Nat) : Int)
  else ((n % 2 ^ 32 : Nat) : Int) - 2 ^ 32

/-- Decimal rendering of `std::to_string` on an `int`. -/
def intToString (i : Int) : String :=
  if i < 0 then "-" ++ Nat.repr i.natAbs else Nat.repr i.natAbs

/-- The plaintext `lock_to_string(transactionId, rowId, isExclusive)`. -/
def lock_to_string (transactionId rowId : Int) (isExclusive : Bool) : String :=
  intToString transactionId ++ "_" ++ intToString rowId ++ "_" ++
    (if isExclusive then "X" else "S") ++ "_" ++ Nat.repr get_block_timeout

/-- `abort_transaction`: the transaction leaves the table and all its locks are
released. -/
def abort_transaction (s : State) (transaction : Transaction) : State :=
  ⟨s.transactionTable.remove transaction.transaction_id,
    (releaseAllLocks transaction s.lockTable).2⟩

/-- What one job reports: the boolean result, the `print_error` diagnostics in
order, the plaintext that was signed on a grant, and the tables afterwards. -/
structure Outcome where
  ok : Bool
  errors : List String
  signed : Option String
  state : State

/-- Lines 328-333 of `acquire_lock`: the lock object of the row, created and stored
in the lock table when the row has none. -/
def lockOfRow (s : State) (rowId : Nat) : Lock × State :=
  match s.lockTable.get rowId with
  | some l => (l, s)
  | none => (newLock, ⟨s.transactionTable, s.lockTable.set rowId newLock⟩)

/-- `acquire_lock(signature, transactionId, rowId, isExclusive, threadId)`. The
transaction and the lock are pointers into the tables, so what the helpers
change in them is written back to the tables. -/
def acquire_lock (s : State) (transactionId rowId : Nat) (isExclusive : Bool) : Outcome :=
  match s.transactionTable.get transactionId with
  | none => ⟨false, ["Transaction was not registered"], none, s⟩
  | some transaction =>
    let lock : Lock := (lockOfRow s rowId).1
    let s1 : State := (lockOfRow s rowId).2
    if !transaction.growing_phase then
      ⟨false, ["Cannot acquire more locks according to 2PL"], none,
        abort_transaction s1 transaction⟩
    else if transaction.lock_budget < 1 then
      ⟨false, ["Lock budget exhausted"], none, abort_transaction s1 transaction⟩
    else if hasLock transaction rowId && isExclusive && !lock.exclusive then
      let u := upgrade lock transactionId
      let s2 : State := ⟨s1.transactionTable, s1.lockTable.set rowId u.2⟩
      if u.1 then
        ⟨true, [], some (lock_to_string (toInt32 transactionId) (toInt32 rowId)
            u.2.exclusive), s2⟩
      else ⟨false, [], none, abort_transaction s2 transaction⟩
    else if !hasLock transaction rowId then
      let r := addLock transaction rowId isExclusive lock
      let s2 : State :=
        ⟨s1.transactionTable.set transactionId r.2.1, s1.lockTable.set rowId r.2.2⟩
      if r.1 then
        ⟨true, [], some (lock_to_string (toInt32 transactionId) (toInt32 rowId)
            r.2.2.exclusive), s2⟩
      else ⟨false, [], none, abort_transaction s2 r.2.1⟩
    else
      ⟨false, ["Request for already acquired lock"], none,
        abort_transaction s1 transaction⟩

/-- `release_lock(transactionId, rowId)`. -/
def release_lock (s : State) (transactionId rowId : Nat) : List String × State :=
  match s.transactionTable.get transactionId with
  | none => (["Transaction was not registered"], s)
  | some transaction =>
    match s.lockTable.get rowId with
    | none => (["Lock does not exist"], s)
    | some _ =>
      let r := releaseLock transaction rowId s.lockTable
      if r.1.locked_rows_size = 0 then
        ([], ⟨s.transactionTable.remove transactionId, r.2⟩)
      else ([], ⟨s.transactionTable.set transactionId r.1, r.2⟩)

/-- The REGISTER branch of `enclave_process_request`; the boolean is the negated
error flag, which `registerTransaction` of the facade returns. -/
def registerTransaction (s : State) (transactionId lockBudget : Nat) : Outcome :=
  if s.transactionTable.contains transactionId then
    ⟨false, ["Transaction is already registered"], none, s⟩
  else
    ⟨true, [], none,
      ⟨s.transactionTable.set transactionId (newTransaction transactionId lockBudget),
        s.lockTable⟩⟩

/-- A SHARED or EXCLUSIVE job: the registration check of `enclave_send_job`, then
`acquire_lock` on the worker. -/
def lock (s : State) (transactionId rowId : Nat) (isExclusive : Bool) : Outcome :=
  match s.transactionTable.get transactionId with
  | none => ⟨false, ["Need to register transaction before lock requests"], none, s⟩
  | some _ => acquire_lock s transactionId rowId isExclusive

/-- An UNLOCK job: the registration check of `enclave_send_job`, then `release_lock`
on the worker; the error flag is set only by the check. -/
def unlock (s : State) (transactionId rowId : Nat) : Outcome :=
  match s.transactionTable.get transactionId with
  | none => ⟨false, ["Need to register transaction before lock requests"], none, s⟩
  | some _ =>
    ⟨true, (release_lock s transactionId rowId).1, none,
      (release_lock s transactionId rowId).2⟩

/-- The three public operations. -/
inductive Op where
  | register (transactionId lockBudget : Nat)
  | lock (transactionId rowId : Nat) (isExclusive : Bool)
  | unlock (transactionId rowId : Nat)
deriving DecidableEq, Repr

/-- Outcome of one operation. -/
def perform (s : State) : Op → Outcome
  | Op.register tx b => registerTransaction s tx b
  | Op.lock tx r e => lock s tx r e
  | Op.unlock tx r => unlock s tx r

/-- State after one operation. -/
def step (s : State) (op : Op) : State := (perform s op).state

/-- State after a sequence of operations. -/
def run (s : State) (ops : List Op) : State := ops.foldl step s

/-- States the manager can be in: those `run` reaches from the empty manager. -/
def Reachable (s : State) : Prop := ∃ ops : List Op, run State.init ops = s

/-- The results of a sequence of operations on the empty manager, in order. -/
def results (ops : List Op) : List Bool :=
  (ops.foldl (fun acc op => (acc.1 ++ [(perform acc.2 op).ok], step acc.2 op))
    (([] : List Bool), State.init)).1

/-- The lock requests of one transaction, one per listed row and mode. -/
def lockOps (tx : Nat) (reqs : List (Nat × Bool)) : List Op :=
  reqs.map fun q => Op.lock tx q.1 q.2

/-- Shared requests on one row, one per listed transaction. -/
def sharedOps (rowId : Nat) (txs : List Nat) : List Op :=
  txs.map fun x => Op.lock x rowId false

/-- Unlock requests on one row, one per listed transaction. -/
def unlockOps (rowId : Nat) (txs : List Nat) : List Op :=
  txs.map fun x => Op.unlock x rowId

/-- The caller-owned flags `error` and `finished` of a job that waits for its
result; both are clear when the job is sent. -/
structure JobFlags where
  error : Bool
  finished : Bool
deriving DecidableEq, Repr

/-- An UNLOCK job with its flags: `enclave_send_job` sets `error` and `finished` of a
waiting job whose transaction is not registered and returns; otherwise the worker
runs `release_lock` and sets `finished` of a waiting job. A job that does not wait
has no flags, so they stay clear. -/
def unlockJob (s : State) (transactionId rowId : Nat) (wait_for_result : Bool) :
    JobFlags × State :=
  match s.transactionTable.get transactionId with
  | none => (⟨wait_for_result, wait_for_result⟩, s)
  | some _ => (⟨false, wait_for_result⟩, (release_lock s transactionId rowId).2)

/-! ## Routing (`enclave_send_job`)

The worker of a row is computed in single precision. A non-negative `float` is
written as a fraction of two naturals, and every conversion and division rounds to
the nearest value with a 24-bit significand, ties to even (the values met here stay
in the normal range, so there is neither overflow nor a subnormal result). -/

/-- Number of halvings that bring `n` below 2, at most `fuel` of them. -/
def log2Aux : Nat → Nat → Nat
  | 0, _ => 0
  | fuel + 1, n => if n < 2 then 0 else log2Aux fuel (n / 2) + 1

/-- Floor of the binary logarithm of a positive natural. -/
def floorLog2 (n : Nat) : Nat := log2Aux n n

/-- The exponent `e` with `2 ^ e ≤ p / q < 2 ^ (e + 1)`, for positive `p` and `q`. -/
def binaryExponent (p q : Nat) : Int :=
  let k : Int := (floorLog2 p : Int) - (floorLog2 q : Int)
  if q * 2 ^ k.toNat ≤ p * 2 ^ (-k).toNat then k else k - 1

/-- The `float` nearest to the fraction `p / q`, as a fraction: the significand
`p / q * 2 ^ (23 - e)` is rounded to an integer, ties to even. -/
def roundF32 (p q : Nat) : Nat × Nat :=
  if p = 0 then (0, 1) else
    let e := binaryExponent p q
    let up := (23 - e).toNat
    let down := (e - 23).toNat
    let n := p * 2 ^ up
    let d := q * 2 ^ down
    let m := n / d
    let r := n % d
    let m' := if 2 * r < d then m else if d < 2 * r then m + 1
              else if m % 2 = 0 then m else m + 1
    (m' * 2 ^ down, 2 ^ up)

/-- Lines 86-88 of `enclave_send_job`, for a non-negative row id, a positive table
size and at least two threads:
`(int)((row_id % size) / ((float)size / (num_threads - 1)))`. The size is converted
to `float`, divided by the thread count less one (converted to `float`), the
remainder is converted to `float` and divided by that quotient, and the result is
truncated. -/
def thread_id (row_id size num_threads : Nat) : Nat :=
  let a := row_id % size
  let b := roundF32 size 1
  let c := roundF32 (num_threads - 1) 1
  let d := roundF32 (b.1 * c.2) (b.2 * c.1)
  let x := roundF32 a 1
  let q := roundF32 (x.1 * d.2) (x.2 * d.1)
  q.1 / q.2

/-- The integer nearest to `n / d`, ties to even: the rounding step of `roundF32`. -/
def roundHalfEven (n d : Nat) : Nat :=
  if 2 * (n % d) < d then n / d else if d < 2 * (n % d) then n / d + 1
  else if n / d % 2 = 0 then n / d else n / d + 1

/-- The significand of the `float` nearest to `p / q`: `p / q * 2 ^ (23 - e)` rounded
to an integer, where `e` is the binary exponent of `p / q`. -/
def significand (p q : Nat) : Nat :=
  roundHalfEven (p * 2 ^ (23 - binaryExponent p q).toNat)
    (q * 2 ^ (binaryExponent p q - 23).toNat)

/-- The rational number a fraction stands for. -/
def val (r : Nat × Nat) : ℚ := (r.1 : ℚ) / (r.2 : ℚ)

/-- The fields of the configuration `Arg` that `enclave_send_job` reads:
`arg_enclave.num_threads`, `arg_enclave.tx_thread_id`, and the size of the lock
table, which `enclave_init_values` creates with `arg.lock_table_size` buckets. -/
structure Arg where
  num_threads : Nat
  tx_thread_id : Nat
  lock_table_size : Nat
deriving DecidableEq, Repr

/-- The worker whose queue `enclave_send_job` pushes a SHARED, EXCLUSIVE or UNLOCK job
of a registered transaction to (lines 86-92). -/
def rowWorker (arg : Arg) (row_id : Nat) : Nat :=
  thread_id row_id arg.lock_table_size arg.num_threads

/-- The worker whose queue `enclave_send_job` pushes a REGISTER job to (lines
103-106): `queue[arg_enclave.tx_thread_id]`. -/
def registerWorker (arg : Arg) : Nat := arg.tx_thread_id

/-! ## Invariants -/

/-- The lock-level invariant of section 3 of the specification. -/
def Lock.WF (l : Lock) : Prop :=
  (l.mode = LockMode.Exclusive → l.owners.card = 1) ∧
  (l.mode = LockMode.Shared → l.owners.Nonempty) ∧
  (l.mode = LockMode.Free → l.owners = ∅)

/-- Consistency of the two tables: keys are the ids of the transactions stored under
them, every lock satisfies the lock invariant, every owner of a lock is a registered
transaction that lists the row, and every listed row is a lock owned by the
transaction. -/
structure Inv (s : State) : Prop where
  key : ∀ k t, s.transactionTable.get k = some t → t.transaction_id = k
  wf : ∀ r l, s.lockTable.get r = some l → l.WF
  owned : ∀ r l x, s.lockTable.get r = some l → x ∈ l.owners →
    ∃ t, s.transactionTable.get x = some t ∧ r ∈ t.locked_rows
  held : ∀ k t r, s.transactionTable.get k = some t → r ∈ t.locked_rows →
    ∃ l, s.lockTable.get r = some l ∧ k ∈ l.owners

/-- The entry of a row after one owner is released from it. -/
def releasedEntry (o : Option Lock) (tx : Nat) : Option Lock :=
  match o with
  | none => none
  | some l => if (release l tx).mode = LockMode.Free then none else some (release l tx)

/-! ## The transaction mutexes (`enclave_init_values`, `acquire_lock`, `release_lock`) -/

/-- The indices `i` for which `enclave_init_values` runs
`sgx_thread_mutex_init(&transaction_mutex[i], NULL)`: the array is allocated with
`kTransactionBudget` elements and the loop initialises every one of them. The
constant is declared in a header that is not among the sources, so it is a
parameter. -/
def transaction_mutex (kTransactionBudget : Nat) : List Nat := List.range kTransactionBudget

/-- The index of `transaction_mutex` that `acquire_lock` locks and unlocks around
`addLock` (lines 359-361), when the request reaches the fresh acquisition. -/
def acquire_lock_mutex (s : State) (transactionId rowId : Nat) (isExclusive : Bool) :
    Option Nat :=
  match s.transactionTable.get transactionId with
  | none => none
  | some transaction =>
    let lock : Lock := (lockOfRow s rowId).1
    if !transaction.growing_phase then none
    else if transaction.lock_budget < 1 then none
    else if hasLock transaction rowId && isExclusive && !lock.exclusive then none
    else if !hasLock transaction rowId then some transaction.transaction_id
    else none

/-- The index of `transaction_mutex` that `release_lock` locks and unlocks around
`releaseLock` (lines 404-406), when the transaction and the lock exist. -/
def release_lock_mutex (s : State) (transactionId rowId : Nat) : Option Nat :=
  match s.transactionTable.get transactionId with
  | none => none
  | some transaction =>
    match s.lockTable.get rowId with
    | none => none
    | some _ => some transaction.transaction_id

/-! ## The transaction class of the insecure lock manager
(`src/experiments/insecure-lockmanager/src/lockmanager/transaction.cpp`)

The class keeps the id, the set of locked rows, the 2PL phase and a flag that
records an abort. Its locks are objects shared with the lock table; what a method
does to a lock is returned next to the transaction. The lock class of this variant
is not among the sources: its methods are the lock operations of section 4.1 of the
specification, which report a refusal by the result `false`. -/

namespace Insecure

/-- The enumeration `Transaction::Phase` (`transaction.h`). -/
inductive Phase where
  | kGrowing
  | kShrinking
deriving DecidableEq, Repr

/-- The two requested modes `Lock::LockMode::kShared` and `Lock::LockMode::kExclusive`
of the `switch` in `Transaction::addLock`. -/
inductive LockMode where
  | kShared
  | kExclusive
deriving DecidableEq, Repr

/-- The members of `Transaction`: `transactionId_`, `lockedRows_`, `phase_` and
`aborted_`. -/
structure Transaction where
  transactionId_ : Nat
  lockedRows_ : Finset Nat
  phase_ : Phase
  aborted_ : Bool

/-- The constructor `Transaction(transactionId)`: no rows, growing phase (the
initialiser of `phase_` in `transaction.h`), not aborted. -/
def Transaction.new (transactionId : Nat) : Transaction :=
  ⟨transactionId, ∅, Phase.kGrowing, false⟩

/-- `Transaction::getPhase`. -/
def Transaction.getPhase (t : Transaction) : Phase := t.phase_

/-- `Transaction::getLockedRows`. -/
def Transaction.getLockedRows (t : Transaction) : Finset Nat := t.lockedRows_

/-- `Transaction::addLock(rowId, requestedMode, lock)`: nothing happens when the
transaction is aborted; otherwise the lock is asked for the requested mode, the
result of the request is dropped, and the row is inserted. -/
def Transaction.addLock (t : Transaction) (rowId : Nat) (requestedMode : LockMode)
    (lock : Lock) : Transaction × Lock :=
  if t.aborted_ then (t, lock)
  else
    let lock' : Lock :=
      match requestedMode with
      | LockMode.kExclusive => (getExclusiveAccess lock t.transactionId_).2
      | LockMode.kShared => (getSharedAccess lock t.transactionId_).2
    (⟨t.transactionId_, insert rowId t.lockedRows_, t.phase_, t.aborted_⟩, lock')

/-- `Transaction::releaseLock(rowId, lock)`. -/
def Transaction.releaseLock (t : Transaction) (rowId : Nat) (lock : Lock) :
    Transaction × Lock :=
  if rowId ∈ t.lockedRows_ then
    (⟨t.transactionId_, t.lockedRows_.erase rowId, Phase.kShrinking, t.aborted_⟩,
      release lock t.transactionId_)
  else (t, lock)

/-- `Transaction::hasLock(rowId)`. -/
def Transaction.hasLock (t : Transaction) (rowId : Nat) : Bool :=
  decide (rowId ∈ t.lockedRows_)

/-- The body of the loop of `Transaction::releaseAllLocks`:
`lockTable.find(locked_row)->release(transactionId_)`. The `find` of the table
throws when the row has no lock (`none`); the lock is shared with the table, so
the released lock is the new entry of the row. -/
def releaseRowOf (transactionId : Nat) (lockTable : HashTable Lock) (locked_row : Nat) :
    Option (HashTable Lock) :=
  match lockTable.get locked_row with
  | none => none
  | some l => some (lockTable.set locked_row (release l transactionId))

/-- `Transaction::releaseAllLocks(lockTable)`: the locked rows are visited in
ascending order (the order of `std::set`), then the set is cleared and the abort is
recorded. -/
def Transaction.releaseAllLocks (t : Transaction) (lockTable : HashTable Lock) :
    Option (Transaction × HashTable Lock) :=
  ((t.lockedRows_.sort (· ≤ ·)).foldlM (releaseRowOf t.transactionId_) lockTable).map
    fun table => (⟨t.transactionId_, ∅, t.phase_, true⟩, table)

end Insecure

/-! ## The capability codec (`enclave_process_request`, `verify_signature`)

A signature has two components of 8 `uint32_t` each, read here as their 32 bytes.
The functions `base64_encode` and `base64_decode` are not among the sources. -/

/-- Modelled from the spec: the alphabet of standard base64 (section 4.8 asks for
`base64(sig.x)`, section 9 for "base64 of two 32-byte values"); the table of the
missing `base64_encode`. -/
def base64_chars : List Char :=
  ['A', 'B', 'C', 'D', 'E', 'F', 'G', 'H', 'I', 'J', 'K', 'L', 'M', 'N', 'O', 'P', 'Q', 'R',
   'S', 'T', 'U', 'V', 'W', 'X', 'Y', 'Z', 'a', 'b', 'c', 'd', 'e', 'f', 'g', 'h', 'i', 'j',
   'k', 'l', 'm', 'n', 'o', 'p', 'q', 'r', 's', 't', 'u', 'v', 'w', 'x', 'y', 'z', '0', '1',
   '2', '3', '4', '5', '6', '7', '8', '9', '+', '/']

/-- Modelled from the spec: the character of a 6-bit value in standard base64. -/
def sextetChar (i : Nat) : Char := base64_chars.getD i '='

/-- Modelled from the spec: `base64_encode`, standard padded base64: three bytes give
four characters, and a last group of one or two bytes is padded with "=" to four
characters. The function is missing from the sources. -/
def base64_encode : List Nat → List Char
  | [] => []
  | [a] => [sextetChar (a / 4), sextetChar (a % 4 * 16), '=', '=']
  | [a, b] =>
    [sextetChar (a / 4), sextetChar (a % 4 * 16 + b / 16), sextetChar (b % 16 * 4), '=']
  | a :: b :: c :: rest =>
    sextetChar (a / 4) :: sextetChar (a % 4 * 16 + b / 16) ::
      sextetChar (b % 16 * 4 + c / 64) :: sextetChar (c % 64) :: base64_encode rest

/-- Modelled from the spec: a character of the base64 alphabet. -/
def is_base64 (c : Char) : Bool := decide (c ∈ base64_chars)

/-- Modelled from the spec: the characters a base64 decoder reads: it stops at the
padding and at a character outside the alphabet. -/
def base64_keep (c : Char) : Bool := c != '=' && is_base64 c

/-- Modelled from the spec: the bytes of a sequence of 6-bit values: four values give
three bytes, a last group of three or two values gives two bytes or one. -/
def decodeGroups : List Nat → List Nat
  | s0 :: s1 :: s2 :: s3 :: rest =>
    (s0 * 4 + s1 / 16) % 256 :: (s1 % 16 * 16 + s2 / 4) % 256 :: (s2 % 4 * 64 + s3) % 256 ::
      decodeGroups rest
  | [s0, s1, s2] => [(s0 * 4 + s1 / 16) % 256, (s1 % 16 * 16 + s2 / 4) % 256]
  | [s0, s1] => [(s0 * 4 + s1 / 16) % 256]
  | _ => []

/-- Modelled from the spec: `base64_decode`, the inverse of standard padded base64.
The function is missing from the sources. -/
def base64_decode (s : List Char) : List Nat :=
  decodeGroups ((s.takeWhile base64_keep).map fun c => base64_chars.indexOf c)

/-- The type `sgx_ec256_signature_t`: the components `x` and `y`, as bytes. -/
structure Signature where
  x : List Nat
  y : List Nat
deriving DecidableEq, Repr

/-- Both components of the signature are 32 bytes. -/
def Signature.WF (sig : Signature) : Prop :=
  (sig.x.length = 32 ∧ ∀ b ∈ sig.x, b < 256) ∧ (sig.y.length = 32 ∧ ∀ b ∈ sig.y, b < 256)

/-- Lines 175-177 of `enclave_process_request`:
`base64_encode(sig.x) + "-" + base64_encode(sig.y)`. -/
def encoded_signature (sig : Signature) : String :=
  ⟨base64_encode sig.x ++ '-' :: base64_encode sig.y⟩

/-- The constant `signature_size` of `enclave_process_request`. -/
def signature_size : Nat := 89

/-- Lines 179-183 of `enclave_process_request`: the loop copies the first
`signature_size` characters of `encoded_signature.c_str()`, which is the string
followed by its terminator; there is nothing to read behind the terminator
(`none`). -/
def return_value (encoded : String) : Option (List Char) :=
  if signature_size ≤ encoded.length + 1 then
    some ((encoded.data ++ [Char.ofNat 0]).take signature_size)
  else none

/-- Lines 426-428 of `verify_signature`: the text before the first "-" and the text
behind it. When there is no "-", `find` returns `npos`, the first part is the whole
string, and the second starts at `npos + 1 = 0` and is the whole string too. -/
def splitSignature (s : List Char) : List Char × List Char :=
  if '-' ∈ s then (s.take (s.indexOf '-'), s.drop (s.indexOf '-' + 1)) else (s, s)

/-- The call `memcpy(.., decoded.c_str(), 8 * sizeof(uint32_t))` of `verify_signature`:
32 bytes of the decoded string followed by its terminator; there is nothing to read
behind the terminator (`none`). -/
def memcpy32 (src : List Nat) : Option (List Nat) :=
  if 32 ≤ src.length + 1 then some ((src ++ [0]).take 32) else none

/-- Lines 425-431 of `verify_signature`: the signature structure rebuilt from the
capability. -/
def decodeSignature (signature : String) : Option Signature :=
  match memcpy32 (base64_decode (splitSignature signature.data).1),
      memcpy32 (base64_decode (splitSignature signature.data).2) with
  | some x, some y => some ⟨x, y⟩
  | _, _ => none

/-- The signing primitives of the SGX SDK under the key pair of the enclave,
`sgx_ecdsa_sign` and `sgx_ecdsa_verify` (true for `SGX_EC_VALID`), and the constant
`MAX_SIGNATURE_LENGTH` of a header that is not among the sources. They are
external to the lock manager and are parameters. -/
structure KeyVault where
  MAX_SIGNATURE_LENGTH : Nat
  sgx_ecdsa_sign : List Char → Signature
  sgx_ecdsa_verify : List Char → Signature → Bool

/-- Lines 381-384 of `acquire_lock`: the signature over the first
`strnlen(string_to_sign, MAX_SIGNATURE_LENGTH)` characters of the plaintext. -/
def signDescriptor (kv : KeyVault) (string_to_sign : String) : Signature :=
  kv.sgx_ecdsa_sign (string_to_sign.data.take kv.MAX_SIGNATURE_LENGTH)

/-- `verify(message, signature, sig_len)`: the check of the signature against the
first `strnlen(message, MAX_SIGNATURE_LENGTH)` characters of the message; true
stands for the result `SGX_EC_VALID`. -/
def verify (kv : KeyVault) (message : String) (signature : Signature) : Bool :=
  kv.sgx_ecdsa_verify (message.data.take kv.MAX_SIGNATURE_LENGTH) signature

/-- `verify_signature(signature, transactionId, rowId, isExclusive)`: the plaintext
is rebuilt from the arguments (an `int` that is not 0 is an exclusive mode), the
signature is rebuilt from the capability, and the signature is checked against the
plaintext; true stands for a valid signature. -/
def verify_signature (kv : KeyVault) (signature : String)
    (transactionId rowId isExclusive : Int) : Option Bool :=
  (decodeSignature signature).map
    (verify kv (lock_to_string transactionId rowId (decide (isExclusive ≠ 0))))

/-- Lines 166-184 of `enclave_process_request`: the reply of a SHARED or EXCLUSIVE
job that was granted: the plaintext is signed, the signature is encoded and copied
into the return value of the job. -/
def capability (kv : KeyVault) (o : Outcome) : Option String :=
  if o.ok then
    match o.signed with
    | some string_to_sign =>
      (return_value (encoded_signature (signDescriptor kv string_to_sign))).map String.mk
    | none => none
  else none

/-- A key vault whose signature is the same for every message and whose check
accepts exactly that signature. -/
def constantVault : KeyVault :=
  ⟨64, fun _ => ⟨List.replicate 32 0, List.replicate 32 255⟩,
    fun _ sig => decide (sig = ⟨List.replicate 32 0, List.replicate 32 255⟩)⟩

/-- A key vault that knows one message: the message has a signature of its own,
which the check accepts for that message only; every other message is signed with a
signature the check never accepts. -/
def singleMessageVault (message : List Char) : KeyVault :=
  ⟨64,
    fun m => if m = message then ⟨List.replicate 32 1, List.replicate 32 1⟩
      else ⟨List.replicate 32 0, List.replicate 32 0⟩,
    fun m sig => decide (m = message ∧ sig = ⟨List.replicate 32 1, List.replicate 32 1⟩)⟩

/-- The number a list of decimal digits stands for. -/
def decimalValue (l : List Char) : Nat :=
  l.foldl (fun a c => 10 * a + (c.toNat - 48)) 0

/-! ## The tests of the repository on the model

The helpers modelled from the specification are run on the lock tests
(`src/insecure-lockmanager/tests/lock-t.cpp`) and the operations on the lock
manager tests (`src/demand-paging/tests/lockmanager-t.cpp`). -/

/-- The cases of `LockTest`: sharedAccess, exclusiveAccess, noSharedOnExclusive,
noExclusiveOnExclusive, noExclusiveOnShared, upgrade and releaseUnownedLock. -/
theorem lockTest_cases :
    ((getSharedAccess (getSharedAccess (getSharedAccess (getSharedAccess newLock 1).2 2).2
        3).2 4).2.exclusive = false ∧
      (getSharedAccess (getSharedAccess (getSharedAccess (getSharedAccess newLock 1).2 2).2
        3).2 4).2.owners.card = 4) ∧
    ((getExclusiveAccess newLock 0).2.exclusive = true ∧
      (getExclusiveAccess newLock 0).2.owners.card = 1 ∧
      0 ∈ (getExclusiveAccess newLock 0).2.owners) ∧
    ((getExclusiveAccess newLock 0).1 = true ∧
      (getSharedAccess (getExclusiveAccess newLock 0).2 1).1 = false) ∧
    (getExclusiveAccess (getExclusiveAccess newLock 0).2 1).1 = false ∧
    ((getSharedAccess newLock 0).1 = true ∧
      (getExclusiveAccess (getSharedAccess newLock 0).2 1).1 = false) ∧
    ((upgrade (getSharedAccess newLock 0).2 0).1 = true ∧
      (upgrade (getSharedAccess newLock 0).2 0).2.exclusive = true ∧
      (upgrade (getSharedAccess newLock 0).2 0).2.owners.card = 1 ∧
      0 ∈ (upgrade (getSharedAccess newLock 0).2 0).2.owners) ∧
    ((release (getExclusiveAccess newLock 0).2 1).exclusive = true ∧
      (release (getExclusiveAccess newLock 0).2 1).owners.card = 1 ∧
      0 ∈ (release (getExclusiveAccess newLock 0).2 1).owners) := by
  decide

/-- The cases of `LockManagerTest` that do not look at the signature: the expected
results of every registration and lock request (an unlock, which returns nothing,
is listed as true). -/
theorem lockManagerTest_cases :
    -- lockRequestAbortsWhenTransactionNotRegistered
    results [Op.lock 0 0 false] = [false] ∧
    -- cannotRegisterTwice
    results [Op.register 0 10, Op.register 0 10] = [true, false] ∧
    -- acquiringLocks
    results [Op.register 0 10, Op.lock 0 0 false, Op.lock 0 1 true] = [true, true, true] ∧
    -- wantExclusiveButAlreadyShared
    results [Op.register 0 10, Op.register 1 10, Op.lock 0 0 false, Op.lock 1 0 true]
      = [true, true, true, false] ∧
    -- wantSharedButAlreadyExclusive
    results [Op.register 0 10, Op.register 1 10, Op.lock 0 0 true, Op.lock 1 0 false]
      = [true, true, true, false] ∧
    -- multipleTransactionsSharedLock, three of the ten rounds
    results [Op.register 0 10, Op.lock 0 0 false, Op.register 1 10, Op.lock 1 0 false,
        Op.register 2 10, Op.lock 2 0 false]
      = [true, true, true, true, true, true] ∧
    -- sameLockTwice
    results [Op.register 0 10, Op.lock 0 0 false, Op.lock 0 0 false] = [true, true, false] ∧
    -- lockBudgetRunsOut, with a budget of 2
    results [Op.register 0 2, Op.lock 0 0 false, Op.lock 0 1 false, Op.lock 0 3 false]
      = [true, true, true, false] ∧
    -- upgradeLock
    results [Op.register 0 10, Op.lock 0 0 false, Op.lock 0 0 true] = [true, true, true] ∧
    -- unlock
    results [Op.register 0 10, Op.register 1 10, Op.register 2 10, Op.lock 0 0 false,
        Op.lock 1 0 false, Op.unlock 0 0, Op.unlock 1 0, Op.lock 2 0 true]
      = [true, true, true, true, true, true, true, true] ∧
    -- noMoreLocksAfterAbort
    results [Op.register 0 10, Op.lock 0 0 false, Op.lock 0 1 false, Op.lock 0 1 false,
        Op.lock 0 2 false]
      = [true, true, true, false, false] ∧
    -- releasingAnUnownedLock
    results [Op.register 0 10, Op.register 1 10, Op.lock 0 0 true, Op.unlock 1 0,
        Op.lock 1 0 true]
      = [true, true, true, true, false] ∧
    -- noMoreLocksInShrinkingPhase
    results [Op.register 0 10, Op.lock 0 0 true, Op.unlock 0 0, Op.lock 0 0 true]
      = [true, true, true, false] := by
  decide

/-! ## Table lemmas -/

@[simp] theorem HashTable.get_newHashTable {α : Type} (k : Nat) :
    (newHashTable α).get k = none := rfl

@[simp] theorem HashTable.get_set {α : Type} (t : HashTable α) (k k' : Nat) (v : α) :
    (t.set k v).get k' = if k' = k then some v else t.get k' := rfl

@[simp] theorem HashTable.get_remove {α : Type} (t : HashTable α) (k k' : Nat) :
    (t.remove k).get k' = if k' = k then none else t.get k' := rfl

theorem HashTable.ext_get {α : Type} {t u : HashTable α} (h : ∀ k, t.get k = u.get k) : t = u :=
  funext h

theorem HashTable.set_same {α : Type} {t : HashTable α} {k : Nat} {v : α}
    (h : t.get k = some v) : t.set k v = t := by
  apply HashTable.ext_get
  intro k'
  by_cases hk : k' = k
  · simp [hk, h]
  · simp [hk]

theorem State.ext_tables {s u : State} (h1 : s.transactionTable = u.transactionTable)
    (h2 : s.lockTable = u.lockTable) : s = u := by
  cases s; cases u; simp_all

/-! ## Lock lemmas -/

theorem newLock_WF : newLock.WF := by
  simp [Lock.WF, newLock]

theorem release_owners (l : Lock) (tx : Nat) : (release l tx).owners = l.owners.erase tx := by
  unfold release
  split_ifs with h1 h2
  · simp [h2]
  · rfl
  · simp [Finset.erase_eq_of_not_mem h1]

theorem release_WF {l : Lock} (h : l.WF) (tx : Nat) : (release l tx).WF := by
  obtain ⟨hx, hs, hf⟩ := h
  unfold release
  split_ifs with h1 h2
  · simp [Lock.WF]
  · refine ⟨fun hm => ?_, fun _ => ?_, fun hm => ?_⟩
    · exfalso
      have hc := hx hm
      obtain ⟨a, ha⟩ := Finset.card_eq_one.mp hc
      rw [ha] at h1 h2
      have : tx = a := by simpa using h1
      subst this
      simp at h2
    · exact Finset.nonempty_iff_ne_empty.mpr h2
    · have := hf hm
      rw [this] at h1
      simp at h1
  · exact ⟨hx, hs, hf⟩

theorem release_mode_free_iff {l : Lock} (h : l.WF) (tx : Nat) :
    (release l tx).mode = LockMode.Free ↔ l.owners.erase tx = ∅ := by
  constructor
  · intro hm
    rw [← release_owners]
    exact (release_WF h tx).2.2 hm
  · intro he
    unfold release
    split_ifs with h1
    · rfl
    · rw [Finset.erase_eq_of_not_mem h1] at he
      rcases hl : l.mode with _ | _ | _
      · rfl
      · have := h.2.1 hl
        rw [he] at this
        simp at this
      · have := h.1 hl
        rw [he] at this
        simp at this

/-! ## The table invariant -/

theorem Inv_init : Inv State.init := by
  constructor <;> intros <;> simp_all [State.init]

theorem releaseRow_get (lt : HashTable Lock) (r tx r' : Nat) :
    (releaseRow lt r tx).get r' = if r' = r then releasedEntry (lt.get r) tx else lt.get r' := by
  unfold releaseRow releasedEntry
  cases h : lt.get r with
  | none =>
    by_cases hr : r' = r
    · simp [hr, h]
    · simp [hr]
  | some l =>
    by_cases hm : (release l tx).mode = LockMode.Free <;> by_cases hr : r' = r <;> simp [hm, hr]

theorem abort_transactionTable (s : State) (t : Transaction) (k : Nat) :
    (abort_transaction s t).transactionTable.get k =
      if k = t.transaction_id then none else s.transactionTable.get k := rfl

theorem abort_lockTable (s : State) (t : Transaction) (r : Nat) :
    (abort_transaction s t).lockTable.get r =
      if r ∈ t.locked_rows then releasedEntry (s.lockTable.get r) t.transaction_id
      else s.lockTable.get r := by
  show (if r ∈ t.locked_rows then (releaseRow s.lockTable r t.transaction_id).get r
        else s.lockTable.get r) = _
  rw [releaseRow_get]
  simp

theorem releasedEntry_some {o : Option Lock} {tx : Nat} {l' : Lock}
    (h : releasedEntry o tx = some l') :
    ∃ l, o = some l ∧ l' = release l tx ∧ (release l tx).mode ≠ LockMode.Free := by
  unfold releasedEntry at h
  cases o with
  | none => simp at h
  | some l =>
    by_cases hm : (release l tx).mode = LockMode.Free
    · simp [hm] at h
    · simp [hm] at h
      exact ⟨l, rfl, h.symm, hm⟩

theorem releasedEntry_of_other {l : Lock} (hl : l.WF) {tx k : Nat} (hk : k ∈ l.owners)
    (hne : k ≠ tx) : releasedEntry (some l) tx = some (release l tx) := by
  have hmem : k ∈ l.owners.erase tx := Finset.mem_erase.mpr ⟨hne, hk⟩
  have : (release l tx).mode ≠ LockMode.Free := by
    intro hm
    rw [release_mode_free_iff hl] at hm
    rw [hm] at hmem
    simp at hmem
  simp [releasedEntry, this]

/-- Aborting a registered transaction keeps the tables consistent. -/
theorem Inv_abort {s : State} (h : Inv s) {tx : Nat} {t : Transaction}
    (ht : s.transactionTable.get tx = some t) : Inv (abort_transaction s t) := by
  have hid : t.transaction_id = tx := h.key tx t ht
  constructor
  · intro k t' hk
    rw [abort_transactionTable] at hk
    split_ifs at hk
    exact h.key k t' hk
  · intro r l hl
    rw [abort_lockTable] at hl
    split_ifs at hl
    · obtain ⟨l0, h0, rfl, _⟩ := releasedEntry_some hl
      exact release_WF (h.wf r l0 h0) _
    · exact h.wf r l hl
  · intro r l x hl hx
    rw [abort_lockTable] at hl
    rw [abort_transactionTable]
    split_ifs at hl with hr
    · obtain ⟨l0, h0, rfl, _⟩ := releasedEntry_some hl
      rw [release_owners] at hx
      obtain ⟨hne, hx0⟩ := Finset.mem_erase.mp hx
      rw [if_neg hne]
      exact h.owned r l0 x h0 hx0
    · obtain ⟨t', ht', hr'⟩ := h.owned r l x hl hx
      have hne : x ≠ t.transaction_id := by
        intro hxe
        rw [hxe, hid, ht] at ht'
        injection ht' with ht'
        subst ht'
        exact hr hr'
      rw [if_neg hne]
      exact ⟨t', ht', hr'⟩
  · intro k t' r hk hr
    rw [abort_transactionTable] at hk
    split_ifs at hk with hkt
    obtain ⟨l, hl, hkl⟩ := h.held k t' r hk hr
    rw [abort_lockTable]
    split_ifs with hrt
    · rw [hl, releasedEntry_of_other (h.wf r l hl) hkl hkt]
      exact ⟨_, rfl, by rw [release_owners]; exact Finset.mem_erase.mpr ⟨hkt, hkl⟩⟩
    · exact ⟨l, hl, hkl⟩

/-- After an abort the transaction is in neither table. -/
theorem abort_clears {s : State} (h : Inv s) {tx : Nat} {t : Transaction}
    (ht : s.transactionTable.get tx = some t) :
    (abort_transaction s t).transactionTable.get tx = none ∧
    ∀ r l, (abort_transaction s t).lockTable.get r = some l → tx ∉ l.owners := by
  have hid : t.transaction_id = tx := h.key tx t ht
  refine ⟨by rw [abort_transactionTable]; simp [hid], ?_⟩
  intro r l hl hx
  obtain ⟨t', ht', _⟩ := (Inv_abort h ht).owned r l tx hl hx
  rw [abort_transactionTable] at ht'
  simp [hid] at ht'

theorem lockOfRow_transactionTable (s : State) (r : Nat) :
    (lockOfRow s r).2.transactionTable = s.transactionTable := by
  unfold lockOfRow
  cases s.lockTable.get r <;> rfl

theorem lockOfRow_get_self (s : State) (r : Nat) :
    (lockOfRow s r).2.lockTable.get r = some (lockOfRow s r).1 := by
  unfold lockOfRow
  cases h : s.lockTable.get r with
  | none => simp
  | some l => simpa using h

theorem lockOfRow_get_other (s : State) {r r' : Nat} (h : r' ≠ r) :
    (lockOfRow s r).2.lockTable.get r' = s.lockTable.get r' := by
  unfold lockOfRow
  cases s.lockTable.get r with
  | none => simp [h]
  | some l => rfl

theorem lockOfRow_fst (s : State) (r : Nat) :
    (lockOfRow s r).1 = (s.lockTable.get r).getD newLock := by
  unfold lockOfRow
  cases s.lockTable.get r <;> rfl

theorem lockOfRow_of_some {s : State} {r : Nat} {l : Lock} (h : s.lockTable.get r = some l) :
    lockOfRow s r = (l, s) := by
  unfold lockOfRow
  rw [h]

theorem lockOfRow_of_none {s : State} {r : Nat} (h : s.lockTable.get r = none) :
    lockOfRow s r = (newLock, ⟨s.transactionTable, s.lockTable.set r newLock⟩) := by
  unfold lockOfRow
  rw [h]

/-- Storing a fresh lock for a row without one keeps the tables consistent. -/
theorem Inv_lockOfRow {s : State} (h : Inv s) (r : Nat) : Inv (lockOfRow s r).2 := by
  cases hr : s.lockTable.get r with
  | some l => rw [lockOfRow_of_some hr]; exact h
  | none =>
    rw [lockOfRow_of_none hr]
    constructor
    · exact h.key
    · intro r' l hl
      simp only [HashTable.get_set] at hl
      split_ifs at hl with hrr
      · injection hl with hl
        subst hl
        exact newLock_WF
      · exact h.wf r' l hl
    · intro r' l x hl hx
      simp only [HashTable.get_set] at hl
      split_ifs at hl with hrr
      · injection hl with hl
        subst hl
        simp [newLock] at hx
      · exact h.owned r' l x hl hx
    · intro k t r' hk hr'
      obtain ⟨l, hl, hkl⟩ := h.held k t r' hk hr'
      have hne : r' ≠ r := by
        intro he
        rw [he, hr] at hl
        simp at hl
      exact ⟨l, by simp [hne, hl], hkl⟩

/-- A granted upgrade keeps the tables consistent. -/
theorem Inv_upgrade {s : State} (h : Inv s) {r tx : Nat} {l : Lock}
    (hl : s.lockTable.get r = some l) (ho : l.owners = {tx}) :
    Inv ⟨s.transactionTable, s.lockTable.set r ⟨LockMode.Exclusive, l.owners⟩⟩ := by
  constructor
  · exact h.key
  · intro r' l' hl'
    simp only [HashTable.get_set] at hl'
    split_ifs at hl' with hrr
    · injection hl' with hl'
      subst hl'
      simp [Lock.WF, ho]
    · exact h.wf r' l' hl'
  · intro r' l' x hl' hx
    simp only [HashTable.get_set] at hl'
    split_ifs at hl' with hrr
    · injection hl' with hl'
      subst hl'
      subst hrr
      exact h.owned r' l x hl hx
    · exact h.owned r' l' x hl' hx
  · intro k t r' hk hr'
    obtain ⟨l', hl', hkl⟩ := h.held k t r' hk hr'
    by_cases hrr : r' = r
    · subst hrr
      rw [hl] at hl'
      injection hl' with hl'
      subst hl'
      exact ⟨⟨LockMode.Exclusive, l.owners⟩, by simp, hkl⟩
    · exact ⟨l', by simp [hrr, hl'], hkl⟩

/-- What a granted `addLock` returns. -/
theorem addLock_true {t : Transaction} {r : Nat} {e : Bool} {l : Lock}
    (h : (addLock t r e l).1 = true) :
    t.phase = Phase.Growing ∧ 0 < t.lock_budget ∧ r ∉ t.locked_rows ∧
    (addLock t r e l).2.1 =
      ⟨t.transaction_id, t.phase, insert r t.locked_rows, t.lock_budget - 1⟩ ∧
    ((e = true ∧ l.mode = LockMode.Free ∧
        (addLock t r e l).2.2 = ⟨LockMode.Exclusive, {t.transaction_id}⟩) ∨
     (e = false ∧ (l.mode = LockMode.Free ∨ l.mode = LockMode.Shared) ∧
        (addLock t r e l).2.2 = ⟨LockMode.Shared, insert t.transaction_id l.owners⟩)) := by
  unfold addLock at h ⊢
  by_cases hp : t.phase = Phase.Growing ∧ 0 < t.lock_budget ∧ r ∉ t.locked_rows
  · rw [if_pos hp] at h ⊢
    refine ⟨hp.1, hp.2.1, hp.2.2, ?_⟩
    cases e with
    | true =>
      by_cases hm : l.mode = LockMode.Free
      · simp [getExclusiveAccess, hm]
      · simp [getExclusiveAccess, hm] at h
    | false =>
      by_cases hm : l.mode = LockMode.Free ∨ l.mode = LockMode.Shared
      · simp [getSharedAccess, hm]
      · simp [getSharedAccess, hm] at h
  · rw [if_neg hp] at h
    simp at h

/-- A refused `addLock` changes neither the transaction nor the lock. -/
theorem addLock_false {t : Transaction} {r : Nat} {e : Bool} {l : Lock}
    (h : (addLock t r e l).1 = false) : (addLock t r e l).2 = (t, l) := by
  unfold addLock at h ⊢
  by_cases hp : t.phase = Phase.Growing ∧ 0 < t.lock_budget ∧ r ∉ t.locked_rows
  · rw [if_pos hp] at h ⊢
    cases e with
    | true =>
      by_cases hg : (getExclusiveAccess l t.transaction_id).1 = true
      · simp [hg] at h
      · simp [hg]
    | false =>
      by_cases hg : (getSharedAccess l t.transaction_id).1 = true
      · simp [hg] at h
      · simp [hg]
  · rw [if_neg hp]

/-- A granted fresh acquisition keeps the tables consistent: the transaction lists
the row and the lock gains the transaction as an owner. -/
theorem Inv_grant {s : State} (h : Inv s) {tx r : Nat} {t t' : Transaction} {l l' : Lock}
    (ht : s.transactionTable.get tx = some t) (hl : s.lockTable.get r = some l)
    (hid : t'.transaction_id = tx) (hrows : t'.locked_rows = insert r t.locked_rows)
    (hwf : l'.WF) (hown : l'.owners = insert tx l.owners) :
    Inv ⟨s.transactionTable.set tx t', s.lockTable.set r l'⟩ := by
  constructor
  · intro k u hk
    simp only [HashTable.get_set] at hk
    split_ifs at hk with hkt
    · injection hk with hk
      subst hk
      rw [hid, hkt]
    · exact h.key k u hk
  · intro r' m hm
    simp only [HashTable.get_set] at hm
    split_ifs at hm with hrr
    · injection hm with hm
      subst hm
      exact hwf
    · exact h.wf r' m hm
  · intro r' m x hm hx
    simp only [HashTable.get_set] at hm ⊢
    by_cases hxt : x = tx
    · rw [if_pos hxt]
      refine ⟨t', rfl, ?_⟩
      rw [hrows]
      split_ifs at hm with hrr
      · rw [hrr]
        exact Finset.mem_insert_self _ _
      · obtain ⟨u, hu, hru⟩ := h.owned r' m x hm hx
        rw [hxt, ht] at hu
        injection hu with hu
        subst hu
        exact Finset.mem_insert_of_mem hru
    · rw [if_neg hxt]
      split_ifs at hm with hrr
      · injection hm with hm
        subst hm
        rw [hown] at hx
        have hx' : x ∈ l.owners := by
          rcases Finset.mem_insert.mp hx with hx | hx
          · exact absurd hx hxt
          · exact hx
        rw [hrr]
        exact h.owned r l x hl hx'
      · exact h.owned r' m x hm hx
  · intro k u r' hk hr'
    simp only [HashTable.get_set] at hk ⊢
    have old : ∀ k', (∃ u', s.transactionTable.get k' = some u' ∧ r' ∈ u'.locked_rows) →
        ∃ m, (if r' = r then some l' else s.lockTable.get r') = some m ∧ k' ∈ m.owners := by
      rintro k' ⟨u', hu', hru'⟩
      obtain ⟨m, hm, hkm⟩ := h.held k' u' r' hu' hru'
      by_cases hrr : r' = r
      · rw [if_pos hrr]
        rw [hrr, hl] at hm
        injection hm with hm
        subst hm
        exact ⟨l', rfl, by rw [hown]; exact Finset.mem_insert_of_mem hkm⟩
      · rw [if_neg hrr]
        exact ⟨m, hm, hkm⟩
    split_ifs at hk with hkt
    · injection hk with hk
      subst hk
      rw [hrows] at hr'
      rcases Finset.mem_insert.mp hr' with hr' | hr'
      · rw [if_pos hr']
        exact ⟨l', rfl, by rw [hown, hkt]; exact Finset.mem_insert_self _ _⟩
      · rw [hkt]
        exact old tx ⟨t, ht, hr'⟩
    · exact old k ⟨u, hk, hr'⟩

/-- Registering an unknown id keeps the tables consistent. -/
theorem Inv_register {s : State} (h : Inv s) {tx : Nat} (b : Nat)
    (ht : s.transactionTable.get tx = none) :
    Inv ⟨s.transactionTable.set tx (newTransaction tx b), s.lockTable⟩ := by
  constructor
  · intro k u hk
    simp only [HashTable.get_set] at hk
    split_ifs at hk with hkt
    · injection hk with hk
      subst hk
      rw [hkt]
      rfl
    · exact h.key k u hk
  · exact h.wf
  · intro r l x hl hx
    obtain ⟨u, hu, hru⟩ := h.owned r l x hl hx
    have hne : x ≠ tx := by
      intro he
      rw [he, ht] at hu
      simp at hu
    exact ⟨u, by simp [hne, hu], hru⟩
  · intro k u r hk hr
    simp only [HashTable.get_set] at hk
    split_ifs at hk with hkt
    · injection hk with hk
      subst hk
      simp [newTransaction] at hr
    · exact h.held k u r hk hr

/-- Dropping a registered transaction that holds no row keeps the tables consistent. -/
theorem Inv_remove_idle {s : State} (h : Inv s) {tx : Nat} {t : Transaction}
    (ht : s.transactionTable.get tx = some t) (he : t.locked_rows = ∅) :
    Inv ⟨s.transactionTable.remove tx, s.lockTable⟩ := by
  constructor
  · intro k u hk
    simp only [HashTable.get_remove] at hk
    split_ifs at hk
    exact h.key k u hk
  · exact h.wf
  · intro r l x hl hx
    obtain ⟨u, hu, hru⟩ := h.owned r l x hl hx
    have hne : x ≠ tx := by
      intro hxe
      rw [hxe, ht] at hu
      injection hu with hu
      subst hu
      rw [he] at hru
      simp at hru
    exact ⟨u, by simp [hne, hu], hru⟩
  · intro k u r hk hr
    simp only [HashTable.get_remove] at hk
    split_ifs at hk
    exact h.held k u r hk hr

/-- Releasing one held row keeps the tables consistent. -/
theorem Inv_releaseRow {s : State} (h : Inv s) {tx r : Nat} {t t' : Transaction}
    (ht : s.transactionTable.get tx = some t)
    (hid : t'.transaction_id = tx) (hrows : t'.locked_rows = t.locked_rows.erase r) :
    Inv ⟨s.transactionTable.set tx t', releaseRow s.lockTable r tx⟩ := by
  constructor
  · intro k u hk
    simp only [HashTable.get_set] at hk
    split_ifs at hk with hkt
    · injection hk with hk
      subst hk
      rw [hid, hkt]
    · exact h.key k u hk
  · intro r' m hm
    simp only [releaseRow_get] at hm
    split_ifs at hm with hrr
    · obtain ⟨l0, h0, rfl, _⟩ := releasedEntry_some hm
      exact release_WF (h.wf r l0 h0) _
    · exact h.wf r' m hm
  · intro r' m x hm hx
    simp only [releaseRow_get] at hm
    simp only [HashTable.get_set]
    split_ifs at hm with hrr
    · obtain ⟨l0, h0, rfl, _⟩ := releasedEntry_some hm
      rw [release_owners] at hx
      obtain ⟨hne, hx0⟩ := Finset.mem_erase.mp hx
      rw [if_neg hne, hrr]
      exact h.owned r l0 x h0 hx0
    · obtain ⟨u, hu, hru⟩ := h.owned r' m x hm hx
      by_cases hxt : x = tx
      · rw [if_pos hxt]
        rw [hxt, ht] at hu
        injection hu with hu
        subst hu
        exact ⟨t', rfl, by rw [hrows]; exact Finset.mem_erase.mpr ⟨hrr, hru⟩⟩
      · rw [if_neg hxt]
        exact ⟨u, hu, hru⟩
  · intro k u r' hk hr'
    simp only [HashTable.get_set] at hk
    simp only [releaseRow_get]
    split_ifs at hk with hkt
    · injection hk with hk
      subst hk
      rw [hrows] at hr'
      obtain ⟨hne, hr0⟩ := Finset.mem_erase.mp hr'
      rw [if_neg hne, hkt]
      exact h.held tx t r' ht hr0
    · obtain ⟨m, hm, hkm⟩ := h.held k u r' hk hr'
      by_cases hrr : r' = r
      · rw [if_pos hrr]
        rw [hrr] at hm
        rw [hm, releasedEntry_of_other (h.wf r m hm) hkm hkt]
        exact ⟨_, rfl, by rw [release_owners]; exact Finset.mem_erase.mpr ⟨hkt, hkm⟩⟩
      · rw [if_neg hrr]
        exact ⟨m, hm, hkm⟩

/-! ## `releaseAllLocks` is the iteration over the held rows -/

theorem release_of_not_mem {l : Lock} {tx : Nat} (h : tx ∉ l.owners) : release l tx = l := by
  unfold release
  rw [if_neg h]

theorem release_idem (l : Lock) (tx : Nat) : release (release l tx) tx = release l tx := by
  apply release_of_not_mem
  rw [release_owners]
  exact Finset.not_mem_erase tx l.owners

theorem releasedEntry_idem (o : Option Lock) (tx : Nat) :
    releasedEntry (releasedEntry o tx) tx = releasedEntry o tx := by
  cases o with
  | none => rfl
  | some l =>
    by_cases hm : (release l tx).mode = LockMode.Free
    · simp [releasedEntry, hm]
    · simp [releasedEntry, hm, release_idem]

/-- Releasing the rows of a list one after the other changes exactly the entries of
the listed rows. -/
theorem foldl_releaseRow_get (rows : List Nat) (lt : HashTable Lock) (tx r : Nat) :
    (rows.foldl (fun acc row => releaseRow acc row tx) lt).get r =
      if r ∈ rows then releasedEntry (lt.get r) tx else lt.get r := by
  induction rows generalizing lt with
  | nil => simp
  | cons row rows ih =>
    rw [List.foldl_cons, ih, releaseRow_get]
    by_cases hr : r = row
    · subst hr
      by_cases hmem : r ∈ rows
      · simp [hmem, releasedEntry_idem]
      · simp [hmem]
    · by_cases hmem : r ∈ rows
      · simp [hr, hmem]
      · simp [hr, hmem]

/-- The lock table after `releaseAllLocks` is the one obtained by visiting the held
rows in any order and releasing each. -/
theorem releaseAllLocks_eq_foldl (t : Transaction) (lt : HashTable Lock) (rows : List Nat)
    (h : ∀ r, r ∈ rows ↔ r ∈ t.locked_rows) :
    (releaseAllLocks t lt).2 =
      rows.foldl (fun acc row => releaseRow acc row t.transaction_id) lt := by
  apply HashTable.ext_get
  intro r
  rw [foldl_releaseRow_get]
  show (if r ∈ t.locked_rows then (releaseRow lt r t.transaction_id).get r else lt.get r) = _
  rw [releaseRow_get]
  by_cases hr : r ∈ t.locked_rows
  · simp [hr, (h r).mpr hr]
  · have : r ∉ rows := fun hm => hr ((h r).mp hm)
    simp [hr, this]

/-! ## The branches of `acquire_lock` -/

theorem upgrade_false {l : Lock} {tx : Nat} (h : (upgrade l tx).1 = false) :
    (upgrade l tx).2 = l := by
  unfold upgrade at h ⊢
  split_ifs at h ⊢
  rfl

theorem upgrade_true {l : Lock} {tx : Nat} (h : (upgrade l tx).1 = true) :
    l.mode = LockMode.Shared ∧ l.owners = {tx} ∧
      (upgrade l tx).2 = ⟨LockMode.Exclusive, l.owners⟩ := by
  unfold upgrade at h ⊢
  split_ifs at h ⊢ with hc
  exact ⟨hc.1, hc.2, rfl⟩

theorem lockOfRow_set_self (s : State) (r : Nat) :
    (⟨(lockOfRow s r).2.transactionTable,
      (lockOfRow s r).2.lockTable.set r (lockOfRow s r).1⟩ : State) = (lockOfRow s r).2 := by
  rw [HashTable.set_same (lockOfRow_get_self s r)]

/-- A refused request of a registered transaction ends in `abort_transaction`, run on
the tables that already hold the lock object of the row. -/
theorem acquire_lock_fail_state {s : State} {tx r : Nat} {e : Bool} {t : Transaction}
    (ht : s.transactionTable.get tx = some t) (hf : (acquire_lock s tx r e).ok = false) :
    (acquire_lock s tx r e).state = abort_transaction (lockOfRow s r).2 t := by
  unfold acquire_lock at hf ⊢
  simp only [ht] at hf ⊢
  split_ifs at hf ⊢ with h1 h2 h3 h4 h5 h6
  · rfl
  · rfl
  · show abort_transaction _ t = _
    rw [upgrade_false (by simpa using h4), lockOfRow_set_self]
  · show abort_transaction _ _ = _
    have hfalse : (addLock t r e (lockOfRow s r).1).1 = false := by simpa using h6
    rw [addLock_false hfalse]
    show abort_transaction ⟨(lockOfRow s r).2.transactionTable.set tx t,
      (lockOfRow s r).2.lockTable.set r (lockOfRow s r).1⟩ t = _
    rw [HashTable.set_same (lockOfRow_get_self s r),
      HashTable.set_same (by rw [lockOfRow_transactionTable]; exact ht)]
  · rfl

/-- A granted request is either an upgrade or a fresh acquisition. -/
theorem acquire_lock_ok_state {s : State} {tx r : Nat} {e : Bool} {t : Transaction}
    (ht : s.transactionTable.get tx = some t) (hok : (acquire_lock s tx r e).ok = true) :
    t.phase = Phase.Growing ∧ 0 < t.lock_budget ∧
    ((r ∈ t.locked_rows ∧ e = true ∧ (lockOfRow s r).1.mode = LockMode.Shared ∧
        (lockOfRow s r).1.owners = {tx} ∧
        (acquire_lock s tx r e).state =
          ⟨(lockOfRow s r).2.transactionTable,
            (lockOfRow s r).2.lockTable.set r
              ⟨LockMode.Exclusive, (lockOfRow s r).1.owners⟩⟩) ∨
     (r ∉ t.locked_rows ∧ (addLock t r e (lockOfRow s r).1).1 = true ∧
        (acquire_lock s tx r e).state =
          ⟨(lockOfRow s r).2.transactionTable.set tx (addLock t r e (lockOfRow s r).1).2.1,
            (lockOfRow s r).2.lockTable.set r (addLock t r e (lockOfRow s r).1).2.2⟩)) := by
  unfold acquire_lock at hok ⊢
  simp only [ht] at hok ⊢
  split_ifs at hok ⊢ with h1 h2 h3 h4 h5 h6
  · have hg : t.phase = Phase.Growing := by simpa [Transaction.growing_phase] using h1
    have hb : 0 < t.lock_budget := by omega
    refine ⟨hg, hb, Or.inl ?_⟩
    obtain ⟨hm, ho, hu⟩ := upgrade_true h4
    simp only [Bool.and_eq_true, hasLock, decide_eq_true_eq] at h3
    exact ⟨h3.1.1, h3.1.2, hm, ho, by rw [hu]⟩
  · have hg : t.phase = Phase.Growing := by simpa [Transaction.growing_phase] using h1
    have hb : 0 < t.lock_budget := by omega
    refine ⟨hg, hb, Or.inr ?_⟩
    have hr : r ∉ t.locked_rows := by simpa [hasLock] using h5
    exact ⟨hr, h6, rfl⟩

/-! ## Every operation keeps the table invariant -/

theorem Inv_acquire_lock {s : State} (h : Inv s) (tx r : Nat) (e : Bool) :
    Inv (acquire_lock s tx r e).state := by
  cases ht : s.transactionTable.get tx with
  | none =>
    have : (acquire_lock s tx r e).state = s := by
      unfold acquire_lock
      rw [ht]
    rw [this]
    exact h
  | some t =>
    have h1 : Inv (lockOfRow s r).2 := Inv_lockOfRow h r
    have ht1 : (lockOfRow s r).2.transactionTable.get tx = some t := by
      rw [lockOfRow_transactionTable]; exact ht
    have hid : t.transaction_id = tx := h.key tx t ht
    cases hok : (acquire_lock s tx r e).ok with
    | false =>
      rw [acquire_lock_fail_state ht hok]
      exact Inv_abort h1 ht1
    | true =>
      obtain ⟨_, _, hc | hc⟩ := acquire_lock_ok_state ht hok
      · obtain ⟨_, _, _, ho, hst⟩ := hc
        rw [hst]
        exact Inv_upgrade h1 (lockOfRow_get_self s r) ho
      · obtain ⟨_, hadd, hst⟩ := hc
        rw [hst]
        have hwf : (lockOfRow s r).1.WF := h1.wf r _ (lockOfRow_get_self s r)
        obtain ⟨_, _, _, ht', hl'⟩ := addLock_true hadd
        refine Inv_grant h1 ht1 (lockOfRow_get_self s r) (by rw [ht']; exact hid)
          (by rw [ht']) ?_ ?_
        · rcases hl' with ⟨_, _, hl'⟩ | ⟨_, _, hl'⟩
          · rw [hl']; simp [Lock.WF]
          · rw [hl']; simp [Lock.WF]
        · rcases hl' with ⟨_, hm, hl'⟩ | ⟨_, _, hl'⟩
          · rw [hl', hwf.2.2 hm, hid]; rfl
          · rw [hl', hid]

theorem Inv_lock {s : State} (h : Inv s) (tx r : Nat) (e : Bool) :
    Inv (lock s tx r e).state := by
  unfold lock
  cases ht : s.transactionTable.get tx with
  | none => exact h
  | some t => exact Inv_acquire_lock h tx r e

theorem Inv_registerTransaction {s : State} (h : Inv s) (tx b : Nat) :
    Inv (registerTransaction s tx b).state := by
  unfold registerTransaction
  cases ht : s.transactionTable.get tx with
  | none =>
    have : s.transactionTable.contains tx = false := by simp [HashTable.contains, HashTable.get] at ht ⊢; exact ht
    simp only [this]
    exact Inv_register h b ht
  | some t =>
    have : s.transactionTable.contains tx = true := by
      simp only [HashTable.contains, HashTable.get] at ht ⊢
      rw [ht]; rfl
    simp only [this]
    exact h

theorem HashTable.remove_set {α : Type} (t : HashTable α) (k : Nat) (v : α) :
    (t.set k v).remove k = t.remove k := by
  apply HashTable.ext_get
  intro k'
  by_cases hk : k' = k <;> simp [hk]

theorem Inv_release_lock {s : State} (h : Inv s) (tx r : Nat) :
    Inv (release_lock s tx r).2 := by
  unfold release_lock
  cases ht : s.transactionTable.get tx with
  | none => exact h
  | some t =>
    cases hl : s.lockTable.get r with
    | none => exact h
    | some l =>
      have hid : t.transaction_id = tx := h.key tx t ht
      simp only
      unfold releaseLock
      by_cases hr : r ∈ t.locked_rows
      · simp only [if_pos hr, hid]
        have hrel := @Inv_releaseRow s h tx r t
          ⟨tx, Phase.Shrinking, t.locked_rows.erase r, t.lock_budget⟩ ht rfl rfl
        split_ifs with hc
        · have hempty : t.locked_rows.erase r = ∅ := by
            simpa [Transaction.locked_rows_size] using hc
          have := @Inv_remove_idle _ hrel tx
            ⟨tx, Phase.Shrinking, t.locked_rows.erase r, t.lock_budget⟩ (by simp) hempty
          rw [HashTable.remove_set] at this
          exact this
        · exact hrel
      · simp only [if_neg hr]
        split_ifs with hc
        · have hempty : t.locked_rows = ∅ := by
            simpa [Transaction.locked_rows_size] using hc
          exact Inv_remove_idle h ht hempty
        · rw [HashTable.set_same ht]
          exact h

theorem Inv_unlock {s : State} (h : Inv s) (tx r : Nat) : Inv (unlock s tx r).state := by
  unfold unlock
  cases ht : s.transactionTable.get tx with
  | none => exact h
  | some t => exact Inv_release_lock h tx r

theorem Inv_step {s : State} (h : Inv s) (op : Op) : Inv (step s op) := by
  cases op with
  | register tx b => exact Inv_registerTransaction h tx b
  | lock tx r e => exact Inv_lock h tx r e
  | unlock tx r => exact Inv_unlock h tx r

theorem Inv_run {s : State} (h : Inv s) (ops : List Op) : Inv (run s ops) := by
  induction ops generalizing s with
  | nil => exact h
  | cons op ops ih => exact ih (Inv_step h op)

theorem Inv_of_Reachable {s : State} (h : Reachable s) : Inv s := by
  obtain ⟨ops, rfl⟩ := h
  exact Inv_run Inv_init ops

theorem Reachable_step {s : State} (h : Reachable s) (op : Op) : Reachable (step s op) := by
  obtain ⟨ops, rfl⟩ := h
  exact ⟨ops ++ [op], by simp [run, List.foldl_append]⟩

/-! ## Unregistered ids stay unregistered until `register` -/

theorem acquire_lock_absent {s : State} {tx : Nat} (h : s.transactionTable.get tx = none)
    (tx' r : Nat) (e : Bool) : (acquire_lock s tx' r e).state.transactionTable.get tx = none := by
  cases ht : s.transactionTable.get tx' with
  | none =>
    have : (acquire_lock s tx' r e).state = s := by
      unfold acquire_lock
      rw [ht]
    rw [this]
    exact h
  | some t =>
    have h1 : (lockOfRow s r).2.transactionTable.get tx = none := by
      rw [lockOfRow_transactionTable]; exact h
    have hne : tx ≠ tx' := by
      intro he
      rw [he, ht] at h
      simp at h
    cases hok : (acquire_lock s tx' r e).ok with
    | false =>
      rw [acquire_lock_fail_state ht hok, abort_transactionTable]
      split_ifs
      · rfl
      · exact h1
    | true =>
      obtain ⟨_, _, hc | hc⟩ := acquire_lock_ok_state ht hok
      · rw [hc.2.2.2.2]
        exact h1
      · rw [hc.2.2]
        simp only [HashTable.get_set, if_neg hne]
        exact h1

theorem lock_absent {s : State} {tx : Nat} (h : s.transactionTable.get tx = none)
    (tx' r : Nat) (e : Bool) : (lock s tx' r e).state.transactionTable.get tx = none := by
  unfold lock
  cases ht : s.transactionTable.get tx' with
  | none => exact h
  | some t => exact acquire_lock_absent h tx' r e

theorem unlock_absent {s : State} {tx : Nat} (h : s.transactionTable.get tx = none)
    (tx' r : Nat) : (unlock s tx' r).state.transactionTable.get tx = none := by
  unfold unlock
  cases ht : s.transactionTable.get tx' with
  | none => exact h
  | some t =>
    have hne : tx ≠ tx' := by
      intro he
      rw [he, ht] at h
      simp at h
    simp only
    unfold release_lock
    rw [ht]
    cases hl : s.lockTable.get r with
    | none => exact h
    | some l =>
      simp only
      split_ifs
      · simp only [HashTable.get_remove, if_neg hne]
        exact h
      · simp only [HashTable.get_set, if_neg hne]
        exact h

theorem run_absent {s : State} {tx : Nat} (h : s.transactionTable.get tx = none)
    (ops : List Op) (hops : ∀ b, Op.register tx b ∉ ops) :
    (run s ops).transactionTable.get tx = none := by
  induction ops generalizing s with
  | nil => exact h
  | cons op ops ih =>
    have hrest : ∀ b, Op.register tx b ∉ ops := fun b hb => hops b (List.mem_cons_of_mem _ hb)
    refine ih (s := step s op) ?_ hrest
    cases op with
    | register tx' b =>
      have hne : tx ≠ tx' := by
        intro he
        apply hops b
        rw [he]
        exact List.mem_cons_self _ _
      show (registerTransaction s tx' b).state.transactionTable.get tx = none
      unfold registerTransaction
      split_ifs
      · exact h
      · simp only [HashTable.get_set, if_neg hne]
        exact h
    | lock tx' r e => exact lock_absent h tx' r e
    | unlock tx' r => exact unlock_absent h tx' r

theorem lock_of_absent {s : State} {tx : Nat} (h : s.transactionTable.get tx = none)
    (r : Nat) (e : Bool) :
    lock s tx r e = ⟨false, ["Need to register transaction before lock requests"], none, s⟩ := by
  unfold lock
  rw [h]

theorem lock_of_registered {s : State} {tx : Nat} {t : Transaction}
    (h : s.transactionTable.get tx = some t) (r : Nat) (e : Bool) :
    lock s tx r e = acquire_lock s tx r e := by
  unfold lock
  rw [h]

/-- In a consistent state the holder of a row is exactly an owner of its lock. -/
theorem Inv.mem_rows_iff {s : State} (h : Inv s) {tx r : Nat} {t : Transaction} {l : Lock}
    (ht : s.transactionTable.get tx = some t) (hl : s.lockTable.get r = some l) :
    r ∈ t.locked_rows ↔ tx ∈ l.owners := by
  constructor
  · intro hr
    obtain ⟨l', hl', hx⟩ := h.held tx t r ht hr
    rw [hl] at hl'
    injection hl' with hl'
    rw [hl']
    exact hx
  · intro hx
    obtain ⟨t', ht', hr⟩ := h.owned r l tx hl hx
    rw [ht] at ht'
    injection ht' with ht'
    rw [ht']
    exact hr

/-- What is left of a lock when one of several owners is released. -/
theorem release_of_shared {l : Lock} {tx k : Nat} (htx : tx ∈ l.owners) (hk : k ∈ l.owners)
    (hne : k ≠ tx) : release l tx = ⟨l.mode, l.owners.erase tx⟩ := by
  have hmem : k ∈ l.owners.erase tx := Finset.mem_erase.mpr ⟨hne, hk⟩
  have hnon : l.owners.erase tx ≠ ∅ := Finset.ne_empty_of_mem hmem
  unfold release
  rw [if_pos htx, if_neg hnon]

/-! ## Claims -/

/-- C1 (no double grant): in every state reached from the empty manager by a sequence
of register, lock and unlock operations, a lock of the lock table in Exclusive mode has
exactly one owner and a lock in Shared mode has at least one owner. -/
theorem no_double_grant (ops : List Op) (r : Nat) (l : Lock)
    (hl : (run State.init ops).lockTable.get r = some l) :
    (l.mode = LockMode.Exclusive → l.owners.card = 1) ∧
    (l.mode = LockMode.Shared → 1 ≤ l.owners.card) := by
  have hwf : l.WF := (Inv_run Inv_init ops).wf r l hl
  exact ⟨hwf.1, fun hm => Finset.card_pos.mpr (hwf.2.1 hm)⟩

/-- Witness of C1: two transactions share row 0 and one of them holds row 1
exclusively. -/
theorem no_double_grant_witness :
    (run State.init [Op.register 0 10, Op.register 1 10, Op.lock 0 0 false,
        Op.lock 1 0 false, Op.lock 1 1 true]).lockTable.get 0
      = some ⟨LockMode.Shared, {1, 0}⟩ ∧
    (((⟨LockMode.Shared, {1, 0}⟩ : Lock).mode = LockMode.Exclusive →
        (⟨LockMode.Shared, {1, 0}⟩ : Lock).owners.card = 1) ∧
      ((⟨LockMode.Shared, {1, 0}⟩ : Lock).mode = LockMode.Shared →
        1 ≤ (⟨LockMode.Shared, {1, 0}⟩ : Lock).owners.card)) :=
  ⟨by decide,
    no_double_grant [Op.register 0 10, Op.register 1 10, Op.lock 0 0 false,
      Op.lock 1 0 false, Op.lock 1 1 true] 0 ⟨LockMode.Shared, {1, 0}⟩ (by decide)⟩

/-- C2 (ghost lock, scenario S4 of the specification): after register(0,1);
lock(0,0,S); lock(0,1,S) the second request is refused for the exhausted budget and
transaction 0 is aborted, yet the lock object that `acquire_lock` stored for row 1
before its checks stays in the lock table with an empty owner set. -/
theorem ghost_lock_after_refused_request :
    (lock (run State.init [Op.register 0 1, Op.lock 0 0 false]) 0 1 false).ok = false ∧
    (lock (run State.init [Op.register 0 1, Op.lock 0 0 false]) 0 1 false).errors
      = ["Lock budget exhausted"] ∧
    (run State.init [Op.register 0 1, Op.lock 0 0 false, Op.lock 0 1 false]).transactionTable.get 0
      = none ∧
    (run State.init [Op.register 0 1, Op.lock 0 0 false, Op.lock 0 1 false]).lockTable.get 0
      = none ∧
    (run State.init [Op.register 0 1, Op.lock 0 0 false, Op.lock 0 1 false]).lockTable.get 1
      = some ⟨LockMode.Free, ∅⟩ := by
  decide

/-- C3: when a lock request of a registered transaction fails in a reachable state,
the transaction is gone from the transaction table, it owns no lock of the lock
table, and after any further operations that do not register it again each of its
lock requests fails. -/
theorem failed_request_aborts (s : State) (hs : Reachable s) (tx r : Nat) (e : Bool)
    (t : Transaction) (ht : s.transactionTable.get tx = some t)
    (hfail : (lock s tx r e).ok = false) :
    (lock s tx r e).state.transactionTable.get tx = none ∧
    (∀ r' l, (lock s tx r e).state.lockTable.get r' = some l → tx ∉ l.owners) ∧
    (∀ ops : List Op, (∀ b, Op.register tx b ∉ ops) → ∀ r' e',
      (lock (run (lock s tx r e).state ops) tx r' e').ok = false) := by
  rw [lock_of_registered ht] at hfail ⊢
  have h1 : Inv (lockOfRow s r).2 := Inv_lockOfRow (Inv_of_Reachable hs) r
  have ht1 : (lockOfRow s r).2.transactionTable.get tx = some t := by
    rw [lockOfRow_transactionTable]; exact ht
  rw [acquire_lock_fail_state ht hfail]
  obtain ⟨hgone, hown⟩ := abort_clears h1 ht1
  refine ⟨hgone, hown, ?_⟩
  intro ops hops r' e'
  rw [lock_of_absent (run_absent hgone ops hops)]

/-- Witness of C3: transaction 0 holds rows 0 and 1 and asks for row 1 again. -/
theorem failed_request_aborts_witness :
    (lock (run State.init [Op.register 0 10, Op.lock 0 0 false, Op.lock 0 1 false])
        0 1 false).state.transactionTable.get 0 = none ∧
    (∀ r' l, (lock (run State.init [Op.register 0 10, Op.lock 0 0 false, Op.lock 0 1 false])
        0 1 false).state.lockTable.get r' = some l → 0 ∉ l.owners) ∧
    (∀ ops : List Op, (∀ b, Op.register 0 b ∉ ops) → ∀ r' e',
      (lock (run (lock (run State.init [Op.register 0 10, Op.lock 0 0 false,
        Op.lock 0 1 false]) 0 1 false).state ops) 0 r' e').ok = false) :=
  failed_request_aborts
    (run State.init [Op.register 0 10, Op.lock 0 0 false, Op.lock 0 1 false])
    ⟨[Op.register 0 10, Op.lock 0 0 false, Op.lock 0 1 false], rfl⟩
    0 1 false ⟨0, Phase.Growing, {1, 0}, 8⟩ (by decide) (by decide)

/-- C4: a lock request for a transaction id that is not in the transaction table
fails and changes neither table, both at the registration check of
`enclave_send_job` and in `acquire_lock` itself. -/
theorem lock_unregistered_unchanged (s : State) (tx r : Nat) (e : Bool)
    (h : s.transactionTable.get tx = none) :
    (lock s tx r e).ok = false ∧ (lock s tx r e).state = s ∧
    (acquire_lock s tx r e).ok = false ∧ (acquire_lock s tx r e).state = s := by
  refine ⟨by rw [lock_of_absent h], by rw [lock_of_absent h], ?_, ?_⟩ <;>
  · unfold acquire_lock
    rw [h]

/-- Witness of C4: transaction 7 asks for a row of a manager that only knows
transaction 0. -/
theorem lock_unregistered_unchanged_witness :
    (lock (run State.init [Op.register 0 10]) 7 3 true).ok = false ∧
    (lock (run State.init [Op.register 0 10]) 7 3 true).state
      = run State.init [Op.register 0 10] ∧
    (acquire_lock (run State.init [Op.register 0 10]) 7 3 true).ok = false ∧
    (acquire_lock (run State.init [Op.register 0 10]) 7 3 true).state
      = run State.init [Op.register 0 10] :=
  lock_unregistered_unchanged (run State.init [Op.register 0 10]) 7 3 true (by decide)

/-- C5: `register(tx, budget)` succeeds exactly when `tx` is not in the transaction
table; on success `tx` is stored in the Growing phase with no rows and the given
budget while every other entry and the lock table stay as they were; on an
already registered `tx` it reports the error and changes nothing. -/
theorem register_fresh_or_rejected (s : State) (tx b : Nat) :
    ((registerTransaction s tx b).ok = true ↔ s.transactionTable.get tx = none) ∧
    (s.transactionTable.get tx = none →
      (registerTransaction s tx b).state.transactionTable.get tx
        = some ⟨tx, Phase.Growing, ∅, b⟩ ∧
      (∀ k, k ≠ tx → (registerTransaction s tx b).state.transactionTable.get k
        = s.transactionTable.get k) ∧
      (registerTransaction s tx b).state.lockTable = s.lockTable) ∧
    (∀ t, s.transactionTable.get tx = some t →
      (registerTransaction s tx b).ok = false ∧
      (registerTransaction s tx b).errors = ["Transaction is already registered"] ∧
      (registerTransaction s tx b).state = s) := by
  unfold registerTransaction
  cases ht : s.transactionTable.get tx with
  | none =>
    have hc : s.transactionTable.contains tx = false := by
      simp only [HashTable.contains, HashTable.get] at ht ⊢
      rw [ht]; rfl
    simp only [hc]
    refine ⟨by simp, fun _ => ⟨by simp [newTransaction], ?_, rfl⟩, by simp⟩
    intro k hk
    simp [hk]
  | some t =>
    have hc : s.transactionTable.contains tx = true := by
      simp only [HashTable.contains, HashTable.get] at ht ⊢
      rw [ht]; rfl
    simp only [hc]
    simp

/-- C6: for a registered transaction that is not in the Growing phase and has no budget
left, a lock request is refused with the 2PL diagnostic and not with the budget
diagnostic; the budget check does apply to it, since the same transaction put in
the Growing phase is refused with the budget diagnostic. -/
theorem phase_checked_before_budget (s : State) (tx r : Nat) (e : Bool) (t : Transaction)
    (ht : s.transactionTable.get tx = some t) (hp : t.phase ≠ Phase.Growing)
    (hb : t.lock_budget = 0) :
    (lock s tx r e).ok = false ∧
    (lock s tx r e).errors = ["Cannot acquire more locks according to 2PL"] ∧
    (lock s tx r e).errors ≠ ["Lock budget exhausted"] ∧
    (lock ⟨s.transactionTable.set tx
          ⟨t.transaction_id, Phase.Growing, t.locked_rows, t.lock_budget⟩, s.lockTable⟩
        tx r e).errors = ["Lock budget exhausted"] := by
  have hg : t.growing_phase = false := by simp [Transaction.growing_phase, hp]
  refine ⟨?_, ?_, ?_, ?_⟩
  · rw [lock_of_registered ht]
    unfold acquire_lock
    simp [ht, hg]
  · rw [lock_of_registered ht]
    unfold acquire_lock
    simp [ht, hg]
  · rw [lock_of_registered ht]
    unfold acquire_lock
    simp [ht, hg]
  · rw [lock_of_registered (t := ⟨t.transaction_id, Phase.Growing, t.locked_rows,
      t.lock_budget⟩) (by simp)]
    unfold acquire_lock
    simp [Transaction.growing_phase, hb]

/-- Witness of C6: transaction 0 spent its budget of 2 on rows 0 and 1, released
row 0 (so it is Shrinking with budget 0) and asks for row 2. -/
theorem phase_checked_before_budget_witness :
    (lock (run State.init [Op.register 0 2, Op.lock 0 0 false, Op.lock 0 1 false,
        Op.unlock 0 0]) 0 2 false).ok = false ∧
    (lock (run State.init [Op.register 0 2, Op.lock 0 0 false, Op.lock 0 1 false,
        Op.unlock 0 0]) 0 2 false).errors = ["Cannot acquire more locks according to 2PL"] ∧
    (lock (run State.init [Op.register 0 2, Op.lock 0 0 false, Op.lock 0 1 false,
        Op.unlock 0 0]) 0 2 false).errors ≠ ["Lock budget exhausted"] ∧
    (lock ⟨(run State.init [Op.register 0 2, Op.lock 0 0 false, Op.lock 0 1 false,
        Op.unlock 0 0]).transactionTable.set 0 ⟨0, Phase.Growing, {1}, 0⟩,
      (run State.init [Op.register 0 2, Op.lock 0 0 false, Op.lock 0 1 false,
        Op.unlock 0 0]).lockTable⟩ 0 2 false).errors = ["Lock budget exhausted"] :=
  phase_checked_before_budget
    (run State.init [Op.register 0 2, Op.lock 0 0 false, Op.lock 0 1 false, Op.unlock 0 0])
    0 2 false ⟨0, Phase.Shrinking, {1}, 0⟩ (by decide) (by decide) (by decide)

/-- C7 (upgrade): in a reachable state, when a Growing transaction with budget left is
the only owner of the Shared lock of row `r`, its Exclusive request on `r` is granted,
the lock becomes Exclusive with that transaction as only owner, and the transaction
(budget and rows) and the whole transaction table stay as they were; in scenario S1
the budget after two fresh locks and the upgrade is 8. -/
theorem upgrade_sole_shared_owner (s : State) (hs : Reachable s) (tx r : Nat)
    (t : Transaction) (l : Lock) (ht : s.transactionTable.get tx = some t)
    (hg : t.phase = Phase.Growing) (hb : 0 < t.lock_budget)
    (hl : s.lockTable.get r = some l) (hm : l.mode = LockMode.Shared)
    (ho : l.owners = {tx}) :
    (lock s tx r true).ok = true ∧
    (lock s tx r true).state.lockTable.get r = some ⟨LockMode.Exclusive, {tx}⟩ ∧
    (lock s tx r true).state.transactionTable.get tx = some t ∧
    (lock s tx r true).state.transactionTable = s.transactionTable ∧
    ((run State.init [Op.register 0 10, Op.lock 0 0 false, Op.lock 0 1 false,
        Op.lock 0 0 true]).transactionTable.get 0).map Transaction.lock_budget = some 8 := by
  have hinv := Inv_of_Reachable hs
  have hr : r ∈ t.locked_rows := (hinv.mem_rows_iff ht hl).mpr (by rw [ho]; simp)
  have hhas : hasLock t r = true := by simp [hasLock, hr]
  have hgp : t.growing_phase = true := by simp [Transaction.growing_phase, hg]
  have hex : l.exclusive = false := by simp [Lock.exclusive, hm]
  have hup : upgrade l tx = (true, ⟨LockMode.Exclusive, l.owners⟩) := by
    unfold upgrade
    rw [if_pos ⟨hm, ho⟩]
  have hnb : ¬ t.lock_budget < 1 := by omega
  have key : acquire_lock s tx r true =
      ⟨true, [], some (lock_to_string (toInt32 tx) (toInt32 r) true),
        ⟨s.transactionTable, s.lockTable.set r ⟨LockMode.Exclusive, l.owners⟩⟩⟩ := by
    unfold acquire_lock
    simp only [ht, lockOfRow_of_some hl, hgp, hhas, hex, hup, hnb]
    rfl
  rw [lock_of_registered ht, key]
  refine ⟨rfl, by simp [ho], ht, rfl, by decide⟩

/-- Witness of C7: transaction 0 holds row 0 in Shared mode alone and asks for it in
Exclusive mode. -/
theorem upgrade_sole_shared_owner_witness :
    (lock (run State.init [Op.register 0 10, Op.lock 0 0 false]) 0 0 true).ok = true ∧
    (lock (run State.init [Op.register 0 10, Op.lock 0 0 false]) 0 0 true).state.lockTable.get 0
      = some ⟨LockMode.Exclusive, {0}⟩ ∧
    (lock (run State.init [Op.register 0 10, Op.lock 0 0 false]) 0 0 true).state.transactionTable.get 0
      = some ⟨0, Phase.Growing, {0}, 9⟩ ∧
    (lock (run State.init [Op.register 0 10, Op.lock 0 0 false]) 0 0 true).state.transactionTable
      = (run State.init [Op.register 0 10, Op.lock 0 0 false]).transactionTable ∧
    ((run State.init [Op.register 0 10, Op.lock 0 0 false, Op.lock 0 1 false,
        Op.lock 0 0 true]).transactionTable.get 0).map Transaction.lock_budget = some 8 :=
  upgrade_sole_shared_owner (run State.init [Op.register 0 10, Op.lock 0 0 false])
    ⟨[Op.register 0 10, Op.lock 0 0 false], rfl⟩ 0 0 ⟨0, Phase.Growing, {0}, 9⟩
    ⟨LockMode.Shared, {0}⟩ (by decide) (by decide) (by decide) (by decide) (by decide)
    (by decide)

/-- C8 (blocked upgrade): in a reachable state, when `tx` owns the Shared lock of row `r`
together with another transaction and asks for `r` in Exclusive mode, the request
fails, `tx` leaves the transaction table and owns no lock any more, and the lock of
`r` stays Shared with the other owners. -/
theorem blocked_upgrade_aborts (s : State) (hs : Reachable s) (tx r other : Nat)
    (t : Transaction) (l : Lock) (ht : s.transactionTable.get tx = some t)
    (hl : s.lockTable.get r = some l) (hm : l.mode = LockMode.Shared)
    (htx : tx ∈ l.owners) (hother : other ∈ l.owners) (hne : other ≠ tx) :
    (lock s tx r true).ok = false ∧
    (lock s tx r true).state.transactionTable.get tx = none ∧
    (∀ r' l', (lock s tx r true).state.lockTable.get r' = some l' → tx ∉ l'.owners) ∧
    (lock s tx r true).state.lockTable.get r
      = some ⟨LockMode.Shared, l.owners.erase tx⟩ := by
  have hinv := Inv_of_Reachable hs
  have hr : r ∈ t.locked_rows := (hinv.mem_rows_iff ht hl).mpr htx
  rw [lock_of_registered ht]
  have hfail : (acquire_lock s tx r true).ok = false := by
    cases hok : (acquire_lock s tx r true).ok with
    | false => rfl
    | true =>
      exfalso
      obtain ⟨_, _, hc | hc⟩ := acquire_lock_ok_state ht hok
      · have ho := hc.2.2.2.1
        rw [lockOfRow_of_some hl] at ho
        rw [ho] at hother
        exact hne (by simpa using hother)
      · exact hc.1 hr
  rw [acquire_lock_fail_state ht hfail, lockOfRow_of_some hl]
  obtain ⟨hgone, hown⟩ := abort_clears hinv ht
  refine ⟨hfail, hgone, hown, ?_⟩
  rw [abort_lockTable, if_pos hr, hl, hinv.key tx t ht,
    releasedEntry_of_other (hinv.wf r l hl) hother hne,
    release_of_shared htx hother hne, hm]

/-- Witness of C8: transactions 0 and 1 share row 0 and transaction 1 asks for it in
Exclusive mode. -/
theorem blocked_upgrade_aborts_witness :
    (lock (run State.init [Op.register 0 10, Op.register 1 10, Op.lock 0 0 false,
        Op.lock 1 0 false]) 1 0 true).ok = false ∧
    (lock (run State.init [Op.register 0 10, Op.register 1 10, Op.lock 0 0 false,
        Op.lock 1 0 false]) 1 0 true).state.transactionTable.get 1 = none ∧
    (∀ r' l', (lock (run State.init [Op.register 0 10, Op.register 1 10, Op.lock 0 0 false,
        Op.lock 1 0 false]) 1 0 true).state.lockTable.get r' = some l' → 1 ∉ l'.owners) ∧
    (lock (run State.init [Op.register 0 10, Op.register 1 10, Op.lock 0 0 false,
        Op.lock 1 0 false]) 1 0 true).state.lockTable.get 0
      = some ⟨LockMode.Shared, ({1, 0} : Finset Nat).erase 1⟩ :=
  blocked_upgrade_aborts
    (run State.init [Op.register 0 10, Op.register 1 10, Op.lock 0 0 false, Op.lock 1 0 false])
    ⟨[Op.register 0 10, Op.register 1 10, Op.lock 0 0 false, Op.lock 1 0 false], rfl⟩
    1 0 0 ⟨1, Phase.Growing, {0}, 9⟩ ⟨LockMode.Shared, {1, 0}⟩
    (by decide) (by decide) (by decide) (by decide) (by decide) (by decide)

/-- A conflicting request for a row `tx` does not hold: in a reachable state, when the
lock of row `r` is owned by another transaction and is Exclusive (any mode
requested), or is Shared, not owned by `tx` itself, and Exclusive is requested, the
request of a registered Growing `tx` with budget left fails, `tx` leaves the
transaction table, and the lock of `r` keeps its mode and its owners; the refusal is
the one of the fresh acquisition (none of the diagnostics of the phase, budget or
redundancy checks). -/
theorem fresh_conflict_aborts (s : State) (hs : Reachable s) (tx r other : Nat) (e : Bool)
    (t : Transaction) (l : Lock) (ht : s.transactionTable.get tx = some t)
    (hg : t.phase = Phase.Growing) (hb : 0 < t.lock_budget)
    (hl : s.lockTable.get r = some l) (hother : other ∈ l.owners) (hne : other ≠ tx)
    (hc : l.mode = LockMode.Exclusive ∨
      (l.mode = LockMode.Shared ∧ e = true ∧ tx ∉ l.owners)) :
    (lock s tx r e).ok = false ∧
    (lock s tx r e).errors = [] ∧
    (lock s tx r e).state.transactionTable.get tx = none ∧
    (lock s tx r e).state.lockTable.get r = some l := by
  have hinv := Inv_of_Reachable hs
  have hwf := hinv.wf r l hl
  have htx : tx ∉ l.owners := by
    rcases hc with hx | ⟨_, _, h⟩
    · intro hmem
      obtain ⟨a, ha⟩ := Finset.card_eq_one.mp (hwf.1 hx)
      rw [ha] at hmem hother
      have h1 : tx = a := by simpa using hmem
      have h2 : other = a := by simpa using hother
      exact hne (h2.trans h1.symm)
    · exact h
  have hr : r ∉ t.locked_rows := fun h => htx ((hinv.mem_rows_iff ht hl).mp h)
  rw [lock_of_registered ht]
  have hfail : (acquire_lock s tx r e).ok = false := by
    cases hok : (acquire_lock s tx r e).ok with
    | false => rfl
    | true =>
      exfalso
      obtain ⟨_, _, hu | hu⟩ := acquire_lock_ok_state ht hok
      · exact hr hu.1
      · have hadd := hu.2.1
        rw [lockOfRow_of_some hl] at hadd
        obtain ⟨_, _, _, _, hcase⟩ := addLock_true hadd
        rcases hcase with ⟨_, hfree, _⟩ | ⟨he, hmode, _⟩
        · rcases hc with hx | ⟨hsh, _⟩
          · rw [hfree] at hx; cases hx
          · rw [hfree] at hsh; cases hsh
        · rcases hc with hx | ⟨_, he', _⟩
          · rcases hmode with hmode | hmode
            · rw [hmode] at hx; cases hx
            · rw [hmode] at hx; cases hx
          · rw [he] at he'; cases he'
  have herr : (acquire_lock s tx r e).errors = [] := by
    have hgp : t.growing_phase = true := by simp [Transaction.growing_phase, hg]
    have hhas : hasLock t r = false := by simp [hasLock, hr]
    have hnb : ¬ t.lock_budget < 1 := by omega
    have hadd : (addLock t r e l).1 = false := by
      have := hfail
      unfold acquire_lock at this
      simp only [ht, lockOfRow_of_some hl, hgp, hhas, hnb] at this
      cases hv : (addLock t r e l).1 with
      | false => rfl
      | true => simp [hv] at this
    unfold acquire_lock
    simp only [ht, lockOfRow_of_some hl, hgp, hhas, hnb, hadd]
    rfl
  rw [acquire_lock_fail_state ht hfail, lockOfRow_of_some hl]
  refine ⟨hfail, herr, (abort_clears hinv ht).1, ?_⟩
  rw [abort_lockTable, if_neg hr]
  exact hl

/-- Scenario S2: transaction 0 holds row 0 in Shared mode and transaction 1 asks for
it in Exclusive mode. -/
theorem fresh_conflict_aborts_witness :
    (lock (run State.init [Op.register 0 10, Op.register 1 10, Op.lock 0 0 false])
        1 0 true).ok = false ∧
    (lock (run State.init [Op.register 0 10, Op.register 1 10, Op.lock 0 0 false])
        1 0 true).errors = [] ∧
    (lock (run State.init [Op.register 0 10, Op.register 1 10, Op.lock 0 0 false])
        1 0 true).state.transactionTable.get 1 = none ∧
    (lock (run State.init [Op.register 0 10, Op.register 1 10, Op.lock 0 0 false])
        1 0 true).state.lockTable.get 0 = some ⟨LockMode.Shared, {0}⟩ :=
  fresh_conflict_aborts
    (run State.init [Op.register 0 10, Op.register 1 10, Op.lock 0 0 false])
    ⟨[Op.register 0 10, Op.register 1 10, Op.lock 0 0 false], rfl⟩
    1 0 0 true ⟨1, Phase.Growing, ∅, 10⟩ ⟨LockMode.Shared, {0}⟩
    (by decide) (by decide) (by decide) (by decide) (by decide) (by decide) (by decide)

/-- C9, as stated, fails: after register(0,10); register(1,10); lock(0,0,S);
lock(1,0,S), row 0 is held by another transaction than 1 (transaction 0), in Shared
mode, and transaction 1 is registered, Growing and has budget left. Its request for
Exclusive mode fails and removes it, but the owner set of the lock of row 0 changes
from {1, 0} to {0}: the abort releases the requester's own hold on the row. -/
theorem mode_conflict_changes_owner_set :
    (run State.init [Op.register 0 10, Op.register 1 10, Op.lock 0 0 false,
        Op.lock 1 0 false]).transactionTable.get 1 = some ⟨1, Phase.Growing, {0}, 9⟩ ∧
    (run State.init [Op.register 0 10, Op.register 1 10, Op.lock 0 0 false,
        Op.lock 1 0 false]).lockTable.get 0 = some ⟨LockMode.Shared, {1, 0}⟩ ∧
    (0 ∈ ({1, 0} : Finset Nat) ∧ 0 ≠ 1) ∧
    (lock (run State.init [Op.register 0 10, Op.register 1 10, Op.lock 0 0 false,
        Op.lock 1 0 false]) 1 0 true).ok = false ∧
    (lock (run State.init [Op.register 0 10, Op.register 1 10, Op.lock 0 0 false,
        Op.lock 1 0 false]) 1 0 true).state.transactionTable.get 1 = none ∧
    (lock (run State.init [Op.register 0 10, Op.register 1 10, Op.lock 0 0 false,
        Op.lock 1 0 false]) 1 0 true).state.lockTable.get 0 = some ⟨LockMode.Shared, {0}⟩ ∧
    (lock (run State.init [Op.register 0 10, Op.register 1 10, Op.lock 0 0 false,
        Op.lock 1 0 false]) 1 0 true).state.lockTable.get 0 ≠
      (run State.init [Op.register 0 10, Op.register 1 10, Op.lock 0 0 false,
        Op.lock 1 0 false]).lockTable.get 0 := by
  decide

/-- C9, amended (mode conflict): in a reachable state, when the lock of row `r` is owned
by another transaction and the request is incompatible (the lock is Exclusive and
any mode is requested, or it is Shared and Exclusive is requested), the request of a
registered Growing `tx` with budget left fails, `tx` leaves the transaction table,
and the lock of `r` keeps its mode and every owner other than `tx`. Its owner set is
unchanged when `tx` is not itself an owner; `tx` can be an owner only of the Shared
lock, and then the abort takes it out of the owners (the blocked upgrade). -/
theorem mode_conflict_aborts (s : State) (hs : Reachable s) (tx r other : Nat) (e : Bool)
    (t : Transaction) (l : Lock) (ht : s.transactionTable.get tx = some t)
    (hg : t.phase = Phase.Growing) (hb : 0 < t.lock_budget)
    (hl : s.lockTable.get r = some l) (hother : other ∈ l.owners) (hne : other ≠ tx)
    (hc : l.mode = LockMode.Exclusive ∨ (l.mode = LockMode.Shared ∧ e = true)) :
    (lock s tx r e).ok = false ∧
    (lock s tx r e).state.transactionTable.get tx = none ∧
    (lock s tx r e).state.lockTable.get r = some ⟨l.mode, l.owners.erase tx⟩ ∧
    (tx ∉ l.owners → (lock s tx r e).state.lockTable.get r = some l) ∧
    (tx ∈ l.owners → l.mode = LockMode.Shared ∧ e = true) := by
  have hinv := Inv_of_Reachable hs
  have hwf := hinv.wf r l hl
  have hshared : tx ∈ l.owners → l.mode = LockMode.Shared ∧ e = true := by
    intro htx
    rcases hc with hx | h
    · exfalso
      obtain ⟨a, ha⟩ := Finset.card_eq_one.mp (hwf.1 hx)
      rw [ha] at htx hother
      have h1 : tx = a := by simpa using htx
      have h2 : other = a := by simpa using hother
      exact hne (h2.trans h1.symm)
    · exact h
  by_cases htx : tx ∈ l.owners
  · obtain ⟨hm, he⟩ := hshared htx
    subst he
    have hr : r ∈ t.locked_rows := (hinv.mem_rows_iff ht hl).mpr htx
    rw [lock_of_registered ht]
    have hfail : (acquire_lock s tx r true).ok = false := by
      cases hok : (acquire_lock s tx r true).ok with
      | false => rfl
      | true =>
        exfalso
        obtain ⟨_, _, hu | hu⟩ := acquire_lock_ok_state ht hok
        · have ho := hu.2.2.2.1
          rw [lockOfRow_of_some hl] at ho
          rw [ho] at hother
          exact hne (by simpa using hother)
        · exact hu.1 hr
    rw [acquire_lock_fail_state ht hfail, lockOfRow_of_some hl]
    have hrow : (abort_transaction s t).lockTable.get r
        = some ⟨l.mode, l.owners.erase tx⟩ := by
      rw [abort_lockTable, if_pos hr, hl, hinv.key tx t ht,
        releasedEntry_of_other hwf hother hne, release_of_shared htx hother hne]
    exact ⟨hfail, (abort_clears hinv ht).1, hrow, fun h => absurd htx h,
      fun _ => ⟨hm, rfl⟩⟩
  · obtain ⟨h1, -, h3, h4⟩ := fresh_conflict_aborts s hs tx r other e t l ht hg hb hl
      hother hne (hc.imp id (fun h => ⟨h.1, h.2, htx⟩))
    refine ⟨h1, h3, ?_, fun _ => h4, fun h => absurd h htx⟩
    rw [h4, Finset.erase_eq_of_not_mem htx]

/-- C9, amended, on scenario S2: transaction 0 holds row 0 in Shared mode and
transaction 1, which holds nothing, asks for it in Exclusive mode. -/
theorem mode_conflict_aborts_witness :
    (lock (run State.init [Op.register 0 10, Op.register 1 10, Op.lock 0 0 false])
        1 0 true).ok = false ∧
    (lock (run State.init [Op.register 0 10, Op.register 1 10, Op.lock 0 0 false])
        1 0 true).state.transactionTable.get 1 = none ∧
    (lock (run State.init [Op.register 0 10, Op.register 1 10, Op.lock 0 0 false])
        1 0 true).state.lockTable.get 0
      = some ⟨LockMode.Shared, ({0} : Finset Nat).erase 1⟩ ∧
    (1 ∉ ({0} : Finset Nat) →
      (lock (run State.init [Op.register 0 10, Op.register 1 10, Op.lock 0 0 false])
        1 0 true).state.lockTable.get 0 = some ⟨LockMode.Shared, {0}⟩) ∧
    (1 ∈ ({0} : Finset Nat) → LockMode.Shared = LockMode.Shared ∧ true = true) :=
  mode_conflict_aborts
    (run State.init [Op.register 0 10, Op.register 1 10, Op.lock 0 0 false])
    ⟨[Op.register 0 10, Op.register 1 10, Op.lock 0 0 false], rfl⟩
    1 0 0 true ⟨1, Phase.Growing, ∅, 10⟩ ⟨LockMode.Shared, {0}⟩
    (by decide) (by decide) (by decide) (by decide) (by decide) (by decide) (by decide)

/-- C10 (redundant request): in a reachable state, when `tx` owns the lock of row `r`
and asks for it again other than as an upgrade (Shared requested, or the lock is
Exclusive), the request fails, `tx` leaves the transaction table and is released
from every lock (it owns none any more); every lock of which `tx` was the only
owner, `r` included, is removed from the lock table, while a lock `tx` shared with
others stays, in its mode, with the other owners. For a Growing `tx` with budget
left the diagnostic is the one of the redundant request. -/
theorem redundant_request_aborts (s : State) (hs : Reachable s) (tx r : Nat) (e : Bool)
    (t : Transaction) (l : Lock) (ht : s.transactionTable.get tx = some t)
    (hl : s.lockTable.get r = some l) (htx : tx ∈ l.owners)
    (hc : e = false ∨ l.mode = LockMode.Exclusive) :
    (lock s tx r e).ok = false ∧
    (lock s tx r e).state.transactionTable.get tx = none ∧
    (∀ r' l', (lock s tx r e).state.lockTable.get r' = some l' → tx ∉ l'.owners) ∧
    (∀ r' l0, s.lockTable.get r' = some l0 → l0.owners = {tx} →
      (lock s tx r e).state.lockTable.get r' = none) ∧
    (l.owners = {tx} → (lock s tx r e).state.lockTable.get r = none) ∧
    (∀ r' l0 other, s.lockTable.get r' = some l0 → tx ∈ l0.owners → other ∈ l0.owners →
      other ≠ tx →
      (lock s tx r e).state.lockTable.get r' = some ⟨l0.mode, l0.owners.erase tx⟩) ∧
    (t.phase = Phase.Growing → 0 < t.lock_budget →
      (lock s tx r e).errors = ["Request for already acquired lock"]) := by
  have hinv := Inv_of_Reachable hs
  have hid := hinv.key tx t ht
  have hr : r ∈ t.locked_rows := (hinv.mem_rows_iff ht hl).mpr htx
  rw [lock_of_registered ht]
  have hfail : (acquire_lock s tx r e).ok = false := by
    cases hok : (acquire_lock s tx r e).ok with
    | false => rfl
    | true =>
      exfalso
      obtain ⟨_, _, hu | hu⟩ := acquire_lock_ok_state ht hok
      · have he := hu.2.1
        have hsh := hu.2.2.1
        rw [lockOfRow_of_some hl] at hsh
        rcases hc with hc | hc
        · rw [hc] at he; cases he
        · rw [hc] at hsh; cases hsh
      · exact hu.1 hr
  have hsole : ∀ r' l0, s.lockTable.get r' = some l0 → l0.owners = {tx} →
      (abort_transaction s t).lockTable.get r' = none := by
    intro r' l0 hl0 ho
    have hr' : r' ∈ t.locked_rows := (hinv.mem_rows_iff ht hl0).mpr (by rw [ho]; simp)
    have hfree : (release l0 tx).mode = LockMode.Free :=
      (release_mode_free_iff (hinv.wf r' l0 hl0) tx).mpr (by rw [ho]; simp)
    rw [abort_lockTable, if_pos hr', hl0, hid]
    simp [releasedEntry, hfree]
  have herr : t.phase = Phase.Growing → 0 < t.lock_budget →
      (acquire_lock s tx r e).errors = ["Request for already acquired lock"] := by
    intro hg hb
    have hgp : t.growing_phase = true := by simp [Transaction.growing_phase, hg]
    have hhas : hasLock t r = true := by simp [hasLock, hr]
    have hnb : ¬ t.lock_budget < 1 := by omega
    have hup : (true && e && !l.exclusive) = false := by
      rcases hc with hc | hc
      · simp [hc]
      · simp [Lock.exclusive, hc]
    unfold acquire_lock
    simp only [ht, lockOfRow_of_some hl, hgp, hhas, hnb, hup]
    rfl
  rw [acquire_lock_fail_state ht hfail, lockOfRow_of_some hl]
  obtain ⟨hgone, hown⟩ := abort_clears hinv ht
  refine ⟨hfail, hgone, hown, hsole, hsole r l hl, ?_, herr⟩
  intro r' l0 other hl0 htx0 ho0 hne0
  have hr' : r' ∈ t.locked_rows := (hinv.mem_rows_iff ht hl0).mpr htx0
  rw [abort_lockTable, if_pos hr', hl0, hid,
    releasedEntry_of_other (hinv.wf r' l0 hl0) ho0 hne0, release_of_shared htx0 ho0 hne0]

/-- Witness of C10: transaction 0 holds row 0 alone and row 1 together with transaction
1, and asks for row 0 in Shared mode again: it is aborted, the lock of row 0 is
removed and the lock of row 1 is left to transaction 1. -/
theorem redundant_request_aborts_witness :
    (lock (run State.init [Op.register 0 10, Op.register 1 10, Op.lock 0 0 false,
        Op.lock 0 1 false, Op.lock 1 1 false]) 0 0 false).ok = false ∧
    (lock (run State.init [Op.register 0 10, Op.register 1 10, Op.lock 0 0 false,
        Op.lock 0 1 false, Op.lock 1 1 false]) 0 0 false).state.transactionTable.get 0
      = none ∧
    (lock (run State.init [Op.register 0 10, Op.register 1 10, Op.lock 0 0 false,
        Op.lock 0 1 false, Op.lock 1 1 false]) 0 0 false).state.lockTable.get 0 = none ∧
    (lock (run State.init [Op.register 0 10, Op.register 1 10, Op.lock 0 0 false,
        Op.lock 0 1 false, Op.lock 1 1 false]) 0 0 false).state.lockTable.get 1
      = some ⟨LockMode.Shared, ({1, 0} : Finset Nat).erase 0⟩ ∧
    (lock (run State.init [Op.register 0 10, Op.register 1 10, Op.lock 0 0 false,
        Op.lock 0 1 false, Op.lock 1 1 false]) 0 0 false).errors
      = ["Request for already acquired lock"] :=
  have h := redundant_request_aborts
    (run State.init [Op.register 0 10, Op.register 1 10, Op.lock 0 0 false,
      Op.lock 0 1 false, Op.lock 1 1 false])
    ⟨[Op.register 0 10, Op.register 1 10, Op.lock 0 0 false, Op.lock 0 1 false,
      Op.lock 1 1 false], rfl⟩
    0 0 false ⟨0, Phase.Growing, {1, 0}, 8⟩ ⟨LockMode.Shared, {0}⟩
    (by decide) (by decide) (by decide) (by decide)
  ⟨h.1, h.2.1, h.2.2.2.2.1 rfl,
    h.2.2.2.2.2.1 1 ⟨LockMode.Shared, {1, 0}⟩ 1 (by decide) (by decide) (by decide)
      (by decide),
    h.2.2.2.2.2.2 rfl (by decide)⟩

/-! ## Outcomes of single requests -/

theorem HashTable.set_set {α : Type} (t : HashTable α) (k : Nat) (v w : α) :
    (t.set k v).set k w = t.set k w := by
  apply HashTable.ext_get
  intro k'
  by_cases hk : k' = k <;> simp [hk]

theorem lockOfRow_lockTable_set (s : State) (r : Nat) (l : Lock) :
    (lockOfRow s r).2.lockTable.set r l = s.lockTable.set r l := by
  cases h : s.lockTable.get r with
  | none => rw [lockOfRow_of_none h]; exact HashTable.set_set _ _ _ _
  | some l0 => rw [lockOfRow_of_some h]

/-- A request refused by the phase check. -/
theorem lock_phase_violation {s : State} {tx : Nat} {t : Transaction}
    (ht : s.transactionTable.get tx = some t) (hp : t.phase ≠ Phase.Growing)
    (r : Nat) (e : Bool) :
    lock s tx r e = ⟨false, ["Cannot acquire more locks according to 2PL"], none,
      abort_transaction (lockOfRow s r).2 t⟩ := by
  have hg : t.growing_phase = false := by simp [Transaction.growing_phase, hp]
  rw [lock_of_registered ht]
  unfold acquire_lock
  simp [ht, hg]

/-- A request refused by the budget check. -/
theorem lock_budget_exhausted {s : State} {tx : Nat} {t : Transaction}
    (ht : s.transactionTable.get tx = some t) (hg : t.phase = Phase.Growing)
    (hb : t.lock_budget = 0) (r : Nat) (e : Bool) :
    lock s tx r e = ⟨false, ["Lock budget exhausted"], none,
      abort_transaction (lockOfRow s r).2 t⟩ := by
  have hgp : t.growing_phase = true := by simp [Transaction.growing_phase, hg]
  rw [lock_of_registered ht]
  unfold acquire_lock
  simp [ht, hgp, hb]

/-- A fresh acquisition that the lock of the row admits: the row has no lock, or a
free one, or a shared one while Shared is asked. -/
theorem lock_fresh_grant {s : State} (h : Inv s) {tx r : Nat} {e : Bool} {t : Transaction}
    (ht : s.transactionTable.get tx = some t) (hg : t.phase = Phase.Growing)
    (hb : 0 < t.lock_budget) (hr : r ∉ t.locked_rows)
    (hc : ∀ l, s.lockTable.get r = some l →
      l.mode = LockMode.Free ∨ (l.mode = LockMode.Shared ∧ e = false)) :
    (lock s tx r e).ok = true ∧ (lock s tx r e).errors = [] ∧
    (lock s tx r e).state =
      ⟨s.transactionTable.set tx
          ⟨tx, Phase.Growing, insert r t.locked_rows, t.lock_budget - 1⟩,
        s.lockTable.set r
          (if e then ⟨LockMode.Exclusive, {tx}⟩
           else ⟨LockMode.Shared, insert tx ((s.lockTable.get r).getD newLock).owners⟩)⟩ := by
  have hid : t.transaction_id = tx := h.key tx t ht
  have hgp : t.growing_phase = true := by simp [Transaction.growing_phase, hg]
  have hhas : hasLock t r = false := by simp [hasLock, hr]
  have hnb : ¬ t.lock_budget < 1 := by omega
  have hmode : ((s.lockTable.get r).getD newLock).mode = LockMode.Free ∨
      (((s.lockTable.get r).getD newLock).mode = LockMode.Shared ∧ e = false) := by
    cases hl : s.lockTable.get r with
    | none => left; rfl
    | some l => simpa using hc l hl
  have hadd : addLock t r e ((s.lockTable.get r).getD newLock) =
      (true, ⟨tx, Phase.Growing, insert r t.locked_rows, t.lock_budget - 1⟩,
        if e then ⟨LockMode.Exclusive, {tx}⟩
        else ⟨LockMode.Shared, insert tx ((s.lockTable.get r).getD newLock).owners⟩) := by
    unfold addLock
    rw [if_pos ⟨hg, hb, hr⟩, hid, hg]
    cases e with
    | true =>
      rcases hmode with hm | ⟨_, he⟩
      · simp [getExclusiveAccess, hm]
      · cases he
    | false =>
      have hm : ((s.lockTable.get r).getD newLock).mode = LockMode.Free ∨
          ((s.lockTable.get r).getD newLock).mode = LockMode.Shared := by
        rcases hmode with hm | ⟨hm, _⟩
        · exact Or.inl hm
        · exact Or.inr hm
      simp [getSharedAccess, hm]
  have key : acquire_lock s tx r e =
      ⟨true, [], some (lock_to_string (toInt32 tx) (toInt32 r)
          (if e then (⟨LockMode.Exclusive, {tx}⟩ : Lock)
           else ⟨LockMode.Shared,
             insert tx ((s.lockTable.get r).getD newLock).owners⟩).exclusive),
        ⟨(lockOfRow s r).2.transactionTable.set tx
            ⟨tx, Phase.Growing, insert r t.locked_rows, t.lock_budget - 1⟩,
          (lockOfRow s r).2.lockTable.set r
            (if e then ⟨LockMode.Exclusive, {tx}⟩
             else ⟨LockMode.Shared,
               insert tx ((s.lockTable.get r).getD newLock).owners⟩)⟩⟩ := by
    unfold acquire_lock
    simp only [ht, lockOfRow_fst, hgp, hhas, hnb, hadd]
    rfl
  rw [lock_of_registered ht, key]
  refine ⟨rfl, rfl, ?_⟩
  show (⟨_, _⟩ : State) = _
  rw [lockOfRow_lockTable_set, lockOfRow_transactionTable]

theorem unlock_of_absent {s : State} {tx : Nat} (h : s.transactionTable.get tx = none)
    (r : Nat) :
    unlock s tx r =
      ⟨false, ["Need to register transaction before lock requests"], none, s⟩ := by
  unfold unlock
  rw [h]

theorem unlock_state_of_registered {s : State} {tx : Nat} {t : Transaction}
    (h : s.transactionTable.get tx = some t) (r : Nat) :
    (unlock s tx r).state = (release_lock s tx r).2 := by
  unfold unlock
  rw [h]

/-- An unlock of a row the transaction holds: the row is released, and the
transaction is dropped when it was its last row. -/
theorem unlock_state_of_held {s : State} (h : Inv s) {tx r : Nat} {t : Transaction}
    (ht : s.transactionTable.get tx = some t) (hr : r ∈ t.locked_rows) :
    (unlock s tx r).state =
      ⟨if t.locked_rows.erase r = ∅ then s.transactionTable.remove tx
        else s.transactionTable.set tx
          ⟨tx, Phase.Shrinking, t.locked_rows.erase r, t.lock_budget⟩,
        releaseRow s.lockTable r tx⟩ := by
  have hid : t.transaction_id = tx := h.key tx t ht
  obtain ⟨l, hl, _⟩ := h.held tx t r ht hr
  rw [unlock_state_of_registered ht]
  unfold release_lock
  simp only [ht, hl]
  unfold releaseLock
  simp only [if_pos hr, hid, Transaction.locked_rows_size, Finset.card_eq_zero]
  split_ifs <;> rfl

/-- An unlock of a row the transaction does not hold: nothing happens, unless the row
has a lock and the transaction holds no row at all, in which case the transaction is
dropped. -/
theorem unlock_state_of_not_held {s : State} {tx r : Nat} {t : Transaction}
    (ht : s.transactionTable.get tx = some t) (hr : r ∉ t.locked_rows) :
    (unlock s tx r).state =
      if (s.lockTable.get r).isSome = true ∧ t.locked_rows = ∅ then
        ⟨s.transactionTable.remove tx, s.lockTable⟩
      else s := by
  rw [unlock_state_of_registered ht]
  unfold release_lock
  simp only [ht]
  cases hl : s.lockTable.get r with
  | none => simp
  | some l =>
    unfold releaseLock
    simp only [if_neg hr, Transaction.locked_rows_size, Finset.card_eq_zero,
      Option.isSome_some, true_and]
    split_ifs
    · rfl
    · rw [HashTable.set_same ht]

theorem erase_eq_empty_iff {rows : Finset Nat} {r : Nat} (hr : r ∈ rows) :
    rows.erase r = ∅ ↔ rows = {r} := by
  constructor
  · intro h
    ext x
    constructor
    · intro hx
      by_contra hne
      have : x ∈ rows.erase r := Finset.mem_erase.mpr ⟨by simpa using hne, hx⟩
      rw [h] at this
      simp at this
    · intro hx
      have : x = r := by simpa using hx
      rw [this]
      exact hr
  · intro h
    rw [h]
    simp

/-- After the unlock of its only row a transaction is not registered. -/
theorem unlock_last_row {s : State} (h : Inv s) {tx r : Nat} {t : Transaction}
    (ht : s.transactionTable.get tx = some t) (hrows : t.locked_rows = {r}) :
    (unlock s tx r).state.transactionTable.get tx = none := by
  have hr : r ∈ t.locked_rows := by rw [hrows]; simp
  rw [unlock_state_of_held h ht hr, if_pos ((erase_eq_empty_iff hr).mpr hrows)]
  simp

/-- After the unlock of one of several rows a transaction is registered and
Shrinking. -/
theorem unlock_other_rows_left {s : State} (h : Inv s) {tx r : Nat} {t : Transaction}
    (ht : s.transactionTable.get tx = some t) (hr : r ∈ t.locked_rows)
    (hrows : t.locked_rows ≠ {r}) :
    (unlock s tx r).state.transactionTable.get tx =
      some ⟨tx, Phase.Shrinking, t.locked_rows.erase r, t.lock_budget⟩ := by
  have hne : ¬ t.locked_rows.erase r = ∅ := fun he => hrows ((erase_eq_empty_iff hr).mp he)
  rw [unlock_state_of_held h ht hr, if_neg hne]
  simp

theorem registerTransaction_of_absent {s : State} {tx : Nat}
    (h : s.transactionTable.get tx = none) (b : Nat) :
    registerTransaction s tx b =
      ⟨true, [], none,
        ⟨s.transactionTable.set tx (newTransaction tx b), s.lockTable⟩⟩ := by
  have hc : s.transactionTable.contains tx = false := by
    simp only [HashTable.contains, HashTable.get] at h ⊢
    rw [h]; rfl
  unfold registerTransaction
  simp only [hc]
  rfl

theorem registerTransaction_of_present {s : State} {tx : Nat} {t : Transaction}
    (h : s.transactionTable.get tx = some t) (b : Nat) :
    registerTransaction s tx b =
      ⟨false, ["Transaction is already registered"], none, s⟩ := by
  have hc : s.transactionTable.contains tx = true := by
    simp only [HashTable.contains, HashTable.get] at h ⊢
    rw [h]; rfl
  unfold registerTransaction
  simp only [hc]
  rfl

/-- An unlock touches no entry of the transaction table but the one of its own
transaction. -/
theorem unlock_transactionTable_other (s : State) {tx k : Nat} (hk : k ≠ tx) (r : Nat) :
    (unlock s tx r).state.transactionTable.get k = s.transactionTable.get k := by
  cases ht : s.transactionTable.get tx with
  | none => rw [unlock_of_absent ht]
  | some t =>
    rw [unlock_state_of_registered ht]
    unfold release_lock
    simp only [ht]
    cases hl : s.lockTable.get r with
    | none => rfl
    | some l =>
      simp only
      split_ifs
      · simp [hk]
      · simp [hk]

/-- The lock of a row after an unlock of that row, when somebody else owns it. -/
theorem unlock_lockTable_shared {s : State} (h : Inv s) {A B r : Nat} {l : Lock}
    (hne : A ≠ B) (hl : s.lockTable.get r = some l) (hA : A ∈ l.owners) :
    (unlock s B r).state.lockTable.get r = some (release l B) := by
  cases ht : s.transactionTable.get B with
  | none =>
    rw [unlock_of_absent ht]
    have hB : B ∉ l.owners := by
      intro hB
      obtain ⟨t, ht', _⟩ := h.owned r l B hl hB
      rw [ht] at ht'
      cases ht'
    rw [release_of_not_mem hB]
    exact hl
  | some t =>
    by_cases hr : r ∈ t.locked_rows
    · rw [unlock_state_of_held h ht hr]
      show (releaseRow s.lockTable r B).get r = _
      rw [releaseRow_get, if_pos rfl, hl, releasedEntry_of_other (h.wf r l hl) hA hne]
    · have hB : B ∉ l.owners := fun hB => hr ((h.mem_rows_iff ht hl).mpr hB)
      rw [unlock_state_of_not_held ht hr, release_of_not_mem hB]
      split_ifs
      · exact hl
      · exact hl

/-- What is left of a lock that has another owner when `B` is released. -/
theorem release_keeps_others {l : Lock} {A B : Nat} (hne : A ≠ B) (hA : A ∈ l.owners) :
    release l B = ⟨l.mode, l.owners.erase B⟩ := by
  by_cases hB : B ∈ l.owners
  · exact release_of_shared hB hA hne
  · rw [release_of_not_mem hB, Finset.erase_eq_of_not_mem hB]

/-- A lock request touches no entry of the transaction table but the one of its own
transaction. -/
theorem lock_transactionTable_other {s : State} (h : Inv s) {tx k : Nat} (hk : k ≠ tx)
    (r : Nat) (e : Bool) :
    (lock s tx r e).state.transactionTable.get k = s.transactionTable.get k := by
  cases ht : s.transactionTable.get tx with
  | none => rw [lock_of_absent ht]
  | some t =>
    rw [lock_of_registered ht]
    have hid : t.transaction_id = tx := h.key tx t ht
    cases hok : (acquire_lock s tx r e).ok with
    | false =>
      rw [acquire_lock_fail_state ht hok, abort_transactionTable, hid, if_neg hk,
        lockOfRow_transactionTable]
    | true =>
      obtain ⟨_, _, hc | hc⟩ := acquire_lock_ok_state ht hok
      · rw [hc.2.2.2.2]
        show (lockOfRow s r).2.transactionTable.get k = _
        rw [lockOfRow_transactionTable]
      · rw [hc.2.2]
        show ((lockOfRow s r).2.transactionTable.set tx _).get k = _
        rw [HashTable.get_set, if_neg hk, lockOfRow_transactionTable]

/-- One operation on a state in which `tx` is Shrinking: if `tx` is registered
afterwards, it is still Shrinking and holds no row it did not hold before. -/
theorem shrinking_step {s : State} (h : Inv s) {tx : Nat} {t : Transaction}
    (ht : s.transactionTable.get tx = some t) (hp : t.phase = Phase.Shrinking) (op : Op)
    {t' : Transaction} (ht' : (step s op).transactionTable.get tx = some t') :
    t'.phase = Phase.Shrinking ∧ t'.locked_rows ⊆ t.locked_rows := by
  have same : s.transactionTable.get tx = some t' →
      t'.phase = Phase.Shrinking ∧ t'.locked_rows ⊆ t.locked_rows := by
    intro h'
    rw [ht] at h'
    injection h' with h'
    subst h'
    exact ⟨hp, Finset.Subset.refl _⟩
  cases op with
  | register k b =>
    change (registerTransaction s k b).state.transactionTable.get tx = some t' at ht'
    by_cases hk : k = tx
    · subst hk
      rw [registerTransaction_of_present ht] at ht'
      exact same ht'
    · cases hkk : s.transactionTable.get k with
      | none =>
        rw [registerTransaction_of_absent hkk] at ht'
        simp only [HashTable.get_set, if_neg (Ne.symm hk)] at ht'
        exact same ht'
      | some tk =>
        rw [registerTransaction_of_present hkk] at ht'
        exact same ht'
  | lock k r e =>
    change (lock s k r e).state.transactionTable.get tx = some t' at ht'
    by_cases hk : k = tx
    · subst hk
      exfalso
      rw [lock_phase_violation ht (by rw [hp]; simp)] at ht'
      have hst : (lockOfRow s r).2.transactionTable.get k = some t := by
        rw [lockOfRow_transactionTable]; exact ht
      rw [(abort_clears (Inv_lockOfRow h r) hst).1] at ht'
      cases ht'
    · rw [lock_transactionTable_other h (Ne.symm hk)] at ht'
      exact same ht'
  | unlock k r =>
    change (unlock s k r).state.transactionTable.get tx = some t' at ht'
    by_cases hk : k = tx
    · subst hk
      by_cases hr : r ∈ t.locked_rows
      · rw [unlock_state_of_held h ht hr] at ht'
        simp only at ht'
        split_ifs at ht' with he
        · simp at ht'
        · simp only [HashTable.get_set, if_pos] at ht'
          injection ht' with ht'
          subst ht'
          exact ⟨rfl, Finset.erase_subset _ _⟩
      · rw [unlock_state_of_not_held ht hr] at ht'
        split_ifs at ht' with he
        · simp at ht'
        · exact same ht'
    · rw [unlock_transactionTable_other s (Ne.symm hk)] at ht'
      exact same ht'

theorem run_cons (s : State) (op : Op) (ops : List Op) :
    run s (op :: ops) = run (step s op) ops := rfl

/-- Operations on a state in which `tx` is Shrinking, with `tx` registered after each
of them: `tx` ends Shrinking and holds no row it did not hold at the start. -/
theorem shrinking_run (ops : List Op) :
    ∀ {s : State}, Inv s → ∀ {tx : Nat} {t : Transaction},
      s.transactionTable.get tx = some t → t.phase = Phase.Shrinking →
      (∀ k, k ≤ ops.length →
        ((run s (ops.take k)).transactionTable.get tx).isSome = true) →
      ∃ t', (run s ops).transactionTable.get tx = some t' ∧
        t'.phase = Phase.Shrinking ∧ t'.locked_rows ⊆ t.locked_rows := by
  induction ops with
  | nil =>
    intro s _ tx t ht hp _
    exact ⟨t, ht, hp, Finset.Subset.refl _⟩
  | cons op ops ih =>
    intro s h tx t ht hp hlive
    have h1 := hlive 1 (by simp)
    obtain ⟨t1, ht1⟩ := Option.isSome_iff_exists.mp h1
    have ht1' : (step s op).transactionTable.get tx = some t1 := ht1
    obtain ⟨hp1, hsub1⟩ := shrinking_step h ht hp op ht1'
    obtain ⟨t', ht', hp', hsub'⟩ := ih (Inv_step h op) ht1' hp1 (by
      intro k hk
      have := hlive (k + 1) (by simpa using hk)
      simpa [run_cons] using this)
    exact ⟨t', ht', hp', hsub'.trans hsub1⟩

/-- A well-formed lock without owners is free. -/
theorem Lock.WF.free_of_no_owner {l : Lock} (h : l.WF) (ho : l.owners = ∅) :
    l.mode = LockMode.Free := by
  rcases hm : l.mode with _ | _ | _
  · rfl
  · have := h.2.1 hm
    rw [ho] at this
    simp at this
  · have := h.1 hm
    rw [ho] at this
    simp at this

theorem lockOps_cons (tx : Nat) (q : Nat × Bool) (reqs : List (Nat × Bool)) :
    lockOps tx (q :: reqs) = Op.lock tx q.1 q.2 :: lockOps tx reqs := rfl

theorem run_append (s : State) (ops ops' : List Op) :
    run s (ops ++ ops') = run (run s ops) ops' := by
  simp [run, List.foldl_append]

/-- Requests of a Growing transaction on distinct rows it does not hold and nobody
owns, no more of them than its budget: all are granted, each takes one unit of the
budget, and the locks of all other rows stay as they are. -/
theorem grant_all (tx : Nat) (reqs : List (Nat × Bool)) :
    ∀ (s : State) (t : Transaction), Inv s → s.transactionTable.get tx = some t →
      t.phase = Phase.Growing → reqs.length ≤ t.lock_budget →
      (reqs.map Prod.fst).Nodup →
      (∀ q ∈ reqs, q.1 ∉ t.locked_rows) →
      (∀ q ∈ reqs, ∀ l, s.lockTable.get q.1 = some l → l.owners = ∅) →
      Inv (run s (lockOps tx reqs)) ∧
      (∃ t', (run s (lockOps tx reqs)).transactionTable.get tx = some t' ∧
        t'.phase = Phase.Growing ∧ t'.lock_budget = t.lock_budget - reqs.length ∧
        ∀ r, r ∈ t'.locked_rows ↔ (r ∈ t.locked_rows ∨ r ∈ reqs.map Prod.fst)) ∧
      (∀ r, r ∉ reqs.map Prod.fst →
        (run s (lockOps tx reqs)).lockTable.get r = s.lockTable.get r) := by
  induction reqs with
  | nil =>
    intro s t h ht hg _ _ _ _
    exact ⟨h, ⟨t, ht, hg, by simp, by simp⟩, fun _ _ => rfl⟩
  | cons q reqs ih =>
    intro s t h ht hg hlen hnd hrows hfree
    have hlen' : reqs.length + 1 ≤ t.lock_budget := by simpa using hlen
    have hq : q.1 ∉ t.locked_rows := hrows q (List.mem_cons_self _ _)
    have hcompat : ∀ l, s.lockTable.get q.1 = some l →
        l.mode = LockMode.Free ∨ (l.mode = LockMode.Shared ∧ q.2 = false) := by
      intro l hl
      exact Or.inl ((h.wf q.1 l hl).free_of_no_owner
        (hfree q (List.mem_cons_self _ _) l hl))
    obtain ⟨_, _, hst⟩ := @lock_fresh_grant s h tx q.1 q.2 t ht hg (by omega) hq hcompat
    have hnd' : (reqs.map Prod.fst).Nodup := (List.nodup_cons.mp (by simpa using hnd)).2
    have hnotin : q.1 ∉ reqs.map Prod.fst := (List.nodup_cons.mp (by simpa using hnd)).1
    have hne : ∀ q' ∈ reqs, q'.1 ≠ q.1 := by
      intro q' hq' he
      exact hnotin (he ▸ List.mem_map_of_mem Prod.fst hq')
    rw [lockOps_cons, run_cons]
    change Inv (run (lock s tx q.1 q.2).state (lockOps tx reqs)) ∧
      (∃ t', (run (lock s tx q.1 q.2).state (lockOps tx reqs)).transactionTable.get tx
          = some t' ∧ _) ∧
      (∀ r, _ → (run (lock s tx q.1 q.2).state (lockOps tx reqs)).lockTable.get r = _)
    have hinv1 : Inv (lock s tx q.1 q.2).state := Inv_lock h tx q.1 q.2
    have ht1 : (lock s tx q.1 q.2).state.transactionTable.get tx =
        some ⟨tx, Phase.Growing, insert q.1 t.locked_rows, t.lock_budget - 1⟩ := by
      rw [hst]; simp
    have hlt1 : ∀ r, r ≠ q.1 →
        (lock s tx q.1 q.2).state.lockTable.get r = s.lockTable.get r := by
      intro r hr
      rw [hst]; simp [hr]
    obtain ⟨hinv2, ⟨t', ht', hg', hb', hrows'⟩, hlt2⟩ :=
      ih (lock s tx q.1 q.2).state _ hinv1 ht1 rfl
        (by show reqs.length ≤ t.lock_budget - 1; omega) hnd'
        (by
          intro q' hq'
          show q'.1 ∉ insert q.1 t.locked_rows
          rw [Finset.mem_insert]
          rintro (he | hin)
          · exact hne q' hq' he
          · exact hrows q' (List.mem_cons_of_mem _ hq') hin)
        (by
          intro q' hq' l hl
          rw [hlt1 _ (hne q' hq')] at hl
          exact hfree q' (List.mem_cons_of_mem _ hq') l hl)
    refine ⟨hinv2, ⟨t', ht', hg', ?_, ?_⟩, ?_⟩
    · rw [hb']
      show t.lock_budget - 1 - reqs.length = t.lock_budget - (reqs.length + 1)
      omega
    · intro r
      rw [hrows' r]
      show (r ∈ insert q.1 t.locked_rows ∨ _) ↔ _
      rw [Finset.mem_insert, List.map_cons, List.mem_cons]
      tauto
    · intro r hr
      have hr' : r ≠ q.1 ∧ r ∉ reqs.map Prod.fst := by
        rw [List.map_cons, List.mem_cons] at hr
        exact ⟨fun he => hr (Or.inl he), fun hin => hr (Or.inr hin)⟩
      rw [hlt2 r hr'.2, hlt1 r hr'.1]

/-- The lock of a row after an unlock of that row. -/
theorem unlock_lockTable_row {s : State} (h : Inv s) (x r : Nat) :
    (unlock s x r).state.lockTable.get r =
      match s.lockTable.get r with
      | none => none
      | some l => if x ∈ l.owners then releasedEntry (some l) x else some l := by
  cases ht : s.transactionTable.get x with
  | none =>
    rw [unlock_of_absent ht]
    cases hl : s.lockTable.get r with
    | none => rfl
    | some l =>
      have hx : x ∉ l.owners := by
        intro hx
        obtain ⟨t, ht', _⟩ := h.owned r l x hl hx
        rw [ht] at ht'
        cases ht'
      simp [hx]
  | some t =>
    by_cases hr : r ∈ t.locked_rows
    · obtain ⟨l, hl, hx⟩ := h.held x t r ht hr
      rw [unlock_state_of_held h ht hr]
      show (releaseRow s.lockTable r x).get r = _
      rw [releaseRow_get, if_pos rfl, hl]
      simp [hx]
    · rw [unlock_state_of_not_held ht hr]
      have hsame : (if (s.lockTable.get r).isSome = true ∧ t.locked_rows = ∅ then
          (⟨s.transactionTable.remove x, s.lockTable⟩ : State) else s).lockTable
          = s.lockTable := by
        split_ifs <;> rfl
      rw [hsame]
      cases hl : s.lockTable.get r with
      | none => rfl
      | some l =>
        have hx : x ∉ l.owners := fun hx => hr ((h.mem_rows_iff ht hl).mpr hx)
        simp [hx]

theorem unlockOps_cons (r x : Nat) (txs : List Nat) :
    unlockOps r (x :: txs) = Op.unlock x r :: unlockOps r txs := rfl

/-- When every owner of the lock of a row is among the transactions that unlock the
row, the row has no lock afterwards. -/
theorem unlock_all_owners (r : Nat) (txs : List Nat) :
    ∀ (s : State), Inv s →
      (∀ l, s.lockTable.get r = some l → l.owners.Nonempty ∧ ∀ x ∈ l.owners, x ∈ txs) →
      (run s (unlockOps r txs)).lockTable.get r = none := by
  induction txs with
  | nil =>
    intro s _ hown
    cases hl : s.lockTable.get r with
    | none => exact hl
    | some l =>
      obtain ⟨⟨x, hx⟩, hall⟩ := hown l hl
      exact absurd (hall x hx) (List.not_mem_nil x)
  | cons x txs ih =>
    intro s h hown
    rw [unlockOps_cons, run_cons]
    refine ih (step s (Op.unlock x r)) (Inv_step h _) ?_
    intro l1 hl1
    change (unlock s x r).state.lockTable.get r = some l1 at hl1
    have hwf1 : l1.WF := (Inv_unlock h x r).wf r l1 hl1
    rw [unlock_lockTable_row h] at hl1
    cases hl : s.lockTable.get r with
    | none => rw [hl] at hl1; cases hl1
    | some l =>
      rw [hl] at hl1
      simp only at hl1
      obtain ⟨hne, hall⟩ := hown l hl
      split_ifs at hl1 with hx
      · obtain ⟨l0, h0, hrel, hfree⟩ := releasedEntry_some hl1
        injection h0 with h0
        subst h0
        have hown1 : l1.owners = l.owners.erase x := by rw [hrel, release_owners]
        refine ⟨?_, ?_⟩
        · rw [Finset.nonempty_iff_ne_empty]
          intro he
          exact hfree (hrel ▸ hwf1.free_of_no_owner he)
        · intro y hy
          rw [hown1] at hy
          obtain ⟨hyx, hyl⟩ := Finset.mem_erase.mp hy
          rcases List.mem_cons.mp (hall y hyl) with h1 | h1
          · exact absurd h1 hyx
          · exact h1
      · injection hl1 with hl1
        subst hl1
        refine ⟨hne, ?_⟩
        intro y hy
        rcases List.mem_cons.mp (hall y hy) with h1 | h1
        · exact absurd (h1 ▸ hy) hx
        · exact h1

theorem sharedOps_cons (r x : Nat) (txs : List Nat) :
    sharedOps r (x :: txs) = Op.lock x r false :: sharedOps r txs := rfl

/-- Shared requests on one row by distinct registered Growing transactions with
budget that do not hold it, the lock of the row being absent, free or shared: all
are granted and the lock ends Shared with the old owners and the requesters. -/
theorem share_all (r : Nat) (txs : List Nat) :
    ∀ (s : State), Inv s → txs.Nodup →
      (∀ x ∈ txs, ∃ t, s.transactionTable.get x = some t ∧ t.phase = Phase.Growing ∧
        0 < t.lock_budget ∧ r ∉ t.locked_rows) →
      (∀ l, s.lockTable.get r = some l →
        l.mode = LockMode.Free ∨ l.mode = LockMode.Shared) →
      (∀ pre x post, txs = pre ++ x :: post →
        (lock (run s (sharedOps r pre)) x r false).ok = true) ∧
      (txs ≠ [] → (run s (sharedOps r txs)).lockTable.get r =
        some ⟨LockMode.Shared,
          ((s.lockTable.get r).getD newLock).owners ∪ txs.toFinset⟩) := by
  induction txs with
  | nil =>
    intro s _ _ _ _
    refine ⟨?_, fun h => absurd rfl h⟩
    intro pre x post h
    exact absurd h (by simp)
  | cons x txs ih =>
    intro s h hnd hreg hrow
    obtain ⟨hx, hnd'⟩ := List.nodup_cons.mp hnd
    obtain ⟨t, ht, hg, hb, hr⟩ := hreg x (List.mem_cons_self _ _)
    obtain ⟨hok, _, hst⟩ := @lock_fresh_grant s h x r false t ht hg hb hr (by
      intro l hl
      rcases hrow l hl with hm | hm
      · exact Or.inl hm
      · exact Or.inr ⟨hm, rfl⟩)
    have hinv1 : Inv (lock s x r false).state := Inv_lock h x r false
    have hlt1 : (lock s x r false).state.lockTable.get r =
        some ⟨LockMode.Shared, insert x ((s.lockTable.get r).getD newLock).owners⟩ := by
      rw [hst]; simp
    obtain ⟨ih1, ih2⟩ := ih (lock s x r false).state hinv1 hnd'
      (by
        intro y hy
        have hyx : y ≠ x := fun he => hx (he ▸ hy)
        obtain ⟨ty, hty, hrest⟩ := hreg y (List.mem_cons_of_mem _ hy)
        exact ⟨ty, by rw [lock_transactionTable_other h hyx]; exact hty, hrest⟩)
      (by
        intro l hl
        rw [hlt1] at hl
        injection hl with hl
        subst hl
        exact Or.inr rfl)
    constructor
    · intro pre y post hsplit
      cases pre with
      | nil =>
        simp only [List.nil_append, List.cons.injEq] at hsplit
        rw [← hsplit.1]
        exact hok
      | cons p pre' =>
        simp only [List.cons_append, List.cons.injEq] at hsplit
        rw [← hsplit.1, sharedOps_cons, run_cons]
        exact ih1 pre' y post hsplit.2
    · intro _
      rw [sharedOps_cons, run_cons]
      change (run (lock s x r false).state (sharedOps r txs)).lockTable.get r = _
      by_cases hnil : txs = []
      · subst hnil
        show (lock s x r false).state.lockTable.get r = _
        rw [hlt1]
        congr 2
        ext y
        simp [or_comm]
      · rw [ih2 hnil, hlt1]
        congr 2
        ext y
        simp only [Option.getD_some, Finset.mem_union, Finset.mem_insert, List.mem_toFinset,
          List.mem_cons]
        tauto

/-- In exact arithmetic the routing formula stays below the number of lock workers: the
floor of `(row_id % size) / (size / (num_threads - 1))` is
`(row_id % size) * (num_threads - 1) / size`, at most `num_threads - 2`. -/
theorem exact_routing_in_range (row_id size num_threads : Nat) (hsize : 0 < size)
    (hn : 2 ≤ num_threads) :
    (row_id % size) * (num_threads - 1) / size ≤ num_threads - 2 := by
  have hx : row_id % size < size := Nat.mod_lt _ hsize
  have hpos : 0 < num_threads - 1 := by omega
  have hlt : (row_id % size) * (num_threads - 1) < (num_threads - 1) * size := by
    rw [Nat.mul_comm (num_threads - 1) size]
    exact Nat.mul_lt_mul_of_pos_right hx hpos
  have := (Nat.div_lt_iff_lt_mul hsize).mpr hlt
  omega

/-! ## Claims C11 to C20 -/

/-- C12, as stated, fails: after register(0,10); lock(0,0,X); unlock(0,0) transaction 0
is not in the transaction table any more (so it is in no phase), and the request
lock(0,0,X) is refused with the diagnostic of the registration check, not with the
one of the 2PL check. -/
theorem s5_refusal_is_not_phase_violation :
    (run State.init [Op.register 0 10, Op.lock 0 0 true,
        Op.unlock 0 0]).transactionTable.get 0 = none ∧
    (lock (run State.init [Op.register 0 10, Op.lock 0 0 true, Op.unlock 0 0])
        0 0 true).ok = false ∧
    (lock (run State.init [Op.register 0 10, Op.lock 0 0 true, Op.unlock 0 0])
        0 0 true).errors = ["Need to register transaction before lock requests"] ∧
    (lock (run State.init [Op.register 0 10, Op.lock 0 0 true, Op.unlock 0 0])
        0 0 true).errors ≠ ["Cannot acquire more locks according to 2PL"] := by
  decide

/-- C12, amended: in a reachable state, when `tx` unlocks the only row it holds (as A
does in S5) it leaves the transaction table, so each later lock request of it fails
with the diagnostic of the registration check and changes neither table; when it
still holds another row it stays registered in the Shrinking phase, and its next
lock request fails with the 2PL diagnostic and removes it from the table. -/
theorem request_after_unlock (s : State) (hs : Reachable s) (tx r : Nat)
    (t : Transaction) (ht : s.transactionTable.get tx = some t)
    (hr : r ∈ t.locked_rows) (r' : Nat) (e : Bool) :
    (t.locked_rows = {r} →
      (unlock s tx r).state.transactionTable.get tx = none ∧
      (lock (unlock s tx r).state tx r' e).ok = false ∧
      (lock (unlock s tx r).state tx r' e).errors
        = ["Need to register transaction before lock requests"] ∧
      (lock (unlock s tx r).state tx r' e).state = (unlock s tx r).state) ∧
    (t.locked_rows ≠ {r} →
      (unlock s tx r).state.transactionTable.get tx
        = some ⟨tx, Phase.Shrinking, t.locked_rows.erase r, t.lock_budget⟩ ∧
      (lock (unlock s tx r).state tx r' e).ok = false ∧
      (lock (unlock s tx r).state tx r' e).errors
        = ["Cannot acquire more locks according to 2PL"] ∧
      (lock (unlock s tx r).state tx r' e).state.transactionTable.get tx = none) := by
  have hinv := Inv_of_Reachable hs
  constructor
  · intro hrows
    have hgone := unlock_last_row hinv ht hrows
    rw [lock_of_absent hgone]
    exact ⟨hgone, rfl, rfl, rfl⟩
  · intro hrows
    have hstay := unlock_other_rows_left hinv ht hr hrows
    have hinv' : Inv (unlock s tx r).state := Inv_unlock hinv tx r
    rw [lock_phase_violation hstay (by simp)]
    refine ⟨hstay, rfl, rfl, ?_⟩
    have hst : (lockOfRow (unlock s tx r).state r').2.transactionTable.get tx
        = some ⟨tx, Phase.Shrinking, t.locked_rows.erase r, t.lock_budget⟩ := by
      rw [lockOfRow_transactionTable]; exact hstay
    exact (abort_clears (Inv_lockOfRow hinv' r') hst).1

/-- Witness of the amended C12: scenario S5 itself. -/
theorem request_after_unlock_witness :
    (unlock (run State.init [Op.register 0 10, Op.lock 0 0 true]) 0
      0).state.transactionTable.get 0 = none ∧
    (lock (unlock (run State.init [Op.register 0 10, Op.lock 0 0 true]) 0 0).state
      0 0 true).ok = false ∧
    (lock (unlock (run State.init [Op.register 0 10, Op.lock 0 0 true]) 0 0).state
      0 0 true).errors = ["Need to register transaction before lock requests"] ∧
    (lock (unlock (run State.init [Op.register 0 10, Op.lock 0 0 true]) 0 0).state
      0 0 true).state
      = (unlock (run State.init [Op.register 0 10, Op.lock 0 0 true]) 0 0).state :=
  (request_after_unlock (run State.init [Op.register 0 10, Op.lock 0 0 true])
    ⟨[Op.register 0 10, Op.lock 0 0 true], rfl⟩ 0 0 ⟨0, Phase.Growing, {0}, 9⟩
    (by decide) (by decide) 0 true).1 rfl

/-- C14 (the unlock of an unowned row is not a no-op): after register(0,10);
register(1,10); lock(0,0,X), transaction 1 is registered and holds no row; its
unlock(1,0) of the row held by transaction 0 leaves the lock table as it was but
removes transaction 1 from the transaction table, so that its next lock request is
refused as not registered. -/
theorem unlock_of_unowned_row_deregisters :
    (run State.init [Op.register 0 10, Op.register 1 10,
        Op.lock 0 0 true]).transactionTable.get 1 = some ⟨1, Phase.Growing, ∅, 10⟩ ∧
    (run State.init [Op.register 0 10, Op.register 1 10,
        Op.lock 0 0 true]).lockTable.get 0 = some ⟨LockMode.Exclusive, {0}⟩ ∧
    (unlock (run State.init [Op.register 0 10, Op.register 1 10, Op.lock 0 0 true])
        1 0).state.lockTable.get 0 = some ⟨LockMode.Exclusive, {0}⟩ ∧
    (unlock (run State.init [Op.register 0 10, Op.register 1 10, Op.lock 0 0 true])
        1 0).state.transactionTable.get 1 = none ∧
    (lock (unlock (run State.init [Op.register 0 10, Op.register 1 10, Op.lock 0 0 true])
        1 0).state 1 0 true).errors
      = ["Need to register transaction before lock requests"] := by
  decide

/-- C15, as stated, fails: transactions 0 and 1 are distinct and both hold row 0 in
Shared mode; the release of row 0 requested by transaction 1, as `Lock.release` or
as unlock(1,0), changes the owner set of the lock from {0, 1} to {0}. -/
theorem release_by_co_holder_changes_owners :
    (run State.init [Op.register 0 10, Op.register 1 10, Op.lock 0 0 false,
        Op.lock 1 0 false]).lockTable.get 0 = some ⟨LockMode.Shared, {1, 0}⟩ ∧
    release ⟨LockMode.Shared, {1, 0}⟩ 1 = ⟨LockMode.Shared, {0}⟩ ∧
    (unlock (run State.init [Op.register 0 10, Op.register 1 10, Op.lock 0 0 false,
        Op.lock 1 0 false]) 1 0).state.lockTable.get 0 = some ⟨LockMode.Shared, {0}⟩ ∧
    ({0} : Finset Nat) ≠ {1, 0} := by
  decide

/-- C15, amended: in a reachable state, for distinct transactions `A` and `B` and a
row `r` whose lock `A` owns, a release of `r` requested by `B`, as `release` on the
lock or as unlock(B, r), leaves the lock of `r` in its mode with every owner but
`B`, so `A` still owns it and its entry of the transaction table is untouched; the
owner set is the same when `B` is not an owner of the lock. -/
theorem cross_release_keeps_other_owners (s : State) (hs : Reachable s) (A B r : Nat)
    (l : Lock) (hne : A ≠ B) (hl : s.lockTable.get r = some l) (hA : A ∈ l.owners) :
    release l B = ⟨l.mode, l.owners.erase B⟩ ∧
    (unlock s B r).state.lockTable.get r = some ⟨l.mode, l.owners.erase B⟩ ∧
    A ∈ l.owners.erase B ∧
    (unlock s B r).state.transactionTable.get A = s.transactionTable.get A ∧
    (B ∉ l.owners →
      release l B = l ∧ (unlock s B r).state.lockTable.get r = some l) := by
  have hinv := Inv_of_Reachable hs
  have hrel := release_keeps_others hne hA
  have hun := unlock_lockTable_shared hinv hne hl hA
  refine ⟨hrel, by rw [hun, hrel], Finset.mem_erase.mpr ⟨hne, hA⟩,
    unlock_transactionTable_other s hne r, ?_⟩
  intro hB
  exact ⟨release_of_not_mem hB, by rw [hun, release_of_not_mem hB]⟩

/-- Witness of the amended C15: transaction 0 holds row 0 exclusively and
transaction 1, which holds nothing, asks to unlock it. -/
theorem cross_release_keeps_other_owners_witness :
    release ⟨LockMode.Exclusive, {0}⟩ 1
      = ⟨LockMode.Exclusive, ({0} : Finset Nat).erase 1⟩ ∧
    (unlock (run State.init [Op.register 0 10, Op.register 1 10, Op.lock 0 0 true])
        1 0).state.lockTable.get 0
      = some ⟨LockMode.Exclusive, ({0} : Finset Nat).erase 1⟩ ∧
    (unlock (run State.init [Op.register 0 10, Op.register 1 10, Op.lock 0 0 true])
        1 0).state.lockTable.get 0 = some ⟨LockMode.Exclusive, {0}⟩ :=
  have h := cross_release_keeps_other_owners
    (run State.init [Op.register 0 10, Op.register 1 10, Op.lock 0 0 true])
    ⟨[Op.register 0 10, Op.register 1 10, Op.lock 0 0 true], rfl⟩ 0 1 0
    ⟨LockMode.Exclusive, {0}⟩ (by decide) (by decide) (by decide)
  ⟨h.1, h.2.1, (h.2.2.2.2 (by decide)).2⟩

/-- C16, as stated, fails: after register(0,10); lock(0,0,X); unlock(0,0) transaction 0
is not registered any more, and a second unlock(0,0) sent as a job that waits for
its result comes back with its error flag set (the tables are unchanged). -/
theorem second_unlock_sets_error_flag :
    (run State.init [Op.register 0 10, Op.lock 0 0 true,
        Op.unlock 0 0]).transactionTable.get 0 = none ∧
    (unlockJob (run State.init [Op.register 0 10, Op.lock 0 0 true, Op.unlock 0 0])
        0 0 true).1.error = true := by
  decide

/-- C16, amended: in a reachable state, after `tx` has unlocked a row `r` it held, a
second unlock(tx, r) changes neither table; its error flag stays clear when the job
does not wait for its result or `tx` still holds another row, and is set exactly
when the job waits and the first unlock released the last row of `tx` (which is
then not registered any more). -/
theorem second_unlock_is_noop (s : State) (hs : Reachable s) (tx r : Nat)
    (t : Transaction) (ht : s.transactionTable.get tx = some t)
    (hr : r ∈ t.locked_rows) (w : Bool) :
    (unlock (unlock s tx r).state tx r).state = (unlock s tx r).state ∧
    (unlockJob (unlock s tx r).state tx r w).2 = (unlock s tx r).state ∧
    ((unlockJob (unlock s tx r).state tx r w).1.error = true ↔
      (w = true ∧ t.locked_rows = {r})) := by
  have hinv := Inv_of_Reachable hs
  by_cases hrows : t.locked_rows = {r}
  · have hgone := unlock_last_row hinv ht hrows
    refine ⟨by rw [unlock_of_absent hgone], ?_, ?_⟩
    · unfold unlockJob
      rw [hgone]
    · unfold unlockJob
      rw [hgone]
      simp [hrows]
  · have hstay := unlock_other_rows_left hinv ht hr hrows
    have hne : ¬ t.locked_rows.erase r = ∅ := fun he => hrows ((erase_eq_empty_iff hr).mp he)
    have hnot : r ∉ (⟨tx, Phase.Shrinking, t.locked_rows.erase r,
        t.lock_budget⟩ : Transaction).locked_rows := Finset.not_mem_erase r _
    have hsame : (unlock (unlock s tx r).state tx r).state = (unlock s tx r).state := by
      rw [unlock_state_of_not_held hstay hnot, if_neg]
      rintro ⟨_, he⟩
      exact hne he
    refine ⟨hsame, ?_, ?_⟩
    · unfold unlockJob
      rw [hstay]
      show (release_lock (unlock s tx r).state tx r).2 = _
      rw [← unlock_state_of_registered hstay, hsame]
    · unfold unlockJob
      rw [hstay]
      simp [hrows]

/-- Witness of the amended C16: transaction 0 holds rows 0 and 1 and unlocks row 0
twice. -/
theorem second_unlock_is_noop_witness :
    (unlock (unlock (run State.init [Op.register 0 10, Op.lock 0 0 true,
        Op.lock 0 1 true]) 0 0).state 0 0).state
      = (unlock (run State.init [Op.register 0 10, Op.lock 0 0 true,
        Op.lock 0 1 true]) 0 0).state ∧
    (unlockJob (unlock (run State.init [Op.register 0 10, Op.lock 0 0 true,
        Op.lock 0 1 true]) 0 0).state 0 0 true).2
      = (unlock (run State.init [Op.register 0 10, Op.lock 0 0 true,
        Op.lock 0 1 true]) 0 0).state ∧
    ((unlockJob (unlock (run State.init [Op.register 0 10, Op.lock 0 0 true,
        Op.lock 0 1 true]) 0 0).state 0 0 true).1.error = true ↔
      (true = true ∧ ({1, 0} : Finset Nat) = {0})) :=
  second_unlock_is_noop
    (run State.init [Op.register 0 10, Op.lock 0 0 true, Op.lock 0 1 true])
    ⟨[Op.register 0 10, Op.lock 0 0 true, Op.lock 0 1 true], rfl⟩ 0 0
    ⟨0, Phase.Growing, {1, 0}, 8⟩ (by decide) (by decide) true

/-- C17: in a reachable state, when unlock(tx, r) releases the only row `tx` holds,
`tx` leaves the transaction table and a following register(tx, b) succeeds and
stores a Growing transaction with no rows and budget `b`; when `tx` holds another
row besides `r` it stays registered (Shrinking, with the other rows), and a
register(tx, b) is refused. -/
theorem last_unlock_deregisters (s : State) (hs : Reachable s) (tx r : Nat)
    (t : Transaction) (ht : s.transactionTable.get tx = some t)
    (hr : r ∈ t.locked_rows) (b : Nat) :
    (t.locked_rows = {r} →
      (unlock s tx r).state.transactionTable.get tx = none ∧
      (registerTransaction (unlock s tx r).state tx b).ok = true ∧
      (registerTransaction (unlock s tx r).state tx b).state.transactionTable.get tx
        = some ⟨tx, Phase.Growing, ∅, b⟩) ∧
    (t.locked_rows ≠ {r} →
      (unlock s tx r).state.transactionTable.get tx
        = some ⟨tx, Phase.Shrinking, t.locked_rows.erase r, t.lock_budget⟩ ∧
      (registerTransaction (unlock s tx r).state tx b).ok = false) := by
  have hinv := Inv_of_Reachable hs
  constructor
  · intro hrows
    have hgone := unlock_last_row hinv ht hrows
    rw [registerTransaction_of_absent hgone]
    exact ⟨hgone, rfl, by simp [newTransaction]⟩
  · intro hrows
    have hstay := unlock_other_rows_left hinv ht hr hrows
    rw [registerTransaction_of_present hstay]
    exact ⟨hstay, rfl⟩

/-- Witness of C17: transaction 0 holds rows 0 and 1; after unlock(0,0) it is still
registered, and after unlock(0,1) it is gone and can be registered again. -/
theorem last_unlock_deregisters_witness :
    ((unlock (run State.init [Op.register 0 10, Op.lock 0 0 false, Op.lock 0 1 false])
        0 0).state.transactionTable.get 0
        = some ⟨0, Phase.Shrinking, ({1, 0} : Finset Nat).erase 0, 8⟩ ∧
      (registerTransaction (unlock (run State.init [Op.register 0 10, Op.lock 0 0 false,
        Op.lock 0 1 false]) 0 0).state 0 5).ok = false) ∧
    ((unlock (run State.init [Op.register 0 10, Op.lock 0 0 false, Op.lock 0 1 false,
        Op.unlock 0 0]) 0 1).state.transactionTable.get 0 = none ∧
      (registerTransaction (unlock (run State.init [Op.register 0 10, Op.lock 0 0 false,
        Op.lock 0 1 false, Op.unlock 0 0]) 0 1).state 0 5).ok = true ∧
      (registerTransaction (unlock (run State.init [Op.register 0 10, Op.lock 0 0 false,
        Op.lock 0 1 false, Op.unlock 0 0]) 0 1).state 0 5).state.transactionTable.get 0
        = some ⟨0, Phase.Growing, ∅, 5⟩) :=
  ⟨(last_unlock_deregisters
      (run State.init [Op.register 0 10, Op.lock 0 0 false, Op.lock 0 1 false])
      ⟨[Op.register 0 10, Op.lock 0 0 false, Op.lock 0 1 false], rfl⟩ 0 0
      ⟨0, Phase.Growing, {1, 0}, 8⟩ (by decide) (by decide) 5).2 (by decide),
    (last_unlock_deregisters
      (run State.init [Op.register 0 10, Op.lock 0 0 false, Op.lock 0 1 false,
        Op.unlock 0 0])
      ⟨[Op.register 0 10, Op.lock 0 0 false, Op.lock 0 1 false, Op.unlock 0 0], rfl⟩ 0 1
      ⟨0, Phase.Shrinking, {1}, 8⟩ (by decide) (by decide) 5).1 (by decide)⟩

/-- C13 (strict 2PL): in a reachable state, once `tx` has unlocked a row `r` it held,
then after any further operations during which `tx` stays registered (the same
registration lives), `tx` is Shrinking, its rows are among the rows it kept at the
unlock, every lock it owns is one it owned before, on a row other than `r`, and
each lock request of it fails. -/
theorem strict_two_phase (s : State) (hs : Reachable s) (tx r : Nat) (t : Transaction)
    (ht : s.transactionTable.get tx = some t) (hr : r ∈ t.locked_rows) (ops : List Op)
    (hlive : ∀ k, k ≤ ops.length →
      ((run (unlock s tx r).state (ops.take k)).transactionTable.get tx).isSome = true) :
    ∃ t', (run (unlock s tx r).state ops).transactionTable.get tx = some t' ∧
      t'.phase = Phase.Shrinking ∧
      t'.locked_rows ⊆ t.locked_rows.erase r ∧
      (∀ r' l', (run (unlock s tx r).state ops).lockTable.get r' = some l' →
        tx ∈ l'.owners → r' ≠ r ∧ ∃ l, s.lockTable.get r' = some l ∧ tx ∈ l.owners) ∧
      (∀ r' e, (lock (run (unlock s tx r).state ops) tx r' e).ok = false) := by
  have hinv := Inv_of_Reachable hs
  have hinv1 : Inv (unlock s tx r).state := Inv_unlock hinv tx r
  have hrows : t.locked_rows ≠ {r} := by
    intro hrows
    have h0 := hlive 0 (Nat.zero_le _)
    have hgone := unlock_last_row hinv ht hrows
    simp only [List.take_zero] at h0
    change ((unlock s tx r).state.transactionTable.get tx).isSome = true at h0
    rw [hgone] at h0
    cases h0
  have hstay := unlock_other_rows_left hinv ht hr hrows
  obtain ⟨t', ht', hp', hsub'⟩ := shrinking_run ops hinv1 hstay rfl hlive
  have hinv2 : Inv (run (unlock s tx r).state ops) := Inv_run hinv1 ops
  refine ⟨t', ht', hp', hsub', ?_, ?_⟩
  · intro r' l' hl' hmem
    have hrow : r' ∈ t'.locked_rows := (hinv2.mem_rows_iff ht' hl').mpr hmem
    have hrow0 := Finset.mem_erase.mp (hsub' hrow)
    exact ⟨hrow0.1, hinv.held tx t r' ht hrow0.2⟩
  · intro r' e
    rw [lock_phase_violation ht' (by rw [hp']; simp)]

/-- Witness of C13: transaction 0 holds rows 0, 1 and 2, unlocks row 0, and then
transaction 1 registers and locks row 0 while transaction 0 unlocks row 1. -/
theorem strict_two_phase_witness :
    ∃ t', (run (unlock (run State.init [Op.register 0 10, Op.lock 0 0 false,
          Op.lock 0 1 false, Op.lock 0 2 false]) 0 0).state
        [Op.register 1 10, Op.lock 1 0 true, Op.unlock 0 1]).transactionTable.get 0
        = some t' ∧
      t'.phase = Phase.Shrinking ∧
      t'.locked_rows ⊆ ({2, 1, 0} : Finset Nat).erase 0 ∧
      (∀ r' l', (run (unlock (run State.init [Op.register 0 10, Op.lock 0 0 false,
          Op.lock 0 1 false, Op.lock 0 2 false]) 0 0).state
        [Op.register 1 10, Op.lock 1 0 true, Op.unlock 0 1]).lockTable.get r' = some l' →
        0 ∈ l'.owners → r' ≠ 0 ∧
          ∃ l, (run State.init [Op.register 0 10, Op.lock 0 0 false, Op.lock 0 1 false,
            Op.lock 0 2 false]).lockTable.get r' = some l ∧ 0 ∈ l.owners) ∧
      (∀ r' e, (lock (run (unlock (run State.init [Op.register 0 10, Op.lock 0 0 false,
          Op.lock 0 1 false, Op.lock 0 2 false]) 0 0).state
        [Op.register 1 10, Op.lock 1 0 true, Op.unlock 0 1]) 0 r' e).ok = false) :=
  strict_two_phase
    (run State.init [Op.register 0 10, Op.lock 0 0 false, Op.lock 0 1 false,
      Op.lock 0 2 false])
    ⟨[Op.register 0 10, Op.lock 0 0 false, Op.lock 0 1 false, Op.lock 0 2 false], rfl⟩
    0 0 ⟨0, Phase.Growing, {2, 1, 0}, 7⟩ (by decide) (by decide)
    [Op.register 1 10, Op.lock 1 0 true, Op.unlock 0 1]
    (by
      intro k hk
      have hk' : k ≤ 3 := hk
      interval_cases k <;> decide)

/-- C11 (budget exhaustion): in a reachable state that does not know `tx`, register
`tx` with budget `B` and let it ask for `B + 1` distinct rows nobody owns, in any
modes. Each of the first `B` requests is granted on a budget of `B` less the
number of earlier grants and leaves one unit less; the last request is refused with
the budget diagnostic, and `tx` is removed from the transaction table. -/
theorem budget_exhaustion (s : State) (hs : Reachable s) (tx B : Nat)
    (granted : List (Nat × Bool)) (last : Nat × Bool)
    (hnew : s.transactionTable.get tx = none) (hlen : granted.length = B)
    (hnd : ((granted ++ [last]).map Prod.fst).Nodup)
    (hfree : ∀ q ∈ granted ++ [last], ∀ l, s.lockTable.get q.1 = some l → l.owners = ∅) :
    (registerTransaction s tx B).ok = true ∧
    (∀ pre q post, granted = pre ++ q :: post →
      ((run (registerTransaction s tx B).state (lockOps tx pre)).transactionTable.get
        tx).map Transaction.lock_budget = some (B - pre.length) ∧
      (lock (run (registerTransaction s tx B).state (lockOps tx pre)) tx q.1 q.2).ok
        = true ∧
      ((lock (run (registerTransaction s tx B).state (lockOps tx pre)) tx q.1
        q.2).state.transactionTable.get tx).map Transaction.lock_budget
        = some (B - pre.length - 1)) ∧
    (lock (run (registerTransaction s tx B).state (lockOps tx granted)) tx last.1
      last.2).ok = false ∧
    (lock (run (registerTransaction s tx B).state (lockOps tx granted)) tx last.1
      last.2).errors = ["Lock budget exhausted"] ∧
    (lock (run (registerTransaction s tx B).state (lockOps tx granted)) tx last.1
      last.2).state.transactionTable.get tx = none := by
  have hinv := Inv_of_Reachable hs
  have hinv1 : Inv (registerTransaction s tx B).state := Inv_registerTransaction hinv tx B
  rw [registerTransaction_of_absent hnew] at hinv1 ⊢
  have ht1 : (⟨s.transactionTable.set tx (newTransaction tx B), s.lockTable⟩ :
      State).transactionTable.get tx = some ⟨tx, Phase.Growing, ∅, B⟩ := by
    simp [newTransaction]
  have hnd0 : (granted.map Prod.fst).Nodup ∧ last.1 ∉ granted.map Prod.fst := by
    rw [List.map_append, List.nodup_append] at hnd
    refine ⟨hnd.1, fun hin => ?_⟩
    exact hnd.2.2 hin (by simp)
  refine ⟨rfl, ?_, ?_⟩
  · intro pre q post hsplit
    have hpre_len : pre.length < B := by
      rw [← hlen, hsplit]
      simp
    have hnd_pre : (pre.map Prod.fst).Nodup ∧ q.1 ∉ pre.map Prod.fst := by
      have h0 := hnd0.1
      rw [hsplit, List.map_append, List.map_cons, List.nodup_append] at h0
      refine ⟨h0.1, fun hin => ?_⟩
      exact h0.2.2 hin (List.mem_cons_self _ _)
    have hmem_pre : ∀ q' ∈ pre, q' ∈ granted ++ [last] := by
      intro q' hq'
      rw [hsplit]
      simp [hq']
    have hmem_q : q ∈ granted ++ [last] := by
      rw [hsplit]
      simp
    obtain ⟨hinv2, ⟨t2, ht2, hg2, hb2, hrows2⟩, hlt2⟩ :=
      grant_all tx pre _ _ hinv1 ht1 rfl (by show pre.length ≤ B; omega) hnd_pre.1
        (by intro q' _; simp)
        (by intro q' hq' l hl; exact hfree q' (hmem_pre q' hq') l hl)
    have hb2' : t2.lock_budget = B - pre.length := hb2
    have hq2 : q.1 ∉ t2.locked_rows := by
      rw [hrows2]
      rintro (hin | hin)
      · simp at hin
      · exact hnd_pre.2 hin
    have hcompat : ∀ l, (run ⟨s.transactionTable.set tx (newTransaction tx B),
          s.lockTable⟩ (lockOps tx pre)).lockTable.get q.1 = some l →
        l.mode = LockMode.Free ∨ (l.mode = LockMode.Shared ∧ q.2 = false) := by
      intro l hl
      have hl0 := hl
      rw [hlt2 q.1 hnd_pre.2] at hl0
      exact Or.inl ((hinv2.wf q.1 l hl).free_of_no_owner (hfree q hmem_q l hl0))
    obtain ⟨hok, _, hst⟩ :=
      @lock_fresh_grant _ hinv2 tx q.1 q.2 t2 ht2 hg2 (by omega) hq2 hcompat
    refine ⟨by rw [ht2]; simp [hb2'], hok, ?_⟩
    rw [hst]
    simp [hb2']
  · obtain ⟨hinv3, ⟨t3, ht3, hg3, hb3, _⟩, _⟩ :=
      grant_all tx granted _ _ hinv1 ht1 rfl (by show granted.length ≤ B; omega) hnd0.1
        (by intro q' _; simp)
        (by
          intro q' hq' l hl
          exact hfree q' (List.mem_append_left _ hq') l hl)
    have hb3' : t3.lock_budget = 0 := by
      rw [hb3]
      show B - granted.length = 0
      omega
    rw [lock_budget_exhausted ht3 hg3 hb3']
    refine ⟨rfl, rfl, ?_⟩
    have hst : (lockOfRow (run ⟨s.transactionTable.set tx (newTransaction tx B),
        s.lockTable⟩ (lockOps tx granted)) last.1).2.transactionTable.get tx = some t3 := by
      rw [lockOfRow_transactionTable]; exact ht3
    exact (abort_clears (Inv_lockOfRow hinv3 last.1) hst).1

/-- Witness of C11: budget 2 and the rows 0, 1 and 2 on the empty manager. -/
theorem budget_exhaustion_witness :
    (registerTransaction State.init 0 2).ok = true ∧
    (∀ pre q post, [(0, false), (1, true)] = pre ++ q :: post →
      ((run (registerTransaction State.init 0 2).state (lockOps 0 pre)).transactionTable.get
        0).map Transaction.lock_budget = some (2 - pre.length) ∧
      (lock (run (registerTransaction State.init 0 2).state (lockOps 0 pre)) 0 q.1 q.2).ok
        = true ∧
      ((lock (run (registerTransaction State.init 0 2).state (lockOps 0 pre)) 0 q.1
        q.2).state.transactionTable.get 0).map Transaction.lock_budget
        = some (2 - pre.length - 1)) ∧
    (lock (run (registerTransaction State.init 0 2).state
      (lockOps 0 [(0, false), (1, true)])) 0 2 false).ok = false ∧
    (lock (run (registerTransaction State.init 0 2).state
      (lockOps 0 [(0, false), (1, true)])) 0 2 false).errors = ["Lock budget exhausted"] ∧
    (lock (run (registerTransaction State.init 0 2).state
      (lockOps 0 [(0, false), (1, true)])) 0 2 false).state.transactionTable.get 0 = none :=
  budget_exhaustion State.init ⟨[], rfl⟩ 0 2 [(0, false), (1, true)] (2, false)
    (by decide) (by decide) (by decide) (by
      intro q _ l hl
      simp [State.init] at hl)

/-- C18: in a reachable state where row `r` is held, after unlock requests on `r` by a
list of transactions that contains every owner of its lock, `r` has no entry in the
lock table, and a request on `r`, Exclusive or Shared, of any registered Growing
transaction with budget left is granted and makes it the only owner. -/
theorem unlocked_row_is_free (s : State) (hs : Reachable s) (r : Nat) (l : Lock)
    (hl : s.lockTable.get r = some l) (hne : l.owners.Nonempty) (txs : List Nat)
    (hall : ∀ x ∈ l.owners, x ∈ txs) :
    (run s (unlockOps r txs)).lockTable.get r = none ∧
    (∀ tx t e, (run s (unlockOps r txs)).transactionTable.get tx = some t →
      t.phase = Phase.Growing → 0 < t.lock_budget →
      (lock (run s (unlockOps r txs)) tx r e).ok = true ∧
      (lock (run s (unlockOps r txs)) tx r e).state.lockTable.get r
        = some ⟨if e then LockMode.Exclusive else LockMode.Shared, {tx}⟩) := by
  have hinv := Inv_of_Reachable hs
  have hnone : (run s (unlockOps r txs)).lockTable.get r = none := by
    apply unlock_all_owners r txs s hinv
    intro l' hl'
    rw [hl] at hl'
    injection hl' with hl'
    subst hl'
    exact ⟨hne, hall⟩
  have hinv' : Inv (run s (unlockOps r txs)) := Inv_run hinv _
  refine ⟨hnone, ?_⟩
  intro tx t e ht hg hb
  have hr : r ∉ t.locked_rows := by
    intro hr
    obtain ⟨l', hl', _⟩ := hinv'.held tx t r ht hr
    rw [hnone] at hl'
    cases hl'
  obtain ⟨hok, _, hst⟩ := @lock_fresh_grant _ hinv' tx r e t ht hg hb hr (by
    intro l' hl'
    rw [hnone] at hl'
    cases hl')
  refine ⟨hok, ?_⟩
  rw [hst, hnone]
  cases e <;> simp [newLock]

/-- Witness of C18 (the `unlock` test): transactions 0 and 1 share row 0 and unlock
it; then transaction 2 gets it exclusively. -/
theorem unlocked_row_is_free_witness :
    (run (run State.init [Op.register 0 10, Op.register 1 10, Op.register 2 10,
        Op.lock 0 0 false, Op.lock 1 0 false]) (unlockOps 0 [0, 1])).lockTable.get 0
      = none ∧
    (lock (run (run State.init [Op.register 0 10, Op.register 1 10, Op.register 2 10,
        Op.lock 0 0 false, Op.lock 1 0 false]) (unlockOps 0 [0, 1])) 2 0 true).ok = true ∧
    (lock (run (run State.init [Op.register 0 10, Op.register 1 10, Op.register 2 10,
        Op.lock 0 0 false, Op.lock 1 0 false]) (unlockOps 0 [0, 1])) 2 0
        true).state.lockTable.get 0
      = some ⟨if true = true then LockMode.Exclusive else LockMode.Shared, {2}⟩ :=
  have h := unlocked_row_is_free
    (run State.init [Op.register 0 10, Op.register 1 10, Op.register 2 10,
      Op.lock 0 0 false, Op.lock 1 0 false])
    ⟨[Op.register 0 10, Op.register 1 10, Op.register 2 10, Op.lock 0 0 false,
      Op.lock 1 0 false], rfl⟩ 0 ⟨LockMode.Shared, {1, 0}⟩ (by decide) (by decide)
    [0, 1] (by decide)
  ⟨h.1, h.2 2 ⟨2, Phase.Growing, ∅, 10⟩ true (by decide) (by decide) (by decide)⟩

/-- C19 (lock compatibility): a request on a well-formed lock by a transaction that is
not one of its owners is granted exactly when the lock is Free, or Shared with
Shared requested, and a grant puts the lock in the requested mode with the
requester added to the owners. Hence, in a reachable state, Shared requests on a
row nobody owns by `n` distinct registered Growing transactions with budget are all
granted, and the lock ends Shared with these `n` owners. -/
theorem lock_compatibility (s : State) (hs : Reachable s) (r : Nat) (txs : List Nat)
    (hnd : txs.Nodup) (hne : txs ≠ [])
    (hreg : ∀ x ∈ txs, ∃ t, s.transactionTable.get x = some t ∧
      t.phase = Phase.Growing ∧ 0 < t.lock_budget ∧ r ∉ t.locked_rows)
    (hrow : ∀ l, s.lockTable.get r = some l → l.owners = ∅) :
    (∀ (l : Lock) (tx : Nat) (e : Bool), l.WF → tx ∉ l.owners →
      (((if e then getExclusiveAccess l tx else getSharedAccess l tx).1 = true ↔
          (l.mode = LockMode.Free ∨ (l.mode = LockMode.Shared ∧ e = false))) ∧
        ((if e then getExclusiveAccess l tx else getSharedAccess l tx).1 = true →
          (if e then getExclusiveAccess l tx else getSharedAccess l tx).2 =
            ⟨if e then LockMode.Exclusive else LockMode.Shared, insert tx l.owners⟩))) ∧
    (∀ pre x post, txs = pre ++ x :: post →
      (lock (run s (sharedOps r pre)) x r false).ok = true) ∧
    (run s (sharedOps r txs)).lockTable.get r = some ⟨LockMode.Shared, txs.toFinset⟩ ∧
    txs.toFinset.card = txs.length := by
  have hinv := Inv_of_Reachable hs
  refine ⟨?_, ?_⟩
  · intro l tx e hwf _
    cases e with
    | true =>
      by_cases hm : l.mode = LockMode.Free
      · have ho := hwf.2.2 hm
        simp [getExclusiveAccess, hm, ho]
      · simp [getExclusiveAccess, hm]
    | false =>
      by_cases hm : l.mode = LockMode.Free ∨ l.mode = LockMode.Shared
      · simp [getSharedAccess, hm]
      · simp only [getSharedAccess, if_neg hm]
        simp only [not_or] at hm
        simp [hm.1, hm.2]
  · obtain ⟨h1, h2⟩ := share_all r txs s hinv hnd hreg (by
      intro l hl
      exact Or.inl ((hinv.wf r l hl).free_of_no_owner (hrow l hl)))
    refine ⟨h1, ?_, List.toFinset_card_of_nodup hnd⟩
    rw [h2 hne]
    have ho : ((s.lockTable.get r).getD newLock).owners = ∅ := by
      cases hl : s.lockTable.get r with
      | none => rfl
      | some l => exact hrow l hl
    rw [ho, Finset.empty_union]

/-- Witness of C19: three registered transactions ask for row 0 in Shared mode. -/
theorem lock_compatibility_witness :
    (∀ pre x post, [0, 1, 2] = pre ++ x :: post →
      (lock (run (run State.init [Op.register 0 10, Op.register 1 10, Op.register 2 10])
        (sharedOps 0 pre)) x 0 false).ok = true) ∧
    (run (run State.init [Op.register 0 10, Op.register 1 10, Op.register 2 10])
      (sharedOps 0 [0, 1, 2])).lockTable.get 0
      = some ⟨LockMode.Shared, [0, 1, 2].toFinset⟩ ∧
    ([0, 1, 2] : List Nat).toFinset.card = ([0, 1, 2] : List Nat).length :=
  (lock_compatibility
    (run State.init [Op.register 0 10, Op.register 1 10, Op.register 2 10])
    ⟨[Op.register 0 10, Op.register 1 10, Op.register 2 10], rfl⟩ 0 [0, 1, 2]
    (by decide) (by decide)
    (by
      intro x hx
      have hx' : x = 0 ∨ x = 1 ∨ x = 2 := by simpa using hx
      rcases hx' with rfl | rfl | rfl
      · exact ⟨⟨0, Phase.Growing, ∅, 10⟩, by decide, rfl, by decide, by decide⟩
      · exact ⟨⟨1, Phase.Growing, ∅, 10⟩, by decide, rfl, by decide, by decide⟩
      · exact ⟨⟨2, Phase.Growing, ∅, 10⟩, by decide, rfl, by decide, by decide⟩)
    (by
      intro l hl
      have hnone : (run State.init [Op.register 0 10, Op.register 1 10,
          Op.register 2 10]).lockTable.get 0 = none := by decide
      rw [hnone] at hl
      cases hl)).2

/-- C20 (the routing leaves its range): with 2 threads and a lock table of
16777217 = 2^24 + 1 buckets, row 16777216 is sent to worker 1, which is not in
[0, num_threads - 2] = [0, 0] (it is the registration worker). The table size is
rounded to 16777216 when it is converted to `float`, and so is the quotient 1; in
exact arithmetic the quotient is below 1 and the index is 0. -/
theorem routing_leaves_range :
    roundF32 16777217 1 = (16777216, 1) ∧
    thread_id 16777216 16777217 2 = 1 ∧
    ¬ thread_id 16777216 16777217 2 ≤ 2 - 2 ∧
    (16777216 % 16777217) * (2 - 1) / 16777217 = 0 ∧
    thread_id 99999999 100000000 4 = 3 := by
  decide

/-! ## Claims C21 to C30 -/

/-! ### The descriptor -/

theorem lock_to_string_data (t r : Int) (e : Bool) :
    (lock_to_string t r e).data =
      (intToString t).data ++
        '_' :: ((intToString r).data ++ ['_', if e then 'X' else 'S', '_', '0']) := by
  cases e <;> simp [lock_to_string, String.data_append] <;> rfl

/-- C22 (canonical descriptor): for all arguments `t`, `r` and `e` of
`lock_to_string`, the result is the decimal rendering of `t`, "_", the decimal
rendering of `r`, "_", "X" for an exclusive and "S" for a shared lock, "_", and the
block timeout, which is always "0"; the characters of the result end with the
timeout digit. The decimal rendering is the one of `std::to_string` on an `int`:
the digits of a non-negative argument, a minus sign and the digits of the absolute
value of a negative one. -/
theorem canonical_descriptor (t r : Int) (e : Bool) :
    lock_to_string t r e =
      intToString t ++ "_" ++ intToString r ++ "_" ++ (if e then "X" else "S") ++ "_" ++ "0" ∧
    (lock_to_string t r e).data =
      (intToString t).data ++
        '_' :: ((intToString r).data ++ ['_', if e then 'X' else 'S', '_', '0']) ∧
    get_block_timeout = 0 ∧
    (0 ≤ t → intToString t = Nat.repr t.toNat) ∧
    (t < 0 → intToString t = "-" ++ Nat.repr (-t).toNat) := by
  refine ⟨rfl, lock_to_string_data t r e, rfl, fun h => ?_, fun h => ?_⟩
  · have h1 : ¬ t < 0 := not_lt.mpr h
    have h2 : t.natAbs = t.toNat := by omega
    simp [intToString, h1, h2]
  · have h2 : t.natAbs = (-t).toNat := by omega
    simp [intToString, h, h2]

/-! ### The transaction mutexes -/

/-- C27 (the mutex index leaves the array): for every value `k + 1` of
`kTransactionBudget`, the transaction id `k + 1` lies in the documented range
[1, kTransactionBudget]; once it is registered, its first lock request makes
`acquire_lock` lock `transaction_mutex[k + 1]`, and its unlock makes `release_lock`
do the same, but the initialised elements are those with index 0 to `k`. -/
theorem mutex_index_out_of_range (k : Nat) :
    (1 ≤ k + 1 ∧ k + 1 ≤ k + 1) ∧
    acquire_lock_mutex (run State.init [Op.register (k + 1) 10]) (k + 1) 0 true
      = some (k + 1) ∧
    release_lock_mutex (run State.init [Op.register (k + 1) 10, Op.lock (k + 1) 0 true])
      (k + 1) 0 = some (k + 1) ∧
    k + 1 ∉ transaction_mutex (k + 1) ∧
    ∀ i, i ∈ transaction_mutex (k + 1) ↔ i ≤ k := by
  refine ⟨⟨by omega, le_refl _⟩, ?_, ?_, ?_, ?_⟩
  · simp [run, step, perform, registerTransaction, State.init, HashTable.contains,
      acquire_lock_mutex, HashTable.get, HashTable.set, newHashTable, newTransaction,
      Transaction.growing_phase, hasLock, lockOfRow, newLock, Lock.exclusive]
  · simp [run, step, perform, registerTransaction, State.init, HashTable.contains,
      release_lock_mutex, HashTable.get, HashTable.set, newHashTable, newTransaction,
      Transaction.growing_phase, hasLock, lockOfRow, newLock, Lock.exclusive,
      lock, acquire_lock, addLock, getExclusiveAccess]
  · simp [transaction_mutex]
  · intro i
    simp [transaction_mutex]
    omega

/-! ### The transaction class of the insecure lock manager -/

theorem release_not_owner (l : Lock) (tx : Nat) : tx ∉ (release l tx).owners := by
  rw [release_owners]
  exact Finset.not_mem_erase tx l.owners

theorem releaseRows_spec (tx : Nat) (rows : List Nat) :
    ∀ table : HashTable Lock, rows.Nodup → (∀ r ∈ rows, ∃ l, table.get r = some l) →
      ∃ table', rows.foldlM (Insecure.releaseRowOf tx) table = some table' ∧
        (∀ r ∈ rows, ∃ l, table.get r = some l ∧ table'.get r = some (release l tx)) ∧
        ∀ r, r ∉ rows → table'.get r = table.get r := by
  induction rows with
  | nil =>
    intro table _ _
    exact ⟨table, rfl, by simp, fun _ _ => rfl⟩
  | cons r rs ih =>
    intro table hnd hall
    obtain ⟨hr, hnd'⟩ := List.nodup_cons.mp hnd
    obtain ⟨l, hl⟩ := hall r (List.mem_cons_self r rs)
    have hstep : Insecure.releaseRowOf tx table r = some (table.set r (release l tx)) := by
      simp [Insecure.releaseRowOf, hl]
    have hall' : ∀ r' ∈ rs, ∃ l', (table.set r (release l tx)).get r' = some l' := by
      intro r' hr'
      have hne : r' ≠ r := fun h => hr (h ▸ hr')
      obtain ⟨l', hl'⟩ := hall r' (List.mem_cons_of_mem r hr')
      exact ⟨l', by simp [hne, hl']⟩
    obtain ⟨table', hrun, hin, hout⟩ := ih (table.set r (release l tx)) hnd' hall'
    refine ⟨table', ?_, ?_, ?_⟩
    · simp [List.foldlM_cons, hstep, hrun]
    · intro r' hr'
      rcases List.mem_cons.mp hr' with rfl | hr''
      · refine ⟨l, hl, ?_⟩
        rw [hout r' hr]
        simp
      · have hne : r' ≠ r := fun h => hr (h ▸ hr'')
        obtain ⟨l', hl', hl''⟩ := hin r' hr''
        have : table.get r' = some l' := by simpa [hne] using hl'
        exact ⟨l', this, hl''⟩
    · intro r' hr'
      have hne : r' ≠ r := fun h => hr' (h ▸ List.mem_cons_self r rs)
      have hnot : r' ∉ rs := fun h => hr' (List.mem_cons_of_mem r h)
      rw [hout r' hnot]
      simp [hne]

/-- C28 (a refused request is recorded all the same): transaction 0 holds no row and
asks, through `addLock`, for Shared mode on row 0, whose lock transaction 1 holds in
Exclusive mode. The lock refuses (the request returns false and the lock is
unchanged), and still row 0 enters the locked rows of transaction 0. -/
theorem add_lock_records_refused_row :
    (Insecure.Transaction.new 0).lockedRows_ = ∅ ∧
    (getSharedAccess ⟨LockMode.Exclusive, {1}⟩ 0).1 = false ∧
    ((Insecure.Transaction.new 0).addLock 0 Insecure.LockMode.kShared
      ⟨LockMode.Exclusive, {1}⟩).2 = ⟨LockMode.Exclusive, {1}⟩ ∧
    ((Insecure.Transaction.new 0).addLock 0 Insecure.LockMode.kShared
      ⟨LockMode.Exclusive, {1}⟩).1.lockedRows_ = {0} ∧
    (getExclusiveAccess ⟨LockMode.Shared, {1}⟩ 0).1 = false ∧
    ((Insecure.Transaction.new 0).addLock 0 Insecure.LockMode.kExclusive
      ⟨LockMode.Shared, {1}⟩).1.lockedRows_ = {0} := by
  decide

/-- C29 (postcondition of `releaseAllLocks`): for a transaction whose locked rows all
have a lock in the table, `releaseAllLocks` returns; afterwards the set of locked
rows is empty, the abort is recorded, the lock of every row it held is that lock
with the transaction released, so the transaction is not among its owners, the
other rows of the table are untouched, and every later `addLock` changes neither
the transaction (its rows included) nor the lock it is called on. -/
theorem release_all_postcondition (t : Insecure.Transaction) (lockTable : HashTable Lock)
    (hheld : ∀ r ∈ t.lockedRows_, ∃ l, lockTable.get r = some l) :
    ∃ t' table', t.releaseAllLocks lockTable = some (t', table') ∧
      t'.lockedRows_ = ∅ ∧ t'.aborted_ = true ∧
      (∀ r ∈ t.lockedRows_, ∃ l l', lockTable.get r = some l ∧ table'.get r = some l' ∧
        l' = release l t.transactionId_ ∧ t.transactionId_ ∉ l'.owners) ∧
      (∀ r, r ∉ t.lockedRows_ → table'.get r = lockTable.get r) ∧
      ∀ rowId requestedMode lock,
        t'.addLock rowId requestedMode lock = (t', lock) ∧
        (t'.addLock rowId requestedMode lock).1.lockedRows_ = ∅ := by
  obtain ⟨table', hrun, hin, hout⟩ :=
    releaseRows_spec t.transactionId_ (t.lockedRows_.sort (· ≤ ·)) lockTable
      (Finset.sort_nodup _ _) (fun r hr => hheld r ((Finset.mem_sort _).mp hr))
  refine ⟨⟨t.transactionId_, ∅, t.phase_, true⟩, table', ?_, rfl, rfl, ?_, ?_, ?_⟩
  · simp [Insecure.Transaction.releaseAllLocks, hrun]
  · intro r hr
    obtain ⟨l, hl, hl'⟩ := hin r ((Finset.mem_sort _).mpr hr)
    exact ⟨l, release l t.transactionId_, hl, hl', rfl, release_not_owner l _⟩
  · intro r hr
    exact hout r (fun h => hr ((Finset.mem_sort _).mp h))
  · intro rowId requestedMode lock
    simp [Insecure.Transaction.addLock]

/-- C29 on a transaction that holds rows 0 and 1, the first alone in Exclusive mode
and the second in Shared mode together with transaction 7. -/
theorem release_all_postcondition_witness :
    ∃ t' table',
      Insecure.Transaction.releaseAllLocks ⟨3, {0, 1}, Insecure.Phase.kGrowing, false⟩
        (((newHashTable Lock).set 0 ⟨LockMode.Exclusive, {3}⟩).set 1
          ⟨LockMode.Shared, {3, 7}⟩) = some (t', table') ∧
      t'.lockedRows_ = ∅ ∧ t'.aborted_ = true ∧
      (∀ r ∈ ({0, 1} : Finset Nat), ∃ l l',
        (((newHashTable Lock).set 0 ⟨LockMode.Exclusive, {3}⟩).set 1
          ⟨LockMode.Shared, {3, 7}⟩).get r = some l ∧ table'.get r = some l' ∧
        l' = release l 3 ∧ 3 ∉ l'.owners) ∧
      (∀ r, r ∉ ({0, 1} : Finset Nat) → table'.get r =
        (((newHashTable Lock).set 0 ⟨LockMode.Exclusive, {3}⟩).set 1
          ⟨LockMode.Shared, {3, 7}⟩).get r) ∧
      ∀ rowId requestedMode lock,
        t'.addLock rowId requestedMode lock = (t', lock) ∧
        (t'.addLock rowId requestedMode lock).1.lockedRows_ = ∅ :=
  release_all_postcondition ⟨3, {0, 1}, Insecure.Phase.kGrowing, false⟩
    (((newHashTable Lock).set 0 ⟨LockMode.Exclusive, {3}⟩).set 1 ⟨LockMode.Shared, {3, 7}⟩)
    (by
      intro r hr
      have hr' : r = 0 ∨ r = 1 := by simpa using hr
      rcases hr' with rfl | rfl
      · exact ⟨_, rfl⟩
      · exact ⟨_, rfl⟩)

/-! ### The capability codec -/

theorem sextet_roundtrip : ∀ i : Fin 64,
    base64_chars.indexOf (sextetChar i) = i ∧ base64_keep (sextetChar i) = true ∧
      sextetChar i ≠ '-' := by
  decide

theorem sextet_facts {i : Nat} (h : i < 64) :
    base64_chars.indexOf (sextetChar i) = i ∧ base64_keep (sextetChar i) = true ∧
      sextetChar i ≠ '-' := sextet_roundtrip ⟨i, h⟩

theorem base64_encode_length (bs : List Nat) :
    (base64_encode bs).length = 4 * ((bs.length + 2) / 3) := by
  induction bs using base64_encode.induct with
  | case1 => rfl
  | case2 a => simp [base64_encode]
  | case3 a b => simp [base64_encode]
  | case4 a b c rest ih =>
    simp only [base64_encode, List.length_cons, ih]
    omega

theorem base64_encode_no_dash (bs : List Nat) (hb : ∀ b ∈ bs, b < 256) :
    '-' ∉ base64_encode bs := by
  induction bs using base64_encode.induct with
  | case1 => simp [base64_encode]
  | case2 a =>
    have ha : a < 256 := hb a (by simp)
    have h0 := (sextet_facts (show a / 4 < 64 by omega)).2.2
    have h1 := (sextet_facts (show a % 4 * 16 < 64 by omega)).2.2
    simp [base64_encode, Ne.symm h0, Ne.symm h1]
  | case3 a b =>
    have ha : a < 256 := hb a (by simp)
    have hb' : b < 256 := hb b (by simp)
    have h0 := (sextet_facts (show a / 4 < 64 by omega)).2.2
    have h1 := (sextet_facts (show a % 4 * 16 + b / 16 < 64 by omega)).2.2
    have h2 := (sextet_facts (show b % 16 * 4 < 64 by omega)).2.2
    simp [base64_encode, Ne.symm h0, Ne.symm h1, Ne.symm h2]
  | case4 a b c rest ih =>
    have ha : a < 256 := hb a (by simp)
    have hb' : b < 256 := hb b (by simp)
    have hc : c < 256 := hb c (by simp)
    have h0 := (sextet_facts (show a / 4 < 64 by omega)).2.2
    have h1 := (sextet_facts (show a % 4 * 16 + b / 16 < 64 by omega)).2.2
    have h2 := (sextet_facts (show b % 16 * 4 + c / 64 < 64 by omega)).2.2
    have h3 := (sextet_facts (show c % 64 < 64 by omega)).2.2
    have := ih (fun x hx => hb x (by simp [hx]))
    simp [base64_encode, Ne.symm h0, Ne.symm h1, Ne.symm h2, Ne.symm h3, this]

theorem base64_keep_pad : base64_keep '=' = false := by decide

theorem base64_roundtrip (bs : List Nat) (hb : ∀ b ∈ bs, b < 256) :
    base64_decode (base64_encode bs) = bs := by
  induction bs using base64_encode.induct with
  | case1 => rfl
  | case2 a =>
    have ha : a < 256 := hb a (by simp)
    obtain ⟨i0, b0, -⟩ := sextet_facts (show a / 4 < 64 by omega)
    obtain ⟨i1, b1, -⟩ := sextet_facts (show a % 4 * 16 < 64 by omega)
    simp only [base64_decode, base64_encode, List.takeWhile, b0, b1, base64_keep_pad,
      List.map_cons, List.map_nil, i0, i1, decodeGroups]
    simp
    omega
  | case3 a b =>
    have ha : a < 256 := hb a (by simp)
    have hb' : b < 256 := hb b (by simp)
    obtain ⟨i0, b0, -⟩ := sextet_facts (show a / 4 < 64 by omega)
    obtain ⟨i1, b1, -⟩ := sextet_facts (show a % 4 * 16 + b / 16 < 64 by omega)
    obtain ⟨i2, b2, -⟩ := sextet_facts (show b % 16 * 4 < 64 by omega)
    simp only [base64_decode, base64_encode, List.takeWhile, b0, b1, b2, base64_keep_pad,
      List.map_cons, List.map_nil, i0, i1, i2, decodeGroups]
    simp
    omega
  | case4 a b c rest ih =>
    have ha : a < 256 := hb a (by simp)
    have hb' : b < 256 := hb b (by simp)
    have hc : c < 256 := hb c (by simp)
    obtain ⟨i0, b0, -⟩ := sextet_facts (show a / 4 < 64 by omega)
    obtain ⟨i1, b1, -⟩ := sextet_facts (show a % 4 * 16 + b / 16 < 64 by omega)
    obtain ⟨i2, b2, -⟩ := sextet_facts (show b % 16 * 4 + c / 64 < 64 by omega)
    obtain ⟨i3, b3, -⟩ := sextet_facts (show c % 64 < 64 by omega)
    have ih' := ih (fun x hx => hb x (by simp [hx]))
    unfold base64_decode at ih' ⊢
    simp only [base64_encode, List.takeWhile, b0, b1, b2, b3, List.map_cons, i0, i1, i2, i3,
      decodeGroups, ih']
    simp
    omega

theorem encoded_signature_length (sig : Signature) (hx : sig.x.length = 32)
    (hy : sig.y.length = 32) : (encoded_signature sig).length = 89 := by
  simp [encoded_signature, String.length, base64_encode_length, hx, hy]

theorem return_value_encoded (sig : Signature) (hx : sig.x.length = 32)
    (hy : sig.y.length = 32) :
    return_value (encoded_signature sig) = some (encoded_signature sig).data := by
  have hlen : (encoded_signature sig).data.length = 89 := encoded_signature_length sig hx hy
  have hlen' : (encoded_signature sig).length = 89 := hlen
  unfold return_value signature_size
  rw [if_pos (by omega), List.take_append_of_le_length (by omega),
    List.take_of_length_le (by omega)]

/-- C23 (capability length): for every signature whose components `x` and `y` are 32
bytes each, the encoded capability `base64(x) ++ "-" ++ base64(y)` has exactly 89
characters, 44 for each component, so the copy of `signature_size = 89` characters
into the return value is the whole capability and reads nothing behind its end. -/
theorem capability_length (sig : Signature) (hx : sig.x.length = 32) (hy : sig.y.length = 32) :
    (encoded_signature sig).length = 89 ∧
    (base64_encode sig.x).length = 44 ∧ (base64_encode sig.y).length = 44 ∧
    return_value (encoded_signature sig) = some (encoded_signature sig).data :=
  ⟨encoded_signature_length sig hx hy, by simp [base64_encode_length, hx],
    by simp [base64_encode_length, hy], return_value_encoded sig hx hy⟩

theorem splitSignature_encoded (sig : Signature) (h : sig.WF) :
    splitSignature (encoded_signature sig).data = (base64_encode sig.x, base64_encode sig.y) := by
  have hno := base64_encode_no_dash sig.x h.1.2
  have hmem : '-' ∈ base64_encode sig.x ++ '-' :: base64_encode sig.y := by simp
  have hidx : (base64_encode sig.x ++ '-' :: base64_encode sig.y).indexOf '-'
      = (base64_encode sig.x).length := by
    rw [List.indexOf_append_of_not_mem hno]
    simp
  simp only [splitSignature, encoded_signature, hmem, if_true, hidx]
  simp

theorem memcpy32_of_length (bs : List Nat) (h : bs.length = 32) : memcpy32 bs = some bs := by
  unfold memcpy32
  rw [if_pos (by omega), List.take_append_of_le_length (by omega),
    List.take_of_length_le (by omega)]

theorem decodeSignature_encoded (sig : Signature) (h : sig.WF) :
    decodeSignature (encoded_signature sig) = some sig := by
  simp [decodeSignature, splitSignature_encoded sig h, base64_roundtrip sig.x h.1.2,
    base64_roundtrip sig.y h.2.2, memcpy32_of_length, h.1.1, h.2.1]

/-- C24 (codec round trip): for every signature of two components of 32 bytes, the
split of the encoded capability at its first "-" gives the two base64 texts, each
decodes to its component, and the signature `verify_signature` rebuilds from the
capability is the signature that was encoded. -/
theorem codec_roundtrip (sig : Signature) (h : sig.WF) :
    splitSignature (encoded_signature sig).data = (base64_encode sig.x, base64_encode sig.y) ∧
    base64_decode (base64_encode sig.x) = sig.x ∧ base64_decode (base64_encode sig.y) = sig.y ∧
    decodeSignature (encoded_signature sig) = some sig :=
  ⟨splitSignature_encoded sig h, base64_roundtrip sig.x h.1.2, base64_roundtrip sig.y h.2.2,
    decodeSignature_encoded sig h⟩

/-- C23 on the signature whose bytes are all 0 in `x` and all 255 in `y`. -/
theorem capability_length_witness :
    (encoded_signature ⟨List.replicate 32 0, List.replicate 32 255⟩).length = 89 ∧
    (base64_encode (List.replicate 32 0)).length = 44 ∧
    (base64_encode (List.replicate 32 255)).length = 44 ∧
    return_value (encoded_signature ⟨List.replicate 32 0, List.replicate 32 255⟩)
      = some (encoded_signature ⟨List.replicate 32 0, List.replicate 32 255⟩).data :=
  capability_length ⟨List.replicate 32 0, List.replicate 32 255⟩ (by decide) (by decide)

/-- C24 on the signature whose bytes are all 0 in `x` and all 255 in `y`. -/
theorem codec_roundtrip_witness :
    splitSignature (encoded_signature ⟨List.replicate 32 0, List.replicate 32 255⟩).data
      = (base64_encode (List.replicate 32 0), base64_encode (List.replicate 32 255)) ∧
    base64_decode (base64_encode (List.replicate 32 0)) = List.replicate 32 0 ∧
    base64_decode (base64_encode (List.replicate 32 255)) = List.replicate 32 255 ∧
    decodeSignature (encoded_signature ⟨List.replicate 32 0, List.replicate 32 255⟩)
      = some ⟨List.replicate 32 0, List.replicate 32 255⟩ :=
  codec_roundtrip ⟨List.replicate 32 0, List.replicate 32 255⟩
    ⟨⟨by decide, by decide⟩, ⟨by decide, by decide⟩⟩

/-! ### Signing and verification -/

theorem upgrade_exclusive_of_ok {l : Lock} {tx : Nat} (h : (upgrade l tx).1 = true) :
    (upgrade l tx).2.exclusive = true := by
  by_cases hc : l.mode = LockMode.Shared ∧ l.owners = {tx}
  · simp [upgrade, hc, Lock.exclusive]
  · simp [upgrade, hc] at h

theorem addLock_exclusive_of_ok {t : Transaction} {r : Nat} {e : Bool} {l : Lock}
    (h : (addLock t r e l).1 = true) : (addLock t r e l).2.2.exclusive = e := by
  by_cases h1 : t.phase = Phase.Growing ∧ 0 < t.lock_budget ∧ r ∉ t.locked_rows
  · cases e
    · by_cases hg : l.mode = LockMode.Free ∨ l.mode = LockMode.Shared
      · simp [addLock, h1, getSharedAccess, hg, Lock.exclusive]
      · simp [addLock, h1, getSharedAccess, hg] at h
    · by_cases hg : l.mode = LockMode.Free
      · simp [addLock, h1, getExclusiveAccess, hg, Lock.exclusive]
      · simp [addLock, h1, getExclusiveAccess, hg] at h
  · simp [addLock, h1] at h

theorem lock_signed_of_ok (s : State) (tx row : Nat) (e : Bool)
    (hok : (lock s tx row e).ok = true) :
    (lock s tx row e).signed = some (lock_to_string (toInt32 tx) (toInt32 row) e) := by
  unfold lock at hok ⊢
  cases htx : s.transactionTable.get tx with
  | none => simp [htx] at hok
  | some t =>
    simp only [htx] at hok ⊢
    unfold acquire_lock at hok ⊢
    simp only [htx] at hok ⊢
    by_cases h1 : (!t.growing_phase) = true
    · rw [if_pos h1] at hok
      cases hok
    · rw [if_neg h1] at hok ⊢
      by_cases h2 : t.lock_budget < 1
      · rw [if_pos h2] at hok
        cases hok
      · rw [if_neg h2] at hok ⊢
        by_cases h3 : (hasLock t row && e && !(lockOfRow s row).1.exclusive) = true
        · rw [if_pos h3] at hok ⊢
          have he : e = true := by
            simp only [Bool.and_eq_true] at h3
            exact h3.1.2
          by_cases h4 : (upgrade (lockOfRow s row).1 tx).1 = true
          · rw [if_pos h4]
            simp only [upgrade_exclusive_of_ok h4, he]
          · rw [if_neg h4] at hok
            cases hok
        · rw [if_neg h3] at hok ⊢
          by_cases h5 : (!hasLock t row) = true
          · rw [if_pos h5] at hok ⊢
            by_cases h6 : (addLock t row e (lockOfRow s row).1).1 = true
            · rw [if_pos h6]
              simp only [addLock_exclusive_of_ok h6]
            · rw [if_neg h6] at hok
              cases hok
          · rw [if_neg h5] at hok
            cases hok

theorem capability_of_signed (kv : KeyVault) (o : Outcome) (m : String) (hok : o.ok = true)
    (hs : o.signed = some m) (hwf : (signDescriptor kv m).WF) :
    capability kv o = some (encoded_signature (signDescriptor kv m)) := by
  simp [capability, hok, hs, return_value_encoded _ hwf.1.1 hwf.2.1]

theorem verify_signature_encoded (kv : KeyVault) (sig : Signature) (h : sig.WF)
    (t r i : Int) :
    verify_signature kv (encoded_signature sig) t r i
      = some (verify kv (lock_to_string t r (decide (i ≠ 0))) sig) := by
  simp [verify_signature, decodeSignature_encoded sig h]

theorem lock_to_string_length (t r : Int) (e : Bool) :
    (lock_to_string t r e).data.length
      = (intToString t).data.length + (intToString r).data.length + 5 := by
  rw [lock_to_string_data]
  simp
  omega

theorem lock_to_string_mode_ne (t r : Int) :
    (lock_to_string t r false).data ≠ (lock_to_string t r true).data := by
  rw [lock_to_string_data, lock_to_string_data]
  intro h
  have h1 := List.append_cancel_left h
  have h2 := List.append_cancel_left (List.cons.inj h1).2
  simp at h2

theorem lock_to_string_row_ne (t : Int) (e : Bool) :
    (lock_to_string t 1 e).data ≠ (lock_to_string t 0 e).data := by
  rw [lock_to_string_data, lock_to_string_data]
  intro h
  have h1 := List.append_cancel_left h
  have h2 := (List.cons.inj h1).2
  have h3 : (intToString 1).data = ['1'] := by decide
  have h4 : (intToString 0).data = ['0'] := by decide
  rw [h3, h4] at h2
  simp at h2

/-- C25 (sign/verify round trip): for a key vault whose signatures have two components
of 32 bytes and whose check accepts every signature it produced over the same
message, every lock request that is granted (a fresh Shared or Exclusive lock or an
upgrade) signed the descriptor of the transaction, the row and the requested mode,
which is the descriptor `verify_signature` rebuilds; its reply is a capability of 89
characters, and the capability verifies for the transaction, the row and the
requested mode. -/
theorem sign_verify_roundtrip (kv : KeyVault) (hwf : ∀ m, (kv.sgx_ecdsa_sign m).WF)
    (haccept : ∀ m, kv.sgx_ecdsa_verify m (kv.sgx_ecdsa_sign m) = true)
    (s : State) (tx row : Nat) (e : Bool) (hok : (lock s tx row e).ok = true) :
    (lock s tx row e).signed = some (lock_to_string (toInt32 tx) (toInt32 row) e) ∧
    ∃ cap, capability kv (lock s tx row e) = some cap ∧ cap.length = 89 ∧
      verify_signature kv cap (toInt32 tx) (toInt32 row) (if e then 1 else 0) = some true := by
  have hs := lock_signed_of_ok s tx row e hok
  have hw : (signDescriptor kv (lock_to_string (toInt32 tx) (toInt32 row) e)).WF := hwf _
  refine ⟨hs, _, capability_of_signed kv _ _ hok hs hw,
    encoded_signature_length _ hw.1.1 hw.2.1, ?_⟩
  rw [verify_signature_encoded kv _ hw]
  have he : decide ((if e then (1 : Int) else 0) ≠ 0) = e := by cases e <;> simp
  rw [he]
  simp [verify, signDescriptor, haccept]

/-- C25 on the request lock(0, 0, Exclusive) after register(0, 10), with a key vault
that signs every message alike. -/
theorem sign_verify_roundtrip_witness :
    (lock (run State.init [Op.register 0 10]) 0 0 true).signed
      = some (lock_to_string (toInt32 0) (toInt32 0) true) ∧
    ∃ cap, capability constantVault (lock (run State.init [Op.register 0 10]) 0 0 true)
        = some cap ∧ cap.length = 89 ∧
      verify_signature constantVault cap (toInt32 0) (toInt32 0)
        (if true = true then 1 else 0) = some true :=
  sign_verify_roundtrip constantVault
    (fun _ => by
      show Signature.WF ⟨List.replicate 32 0, List.replicate 32 255⟩
      exact ⟨⟨by decide, by decide⟩, ⟨by decide, by decide⟩⟩)
    (fun _ => by simp [constantVault])
    (run State.init [Op.register 0 10]) 0 0 true (by decide)

theorem lock_after_register_ok (A : Nat) :
    (lock (run State.init [Op.register A 10]) A 0 true).ok = true := by
  simp [run, step, perform, registerTransaction, State.init, HashTable.contains,
    HashTable.get, HashTable.set, newHashTable, newTransaction,
    Transaction.growing_phase, hasLock, lockOfRow, newLock, Lock.exclusive,
    lock, acquire_lock, addLock, getExclusiveAccess]

theorem verify_other_descriptor (kv : KeyVault)
    (hsound : ∀ m m', kv.sgx_ecdsa_verify m' (kv.sgx_ecdsa_sign m) = true → m' = m)
    (m m' : String) (hm : m.data.length ≤ kv.MAX_SIGNATURE_LENGTH)
    (hm' : m'.data.length ≤ kv.MAX_SIGNATURE_LENGTH) (hne : m'.data ≠ m.data) :
    verify kv m' (signDescriptor kv m) = false := by
  cases hv : verify kv m' (signDescriptor kv m) with
  | false => rfl
  | true =>
    have h := hsound _ _ hv
    rw [List.take_of_length_le hm, List.take_of_length_le hm'] at h
    exact absurd h hne

/-- Scenario S6 for every transaction id `A`: for a key vault whose signatures have two
components of 32 bytes and whose check accepts a signature only for the message it
was produced over, and a descriptor that fits into `MAX_SIGNATURE_LENGTH`: after
register(A, 10), the capability returned by lock(A, 0, Exclusive) does not verify
for (A, 0, Shared) and does not verify for (A, 1, Exclusive); the descriptors
rebuilt for these triples differ from the one that was signed. -/
theorem s6_other_triples_rejected (kv : KeyVault)
    (hwf : ∀ m, (kv.sgx_ecdsa_sign m).WF)
    (hsound : ∀ m m', kv.sgx_ecdsa_verify m' (kv.sgx_ecdsa_sign m) = true → m' = m)
    (A : Nat) (hmax : (intToString (toInt32 A)).length + 6 ≤ kv.MAX_SIGNATURE_LENGTH) :
    lock_to_string (toInt32 A) 0 false ≠ lock_to_string (toInt32 A) 0 true ∧
    lock_to_string (toInt32 A) 1 true ≠ lock_to_string (toInt32 A) 0 true ∧
    ∃ cap, capability kv (lock (run State.init [Op.register A 10]) A 0 true) = some cap ∧
      verify_signature kv cap (toInt32 A) 0 0 = some false ∧
      verify_signature kv cap (toInt32 A) 1 1 = some false := by
  have hok := lock_after_register_ok A
  have hs := lock_signed_of_ok _ A 0 true hok
  have h0 : toInt32 0 = 0 := by decide
  rw [h0] at hs
  have hw : (signDescriptor kv (lock_to_string (toInt32 A) 0 true)).WF := hwf _
  have hd0 : (intToString 0).data.length = 1 := by decide
  have hd1 : (intToString 1).data.length = 1 := by decide
  have hmax' : (intToString (toInt32 A)).data.length + 6 ≤ kv.MAX_SIGNATURE_LENGTH := hmax
  have hl : ∀ e, (lock_to_string (toInt32 A) 0 e).data.length ≤ kv.MAX_SIGNATURE_LENGTH := by
    intro e
    rw [lock_to_string_length, hd0]
    omega
  have hl1 : (lock_to_string (toInt32 A) 1 true).data.length ≤ kv.MAX_SIGNATURE_LENGTH := by
    rw [lock_to_string_length, hd1]
    omega
  refine ⟨fun h => lock_to_string_mode_ne _ _ (congrArg String.data h),
    fun h => lock_to_string_row_ne _ _ (congrArg String.data h),
    _, capability_of_signed kv _ _ hok hs hw, ?_, ?_⟩
  · rw [verify_signature_encoded kv _ hw]
    have hdec : decide ((0 : Int) ≠ 0) = false := by decide
    rw [hdec, verify_other_descriptor kv hsound _ _ (hl true) (hl false)
      (lock_to_string_mode_ne _ _)]
  · rw [verify_signature_encoded kv _ hw]
    have hdec : decide ((1 : Int) ≠ 0) = true := by decide
    rw [hdec, verify_other_descriptor kv hsound _ _ (hl true) hl1
      (lock_to_string_row_ne _ _)]

theorem singleMessageVault_sound (message : List Char) (m m' : List Char)
    (h : (singleMessageVault message).sgx_ecdsa_verify m'
      ((singleMessageVault message).sgx_ecdsa_sign m) = true) : m' = m := by
  simp only [singleMessageVault, decide_eq_true_eq] at h
  obtain ⟨h1, h2⟩ := h
  by_cases hm : m = message
  · rw [h1, hm]
  · rw [if_neg hm] at h2
    exact absurd h2 (by decide)

/-- Scenario S6 on transaction 0, with a key vault that accepts the signature of the
descriptor "0_0_X_0" for that descriptor only. -/
theorem s6_other_triples_rejected_witness :
    lock_to_string (toInt32 0) 0 false ≠ lock_to_string (toInt32 0) 0 true ∧
    lock_to_string (toInt32 0) 1 true ≠ lock_to_string (toInt32 0) 0 true ∧
    ∃ cap, capability (singleMessageVault ['0', '_', '0', '_', 'X', '_', '0'])
        (lock (run State.init [Op.register 0 10]) 0 0 true) = some cap ∧
      verify_signature (singleMessageVault ['0', '_', '0', '_', 'X', '_', '0']) cap
        (toInt32 0) 0 0 = some false ∧
      verify_signature (singleMessageVault ['0', '_', '0', '_', 'X', '_', '0']) cap
        (toInt32 0) 1 1 = some false :=
  s6_other_triples_rejected (singleMessageVault ['0', '_', '0', '_', 'X', '_', '0'])
    (fun m => by
      by_cases hm : m = ['0', '_', '0', '_', 'X', '_', '0']
      · simp only [singleMessageVault, hm, if_true]
        exact ⟨⟨by decide, by decide⟩, ⟨by decide, by decide⟩⟩
      · simp only [singleMessageVault, hm, if_false]
        exact ⟨⟨by decide, by decide⟩, ⟨by decide, by decide⟩⟩)
    (singleMessageVault_sound _) 0 (by decide)

/-! ### Routing in single precision -/

theorem log2Aux_spec : ∀ fuel n : Nat, 0 < n → n ≤ fuel →
    2 ^ log2Aux fuel n ≤ n ∧ n < 2 ^ (log2Aux fuel n + 1) := by
  intro fuel
  induction fuel with
  | zero => intro n h0 h1; omega
  | succ fuel ih =>
    intro n h0 h1
    unfold log2Aux
    by_cases h2 : n < 2
    · rw [if_pos h2]
      constructor <;> simp <;> omega
    · rw [if_neg h2]
      obtain ⟨ihl, ihr⟩ := ih (n / 2) (by omega) (by omega)
      constructor
      · rw [pow_succ]
        omega
      · rw [pow_succ] at ihr ⊢
        omega

theorem floorLog2_spec {n : Nat} (h : 0 < n) :
    2 ^ floorLog2 n ≤ n ∧ n < 2 ^ (floorLog2 n + 1) :=
  log2Aux_spec n n h (le_refl n)

theorem zpow_toNat_div (k : Int) :
    ((2 : ℚ) ^ k.toNat) / (2 : ℚ) ^ (-k).toNat = (2 : ℚ) ^ k := by
  rcases le_total 0 k with h | h
  · have h1 : (-k).toNat = 0 := by omega
    rw [h1, pow_zero, div_one]
    conv_rhs => rw [← Int.toNat_of_nonneg h]
    rw [zpow_natCast]
  · have h1 : k.toNat = 0 := by omega
    rw [h1, pow_zero, one_div]
    have h2 : k = -((-k).toNat : Int) := by omega
    conv_rhs => rw [h2]
    rw [zpow_neg, zpow_natCast]

theorem binaryExponent_spec {p q : Nat} (hp : 0 < p) (hq : 0 < q) :
    (2 : ℚ) ^ binaryExponent p q ≤ (p : ℚ) / q ∧
      (p : ℚ) / q < (2 : ℚ) ^ (binaryExponent p q + 1) := by
  obtain ⟨hp1, hp2⟩ := floorLog2_spec hp
  obtain ⟨hq1, hq2⟩ := floorLog2_spec hq
  have hq' : (0 : ℚ) < q := by exact_mod_cast hq
  have hP1 : (2 : ℚ) ^ (floorLog2 p : Int) ≤ p := by
    rw [zpow_natCast]; exact_mod_cast hp1
  have hP2 : (p : ℚ) < (2 : ℚ) ^ ((floorLog2 p : Int) + 1) := by
    rw [show ((floorLog2 p : Int) + 1) = ((floorLog2 p + 1 : Nat) : Int) by push_cast; rfl,
      zpow_natCast]; exact_mod_cast hp2
  have hQ1 : (2 : ℚ) ^ (floorLog2 q : Int) ≤ q := by
    rw [zpow_natCast]; exact_mod_cast hq1
  have hQ2 : (q : ℚ) < (2 : ℚ) ^ ((floorLog2 q : Int) + 1) := by
    rw [show ((floorLog2 q : Int) + 1) = ((floorLog2 q + 1 : Nat) : Int) by push_cast; rfl,
      zpow_natCast]; exact_mod_cast hq2
  have h2 : (0 : ℚ) < 2 := by norm_num
  unfold binaryExponent
  simp only
  set k : Int := (floorLog2 p : Int) - (floorLog2 q : Int) with hk
  have hcond : (q * 2 ^ k.toNat ≤ p * 2 ^ (-k).toNat) ↔ (2 : ℚ) ^ k ≤ (p : ℚ) / q := by
    rw [← zpow_toNat_div k, le_div_iff₀ hq', div_mul_eq_mul_div,
      div_le_iff₀ (by positivity)]
    constructor
    · intro h
      have : ((q * 2 ^ k.toNat : Nat) : ℚ) ≤ ((p * 2 ^ (-k).toNat : Nat) : ℚ) := by
        exact_mod_cast h
      push_cast at this
      linarith
    · intro h
      have : ((q * 2 ^ k.toNat : Nat) : ℚ) ≤ ((p * 2 ^ (-k).toNat : Nat) : ℚ) := by
        push_cast
        linarith
      exact_mod_cast this
  have hupper : (p : ℚ) / q < (2 : ℚ) ^ (k + 1) := by
    rw [div_lt_iff₀ hq']
    calc (p : ℚ) < (2 : ℚ) ^ ((floorLog2 p : Int) + 1) := hP2
      _ = (2 : ℚ) ^ (k + 1) * (2 : ℚ) ^ (floorLog2 q : Int) := by
        rw [← zpow_add₀ (by norm_num : (2 : ℚ) ≠ 0)]
        congr 1
        omega
      _ ≤ (2 : ℚ) ^ (k + 1) * q := by
        apply mul_le_mul_of_nonneg_left hQ1
        positivity
  have hlower : (2 : ℚ) ^ (k - 1) ≤ (p : ℚ) / q := by
    rw [le_div_iff₀ hq']
    calc (2 : ℚ) ^ (k - 1) * q ≤ (2 : ℚ) ^ (k - 1) * (2 : ℚ) ^ ((floorLog2 q : Int) + 1) := by
          apply mul_le_mul_of_nonneg_left (le_of_lt hQ2)
          positivity
      _ = (2 : ℚ) ^ (floorLog2 p : Int) := by
        rw [← zpow_add₀ (by norm_num : (2 : ℚ) ≠ 0)]
        congr 1
        omega
      _ ≤ p := hP1
  by_cases hc : q * 2 ^ k.toNat ≤ p * 2 ^ (-k).toNat
  · rw [if_pos hc]
    exact ⟨hcond.mp hc, hupper⟩
  · rw [if_neg hc]
    refine ⟨hlower, ?_⟩
    rw [sub_add_cancel]
    exact lt_of_not_le (fun h => hc (hcond.mpr h))


theorem roundHalfEven_bounds (n : Nat) {d : Nat} (hd : 0 < d) :
    ((roundHalfEven n d : Nat) : ℚ) ≤ (n : ℚ) / d + 1 / 2 ∧
    (n : ℚ) / d - 1 / 2 ≤ ((roundHalfEven n d : Nat) : ℚ) ∧
    (((roundHalfEven n d : Nat) : ℚ) = (n : ℚ) / d + 1 / 2 → roundHalfEven n d % 2 = 0) ∧
    (((roundHalfEven n d : Nat) : ℚ) = (n : ℚ) / d - 1 / 2 → roundHalfEven n d % 2 = 0) := by
  have hd' : (0 : ℚ) < d := by exact_mod_cast hd
  have hcast : (d : ℚ) * ((n / d : Nat) : ℚ) + ((n % d : Nat) : ℚ) = n := by
    exact_mod_cast Nat.div_add_mod n d
  have hsplit : (n : ℚ) / d = ((n / d : Nat) : ℚ) + ((n % d : Nat) : ℚ) / d := by
    field_simp
    linarith
  have hr : n % d < d := Nat.mod_lt n hd
  have hr' : ((n % d : Nat) : ℚ) / d < 1 := by
    rw [div_lt_one hd']
    exact_mod_cast hr
  have hr0 : (0 : ℚ) ≤ ((n % d : Nat) : ℚ) / d := by positivity
  unfold roundHalfEven
  by_cases h1 : 2 * (n % d) < d
  · have h1' : ((n % d : Nat) : ℚ) / d < 1 / 2 := by
      rw [div_lt_iff₀ hd']
      have : ((2 * (n % d) : Nat) : ℚ) < d := by exact_mod_cast h1
      push_cast at this
      linarith
    rw [if_pos h1, hsplit]
    refine ⟨by linarith, by linarith, fun h => ?_, fun h => ?_⟩ <;> linarith
  · rw [if_neg h1]
    by_cases h2 : d < 2 * (n % d)
    · have h2' : 1 / 2 < ((n % d : Nat) : ℚ) / d := by
        rw [lt_div_iff₀ hd']
        have : (d : ℚ) < ((2 * (n % d) : Nat) : ℚ) := by exact_mod_cast h2
        push_cast at this
        linarith
      rw [if_pos h2, hsplit]
      push_cast
      refine ⟨by linarith, by linarith, fun h => ?_, fun h => ?_⟩ <;> linarith
    · have h3 : 2 * (n % d) = d := by omega
      have h3' : ((n % d : Nat) : ℚ) / d = 1 / 2 := by
        rw [div_eq_iff hd'.ne']
        have : ((2 * (n % d) : Nat) : ℚ) = d := by exact_mod_cast h3
        push_cast at this
        linarith
      rw [if_neg h2, hsplit, h3']
      by_cases h4 : n / d % 2 = 0
      · rw [if_pos h4]
        refine ⟨by linarith, by linarith, fun _ => h4, fun _ => h4⟩
      · rw [if_neg h4]
        push_cast
        refine ⟨by linarith, by linarith, fun _ => by omega, fun _ => by omega⟩

theorem roundHalfEven_mono {n1 d1 n2 d2 : Nat} (h1 : 0 < d1) (h2 : 0 < d2)
    (h : (n1 : ℚ) / d1 ≤ (n2 : ℚ) / d2) : roundHalfEven n1 d1 ≤ roundHalfEven n2 d2 := by
  obtain ⟨a1, _, a3, _⟩ := roundHalfEven_bounds n1 h1
  obtain ⟨_, b2, _, b4⟩ := roundHalfEven_bounds n2 h2
  by_contra hlt
  have hlt' : roundHalfEven n2 d2 + 1 ≤ roundHalfEven n1 d1 := by omega
  have hq : ((roundHalfEven n2 d2 : Nat) : ℚ) + 1 ≤ ((roundHalfEven n1 d1 : Nat) : ℚ) := by
    exact_mod_cast hlt'
  have e1 : ((roundHalfEven n1 d1 : Nat) : ℚ) = (n1 : ℚ) / d1 + 1 / 2 := by linarith
  have e2 : ((roundHalfEven n2 d2 : Nat) : ℚ) = (n2 : ℚ) / d2 - 1 / 2 := by linarith
  have e3 : ((roundHalfEven n1 d1 : Nat) : ℚ) = ((roundHalfEven n2 d2 : Nat) : ℚ) + 1 := by
    linarith
  have e3' : roundHalfEven n1 d1 = roundHalfEven n2 d2 + 1 := by exact_mod_cast e3
  have p1 := a3 e1
  have p2 := b4 e2
  omega


theorem roundF32_eq {p : Nat} (q : Nat) (hp : p ≠ 0) :
    roundF32 p q = (significand p q * 2 ^ (binaryExponent p q - 23).toNat,
      2 ^ (23 - binaryExponent p q).toNat) := by
  unfold roundF32 significand roundHalfEven
  rw [if_neg hp]

theorem roundF32_zero (q : Nat) : roundF32 0 q = (0, 1) := by
  unfold roundF32
  rw [if_pos rfl]

theorem scale_eq (e : Int) :
    ((2 : ℚ) ^ (23 - e).toNat) / (2 : ℚ) ^ (e - 23).toNat = (2 : ℚ) ^ (23 - e) := by
  have h := zpow_toNat_div (23 - e)
  rw [show -(23 - e) = e - 23 by ring] at h
  exact h

theorem roundF32_val {p q : Nat} (hp : 0 < p) :
    val (roundF32 p q) = (significand p q : ℚ) * (2 : ℚ) ^ (binaryExponent p q - 23) := by
  rw [roundF32_eq q hp.ne']
  unfold val
  push_cast
  rw [mul_div_assoc]
  congr 1
  have h := zpow_toNat_div (binaryExponent p q - 23)
  rw [show -(binaryExponent p q - 23) = 23 - binaryExponent p q by ring] at h
  exact h

theorem scaled_eq {p q : Nat} (hq : 0 < q) :
    ((p * 2 ^ (23 - binaryExponent p q).toNat : Nat) : ℚ) /
        ((q * 2 ^ (binaryExponent p q - 23).toNat : Nat) : ℚ)
      = (p : ℚ) / q * (2 : ℚ) ^ (23 - binaryExponent p q) := by
  have hq' : (q : ℚ) ≠ 0 := by exact_mod_cast hq.ne'
  rw [← scale_eq]
  push_cast
  field_simp

theorem significand_bounds {p q : Nat} (hp : 0 < p) (hq : 0 < q) :
    (significand p q : ℚ) ≤ (p : ℚ) / q * (2 : ℚ) ^ (23 - binaryExponent p q) + 1 / 2 ∧
    (p : ℚ) / q * (2 : ℚ) ^ (23 - binaryExponent p q) - 1 / 2 ≤ (significand p q : ℚ) ∧
    2 ^ 23 ≤ significand p q ∧ significand p q ≤ 2 ^ 24 := by
  have hd : 0 < q * 2 ^ (binaryExponent p q - 23).toNat := by positivity
  obtain ⟨h1, h2, -, -⟩ :=
    roundHalfEven_bounds (p * 2 ^ (23 - binaryExponent p q).toNat) hd
  rw [scaled_eq hq] at h1 h2
  obtain ⟨e1, e2⟩ := binaryExponent_spec hp hq
  have hs : (0 : ℚ) < (2 : ℚ) ^ (23 - binaryExponent p q) := by positivity
  have l1 : (2 : ℚ) ^ (23 : ℤ) ≤ (p : ℚ) / q * (2 : ℚ) ^ (23 - binaryExponent p q) := by
    calc (2 : ℚ) ^ (23 : ℤ)
        = (2 : ℚ) ^ binaryExponent p q * (2 : ℚ) ^ (23 - binaryExponent p q) := by
          rw [← zpow_add₀ (by norm_num : (2 : ℚ) ≠ 0)]
          congr 1
          ring
      _ ≤ _ := mul_le_mul_of_nonneg_right e1 hs.le
  have l2 : (p : ℚ) / q * (2 : ℚ) ^ (23 - binaryExponent p q) < (2 : ℚ) ^ (24 : ℤ) := by
    calc (p : ℚ) / q * (2 : ℚ) ^ (23 - binaryExponent p q)
        < (2 : ℚ) ^ (binaryExponent p q + 1) * (2 : ℚ) ^ (23 - binaryExponent p q) :=
          mul_lt_mul_of_pos_right e2 hs
      _ = (2 : ℚ) ^ (24 : ℤ) := by
          rw [← zpow_add₀ (by norm_num : (2 : ℚ) ≠ 0)]
          congr 1
          ring
  refine ⟨h1, h2, ?_, ?_⟩
  · by_contra hlt
    have hlt' : significand p q + 1 ≤ 2 ^ 23 := by omega
    have hq2 : ((significand p q : Nat) : ℚ) + 1 ≤ (2 : ℚ) ^ (23 : ℤ) := by
      have : ((significand p q + 1 : Nat) : ℚ) ≤ ((2 ^ 23 : Nat) : ℚ) := by exact_mod_cast hlt'
      push_cast at this
      norm_num
      linarith
    unfold significand at hq2
    linarith
  · by_contra hlt
    have hlt' : 2 ^ 24 + 1 ≤ significand p q := by omega
    have hq2 : (2 : ℚ) ^ (24 : ℤ) + 1 ≤ ((significand p q : Nat) : ℚ) := by
      have : ((2 ^ 24 + 1 : Nat) : ℚ) ≤ ((significand p q : Nat) : ℚ) := by exact_mod_cast hlt'
      push_cast at this
      norm_num
      linarith
    unfold significand at hq2
    linarith


theorem binaryExponent_mono {p1 q1 p2 q2 : Nat} (hp1 : 0 < p1) (hq1 : 0 < q1)
    (hp2 : 0 < p2) (hq2 : 0 < q2) (h : (p1 : ℚ) / q1 ≤ (p2 : ℚ) / q2) :
    binaryExponent p1 q1 ≤ binaryExponent p2 q2 := by
  obtain ⟨a1, -⟩ := binaryExponent_spec hp1 hq1
  obtain ⟨-, b2⟩ := binaryExponent_spec hp2 hq2
  have hlt : (2 : ℚ) ^ binaryExponent p1 q1 < (2 : ℚ) ^ (binaryExponent p2 q2 + 1) := by
    linarith
  have := (zpow_lt_zpow_iff_right₀ (by norm_num : (1 : ℚ) < 2)).mp hlt
  omega

theorem val_nonneg (r : Nat × Nat) : 0 ≤ val r := by
  unfold val
  positivity

theorem roundF32_snd_pos (p q : Nat) : 0 < (roundF32 p q).2 := by
  by_cases hp : p = 0
  · subst hp
    rw [roundF32_zero]
    exact Nat.one_pos
  · rw [roundF32_eq q hp]
    positivity

theorem roundF32_fst_pos {p q : Nat} (hp : 0 < p) (hq : 0 < q) : 0 < (roundF32 p q).1 := by
  rw [roundF32_eq q hp.ne']
  have := (significand_bounds hp hq).2.2.1
  have h : 0 < significand p q := by
    have : 0 < 2 ^ 23 := by norm_num
    omega
  positivity

theorem roundF32_mono {p1 q1 p2 q2 : Nat} (hq1 : 0 < q1) (hq2 : 0 < q2)
    (h : (p1 : ℚ) / q1 ≤ (p2 : ℚ) / q2) : val (roundF32 p1 q1) ≤ val (roundF32 p2 q2) := by
  have hq1' : (0 : ℚ) < q1 := by exact_mod_cast hq1
  have hq2' : (0 : ℚ) < q2 := by exact_mod_cast hq2
  rcases Nat.eq_zero_or_pos p1 with hp1 | hp1
  · subst hp1
    rw [roundF32_zero]
    have : val (0, 1) = 0 := by simp [val]
    rw [this]
    exact val_nonneg _
  have hp2 : 0 < p2 := by
    by_contra hc
    have : p2 = 0 := by omega
    subst this
    have hpos : (0 : ℚ) < (p1 : ℚ) / q1 := by
      have : (0 : ℚ) < p1 := by exact_mod_cast hp1
      positivity
    simp at h
    linarith
  rw [roundF32_val hp1, roundF32_val hp2]
  obtain ⟨a1, a2, a3, a4⟩ := significand_bounds hp1 hq1
  obtain ⟨b1, b2, b3, b4⟩ := significand_bounds hp2 hq2
  have hle := binaryExponent_mono hp1 hq1 hp2 hq2 h
  rcases eq_or_lt_of_le hle with heq | hlt
  · have hmono : significand p1 q1 ≤ significand p2 q2 := by
      unfold significand
      apply roundHalfEven_mono (by positivity) (by positivity)
      rw [scaled_eq hq1, scaled_eq hq2, heq]
      exact mul_le_mul_of_nonneg_right h (by positivity)
    rw [heq]
    apply mul_le_mul_of_nonneg_right _ (by positivity)
    exact_mod_cast hmono
  · have c1 : (significand p1 q1 : ℚ) ≤ (2 : ℚ) ^ (24 : ℤ) := by
      have : ((significand p1 q1 : Nat) : ℚ) ≤ ((2 ^ 24 : Nat) : ℚ) := by exact_mod_cast a4
      push_cast at this
      norm_num
      linarith
    have c2 : (2 : ℚ) ^ (23 : ℤ) ≤ (significand p2 q2 : ℚ) := by
      have : ((2 ^ 23 : Nat) : ℚ) ≤ ((significand p2 q2 : Nat) : ℚ) := by exact_mod_cast b3
      push_cast at this
      norm_num
      linarith
    calc (significand p1 q1 : ℚ) * (2 : ℚ) ^ (binaryExponent p1 q1 - 23)
        ≤ (2 : ℚ) ^ (24 : ℤ) * (2 : ℚ) ^ (binaryExponent p1 q1 - 23) :=
          mul_le_mul_of_nonneg_right c1 (by positivity)
      _ = (2 : ℚ) ^ (binaryExponent p1 q1 + 1) := by
          rw [← zpow_add₀ (by norm_num : (2 : ℚ) ≠ 0)]
          congr 1
          ring
      _ ≤ (2 : ℚ) ^ binaryExponent p2 q2 :=
          zpow_le_zpow_right₀ (by norm_num) (by omega)
      _ = (2 : ℚ) ^ (23 : ℤ) * (2 : ℚ) ^ (binaryExponent p2 q2 - 23) := by
          rw [← zpow_add₀ (by norm_num : (2 : ℚ) ≠ 0)]
          congr 1
          ring
      _ ≤ (significand p2 q2 : ℚ) * (2 : ℚ) ^ (binaryExponent p2 q2 - 23) :=
          mul_le_mul_of_nonneg_right c2 (by positivity)

theorem roundF32_error {p q : Nat} (hp : 0 < p) (hq : 0 < q) :
    (p : ℚ) / q * (1 - 1 / 2 ^ 24) ≤ val (roundF32 p q) ∧
    val (roundF32 p q) ≤ (p : ℚ) / q * (1 + 1 / 2 ^ 24) := by
  rw [roundF32_val hp]
  obtain ⟨a1, a2, -, -⟩ := significand_bounds hp hq
  obtain ⟨e1, -⟩ := binaryExponent_spec hp hq
  have hs : (0 : ℚ) < (2 : ℚ) ^ (binaryExponent p q - 23) := by positivity
  have hinv : (2 : ℚ) ^ (23 - binaryExponent p q) * (2 : ℚ) ^ (binaryExponent p q - 23) = 1 := by
    rw [← zpow_add₀ (by norm_num : (2 : ℚ) ≠ 0)]
    rw [show 23 - binaryExponent p q + (binaryExponent p q - 23) = 0 by ring, zpow_zero]
  have hhalf : (1 : ℚ) / 2 * (2 : ℚ) ^ (binaryExponent p q - 23)
      ≤ (p : ℚ) / q * (1 / 2 ^ 24) := by
    have : (1 : ℚ) / 2 * (2 : ℚ) ^ (binaryExponent p q - 23)
        = (2 : ℚ) ^ binaryExponent p q * (1 / 2 ^ 24) := by
      rw [show binaryExponent p q - 23 = binaryExponent p q + (-23) by ring,
        zpow_add₀ (by norm_num : (2 : ℚ) ≠ 0)]
      norm_num
      ring
    rw [this]
    exact mul_le_mul_of_nonneg_right e1 (by positivity)
  have u1 := mul_le_mul_of_nonneg_right a1 hs.le
  have u2 := mul_le_mul_of_nonneg_right a2 hs.le
  rw [add_mul, mul_assoc, hinv, mul_one] at u1
  rw [sub_mul, mul_assoc, hinv, mul_one] at u2
  constructor
  · linarith
  · linarith


theorem roundF32_nat {n : Nat} (h : n < 2 ^ 24) : val (roundF32 n 1) = n := by
  rcases Nat.eq_zero_or_pos n with h0 | h0
  · subst h0
    rw [roundF32_zero]
    simp [val]
  obtain ⟨e1, e2⟩ := binaryExponent_spec h0 Nat.one_pos
  simp only [Nat.cast_one, div_one] at e1 e2
  have hn1 : (1 : ℚ) ≤ n := by exact_mod_cast h0
  have hn2 : (n : ℚ) < (2 : ℚ) ^ (24 : ℤ) := by
    have : ((n : Nat) : ℚ) < ((2 ^ 24 : Nat) : ℚ) := by exact_mod_cast h
    push_cast at this
    norm_num
    linarith
  have hlo : 0 ≤ binaryExponent n 1 := by
    have : (2 : ℚ) ^ (0 : ℤ) < (2 : ℚ) ^ (binaryExponent n 1 + 1) := by
      rw [zpow_zero]
      linarith
    have := (zpow_lt_zpow_iff_right₀ (by norm_num : (1 : ℚ) < 2)).mp this
    omega
  have hhi : binaryExponent n 1 ≤ 23 := by
    have : (2 : ℚ) ^ binaryExponent n 1 < (2 : ℚ) ^ (24 : ℤ) := by linarith
    have := (zpow_lt_zpow_iff_right₀ (by norm_num : (1 : ℚ) < 2)).mp this
    omega
  have hdown : (binaryExponent n 1 - 23).toNat = 0 := by omega
  have hsig : significand n 1 = n * 2 ^ (23 - binaryExponent n 1).toNat := by
    unfold significand roundHalfEven
    rw [hdown, pow_zero, mul_one, Nat.mod_one, if_pos (by norm_num), Nat.div_one]
  rw [roundF32_eq 1 h0.ne', hsig, hdown]
  unfold val
  push_cast
  field_simp

theorem floor_val (r : Nat × Nat) : ⌊val r⌋₊ = r.1 / r.2 := by
  unfold val
  exact Nat.floor_div_eq_div r.1 r.2

theorem val_ratio (x d : Nat × Nat) :
    ((x.1 * d.2 : Nat) : ℚ) / ((x.2 * d.1 : Nat) : ℚ) = val x / val d := by
  unfold val
  push_cast
  rw [div_div_div_eq]

theorem thread_id_eq (row_id size num_threads : Nat) :
    thread_id row_id size num_threads =
      ⌊val (roundF32 ((roundF32 (row_id % size) 1).1 *
          (roundF32 ((roundF32 size 1).1 * (roundF32 (num_threads - 1) 1).2)
            ((roundF32 size 1).2 * (roundF32 (num_threads - 1) 1).1)).2)
        ((roundF32 (row_id % size) 1).2 *
          (roundF32 ((roundF32 size 1).1 * (roundF32 (num_threads - 1) 1).2)
            ((roundF32 size 1).2 * (roundF32 (num_threads - 1) 1).1)).1))⌋₊ := by
  rw [floor_val]
  rfl

theorem divisor_pos {size num_threads : Nat} (hs : 0 < size) (hn : 2 ≤ num_threads) :
    0 < (roundF32 ((roundF32 size 1).1 * (roundF32 (num_threads - 1) 1).2)
            ((roundF32 size 1).2 * (roundF32 (num_threads - 1) 1).1)).1 := by
  apply roundF32_fst_pos
  · exact Nat.mul_pos (roundF32_fst_pos hs Nat.one_pos) (roundF32_snd_pos _ _)
  · exact Nat.mul_pos (roundF32_snd_pos _ _) (roundF32_fst_pos (by omega) Nat.one_pos)

theorem val_pos {r : Nat × Nat} (h1 : 0 < r.1) (h2 : 0 < r.2) : 0 < val r := by
  unfold val
  have : (0 : ℚ) < r.1 := by exact_mod_cast h1
  have : (0 : ℚ) < r.2 := by exact_mod_cast h2
  positivity

theorem thread_id_mono {r1 r2 size num_threads : Nat} (hs : 0 < size) (hn : 2 ≤ num_threads)
    (h : r1 % size ≤ r2 % size) :
    thread_id r1 size num_threads ≤ thread_id r2 size num_threads := by
  rw [thread_id_eq, thread_id_eq]
  apply Nat.floor_mono
  have hd1 := divisor_pos hs hn
  have hd2 := roundF32_snd_pos ((roundF32 size 1).1 * (roundF32 (num_threads - 1) 1).2)
            ((roundF32 size 1).2 * (roundF32 (num_threads - 1) 1).1)
  apply roundF32_mono
  · exact Nat.mul_pos (roundF32_snd_pos _ _) hd1
  · exact Nat.mul_pos (roundF32_snd_pos _ _) hd1
  rw [val_ratio, val_ratio]
  apply div_le_div_of_nonneg_right _ (val_pos hd1 hd2).le
  apply roundF32_mono Nat.one_pos Nat.one_pos
  simp only [Nat.cast_one, div_one]
  exact_mod_cast h


theorem thread_id_in_range {row_id size num_threads : Nat} (hs : 0 < size)
    (hsz : size ≤ 2 ^ 22) (hn : 2 ≤ num_threads) :
    thread_id row_id size num_threads ≤ num_threads - 2 := by
  rw [thread_id_eq]
  have hd1 := divisor_pos hs hn
  have hd2 := roundF32_snd_pos ((roundF32 size 1).1 * (roundF32 (num_threads - 1) 1).2)
            ((roundF32 size 1).2 * (roundF32 (num_threads - 1) 1).1)
  have hb : val (roundF32 size 1) = size := roundF32_nat (by omega)
  have ha : row_id % size < size := Nat.mod_lt _ hs
  have hx : val (roundF32 (row_id % size) 1) = (row_id % size : Nat) :=
    roundF32_nat (by omega)
  have hc1 : 0 < (roundF32 (num_threads - 1) 1).1 := roundF32_fst_pos (by omega) Nat.one_pos
  have hc2 : 0 < (roundF32 (num_threads - 1) 1).2 := roundF32_snd_pos _ _
  have hb1 : 0 < (roundF32 size 1).1 := roundF32_fst_pos hs Nat.one_pos
  have hb2 : 0 < (roundF32 size 1).2 := roundF32_snd_pos _ _
  have hcpos := val_pos hc1 hc2
  have hdpos := val_pos hd1 hd2
  have hc : val (roundF32 (num_threads - 1) 1)
      ≤ ((num_threads - 1 : Nat) : ℚ) * (1 + 1 / 2 ^ 24) := by
    have := (roundF32_error (show 0 < num_threads - 1 by omega) Nat.one_pos).2
    simpa using this
  have hd : val (roundF32 size 1) / val (roundF32 (num_threads - 1) 1) * (1 - 1 / 2 ^ 24)
      ≤ val (roundF32 ((roundF32 size 1).1 * (roundF32 (num_threads - 1) 1).2)
            ((roundF32 size 1).2 * (roundF32 (num_threads - 1) 1).1)) := by
    have := (roundF32_error (Nat.mul_pos hb1 hc2) (Nat.mul_pos hb2 hc1)).1
    rw [val_ratio] at this
    exact this
  have hgoal : val (roundF32 ((roundF32 (row_id % size) 1).1 *
          (roundF32 ((roundF32 size 1).1 * (roundF32 (num_threads - 1) 1).2)
            ((roundF32 size 1).2 * (roundF32 (num_threads - 1) 1).1)).2)
        ((roundF32 (row_id % size) 1).2 *
          (roundF32 ((roundF32 size 1).1 * (roundF32 (num_threads - 1) 1).2)
            ((roundF32 size 1).2 * (roundF32 (num_threads - 1) 1).1)).1))
      < ((num_threads - 1 : Nat) : ℚ) := by
    have hM : (1 : ℚ) ≤ ((num_threads - 1 : Nat) : ℚ) := by
      exact_mod_cast (show 1 ≤ num_threads - 1 by omega)
    rcases Nat.eq_zero_or_pos ((roundF32 (row_id % size) 1).1) with hx0 | hx0
    · rw [hx0, Nat.zero_mul, roundF32_zero]
      simp only [val, Nat.cast_zero, zero_div]
      linarith
    have hq := (roundF32_error (Nat.mul_pos hx0 hd2)
      (Nat.mul_pos (roundF32_snd_pos (row_id % size) 1) hd1)).2
    rw [val_ratio, hx] at hq
    rw [hb] at hd
    generalize val (roundF32 ((roundF32 (row_id % size) 1).1 *
          (roundF32 ((roundF32 size 1).1 * (roundF32 (num_threads - 1) 1).2)
            ((roundF32 size 1).2 * (roundF32 (num_threads - 1) 1).1)).2)
        ((roundF32 (row_id % size) 1).2 *
          (roundF32 ((roundF32 size 1).1 * (roundF32 (num_threads - 1) 1).2)
            ((roundF32 size 1).2 * (roundF32 (num_threads - 1) 1).1)).1)) = Q at hq ⊢
    generalize val (roundF32 ((roundF32 size 1).1 * (roundF32 (num_threads - 1) 1).2)
            ((roundF32 size 1).2 * (roundF32 (num_threads - 1) 1).1)) = D at hd hq hdpos
    generalize val (roundF32 (num_threads - 1) 1) = C at hc hd hcpos
    generalize ((num_threads - 1 : Nat) : ℚ) = M at hc hM ⊢
    have hA : ((row_id % size : Nat) : ℚ) ≤ (size : ℚ) - 1 := by
      have : ((row_id % size + 1 : Nat) : ℚ) ≤ ((size : Nat) : ℚ) := by exact_mod_cast ha
      push_cast at this
      linarith
    have hA0 : (0 : ℚ) ≤ ((row_id % size : Nat) : ℚ) := by positivity
    generalize ((row_id % size : Nat) : ℚ) = A at hq hA hA0
    have hS1 : (1 : ℚ) ≤ (size : ℚ) := by exact_mod_cast hs
    have hS2 : (size : ℚ) ≤ 2 ^ 22 := by exact_mod_cast hsz
    generalize (size : ℚ) = S at hd hA hS1 hS2
    -- D * C ≥ S (1 - ε)
    have k1 : S * (1 - 1 / 2 ^ 24) ≤ D * C := by
      have := mul_le_mul_of_nonneg_right hd hcpos.le
      rw [mul_comm (S / C) _, mul_assoc, div_mul_cancel₀ S hcpos.ne'] at this
      linarith
    -- Q * D ≤ A (1 + ε)
    have k2 : Q * D ≤ A * (1 + 1 / 2 ^ 24) := by
      have := mul_le_mul_of_nonneg_right hq hdpos.le
      rw [mul_comm (A / D) _, mul_assoc, div_mul_cancel₀ A hdpos.ne'] at this
      linarith
    by_contra hcon
    have hMQ : M ≤ Q := not_lt.mp hcon
    have k3 : M * D ≤ A * (1 + 1 / 2 ^ 24) :=
      le_trans (mul_le_mul_of_nonneg_right hMQ hdpos.le) k2
    have k4 : M * (D * C) ≤ A * (1 + 1 / 2 ^ 24) * (M * (1 + 1 / 2 ^ 24)) := by
      calc M * (D * C) = M * D * C := by ring
        _ ≤ A * (1 + 1 / 2 ^ 24) * C := mul_le_mul_of_nonneg_right k3 hcpos.le
        _ ≤ A * (1 + 1 / 2 ^ 24) * (M * (1 + 1 / 2 ^ 24)) :=
          mul_le_mul_of_nonneg_left hc (by positivity)
    have k5 : M * (S * (1 - 1 / 2 ^ 24)) ≤ M * (D * C) :=
      mul_le_mul_of_nonneg_left k1 (by linarith)
    have k6 : M * (S * (1 - 1 / 2 ^ 24)) ≤ M * (A * (1 + 1 / 2 ^ 24) * (1 + 1 / 2 ^ 24)) := by
      calc M * (S * (1 - 1 / 2 ^ 24)) ≤ M * (D * C) := k5
        _ ≤ A * (1 + 1 / 2 ^ 24) * (M * (1 + 1 / 2 ^ 24)) := k4
        _ = M * (A * (1 + 1 / 2 ^ 24) * (1 + 1 / 2 ^ 24)) := by ring
    have k7 : S * (1 - 1 / 2 ^ 24) ≤ A * (1 + 1 / 2 ^ 24) * (1 + 1 / 2 ^ 24) :=
      le_of_mul_le_mul_left k6 (by linarith)
    have k8 : A * (1 + 1 / 2 ^ 24) * (1 + 1 / 2 ^ 24)
        ≤ (S - 1) * (1 + 1 / 2 ^ 24) * (1 + 1 / 2 ^ 24) := by
      apply mul_le_mul_of_nonneg_right _ (by norm_num)
      apply mul_le_mul_of_nonneg_right hA (by norm_num)
    have k9 := le_trans k7 k8
    norm_num at k9
    linarith
  have hfloor : ⌊val (roundF32 ((roundF32 (row_id % size) 1).1 *
          (roundF32 ((roundF32 size 1).1 * (roundF32 (num_threads - 1) 1).2)
            ((roundF32 size 1).2 * (roundF32 (num_threads - 1) 1).1)).2)
        ((roundF32 (row_id % size) 1).2 *
          (roundF32 ((roundF32 size 1).1 * (roundF32 (num_threads - 1) 1).2)
            ((roundF32 size 1).2 * (roundF32 (num_threads - 1) 1).1)).1))⌋₊
      < num_threads - 1 := (Nat.floor_lt (val_nonneg _)).mpr hgoal
  omega

/-- C21, as stated, fails: with 2 threads, a lock table of 10 buckets and the
registration worker configured as worker 0 (an index in [0, num_threads - 1]), the
jobs of row 0 go to worker 0, the registration worker; with 4 threads, 100 buckets
and registration worker 1, so do the jobs of row 40. -/
theorem registration_worker_gets_row_jobs :
    (2 ≤ (⟨2, 0, 10⟩ : Arg).num_threads ∧
      (⟨2, 0, 10⟩ : Arg).tx_thread_id ≤ (⟨2, 0, 10⟩ : Arg).num_threads - 1 ∧
      rowWorker ⟨2, 0, 10⟩ 0 = registerWorker ⟨2, 0, 10⟩) ∧
    rowWorker ⟨4, 1, 100⟩ 40 = registerWorker ⟨4, 1, 100⟩ := by
  decide

/-- C21, amended: for a configuration with at least 2 threads whose registration
worker is the last one (`tx_thread_id = num_threads - 1`) and whose lock table has
at least 1 and at most 2^22 buckets, the worker chosen for the job of any row lies
in [0, num_threads - 2] and so is not the registration worker; the choice is the
same whatever `tx_thread_id` is configured. -/
theorem last_worker_excluded (arg : Arg) (row_id : Nat) (hn : 2 ≤ arg.num_threads)
    (htx : arg.tx_thread_id = arg.num_threads - 1) (hs : 0 < arg.lock_table_size)
    (hsz : arg.lock_table_size ≤ 2 ^ 22) :
    rowWorker arg row_id ≤ arg.num_threads - 2 ∧
    rowWorker arg row_id ≠ registerWorker arg ∧
    ∀ tx_thread_id,
      rowWorker ⟨arg.num_threads, tx_thread_id, arg.lock_table_size⟩ row_id
        = rowWorker arg row_id := by
  have h := @thread_id_in_range row_id arg.lock_table_size arg.num_threads hs hsz hn
  refine ⟨h, ?_, fun _ => rfl⟩
  unfold registerWorker
  unfold rowWorker
  omega

/-- C21, amended, on 4 threads with registration worker 3, 100 buckets and row 99. -/
theorem last_worker_excluded_witness :
    rowWorker ⟨4, 3, 100⟩ 99 ≤ (⟨4, 3, 100⟩ : Arg).num_threads - 2 ∧
    rowWorker ⟨4, 3, 100⟩ 99 ≠ registerWorker ⟨4, 3, 100⟩ ∧
    ∀ tx_thread_id,
      rowWorker ⟨(⟨4, 3, 100⟩ : Arg).num_threads, tx_thread_id,
          (⟨4, 3, 100⟩ : Arg).lock_table_size⟩ 99
        = rowWorker ⟨4, 3, 100⟩ 99 :=
  last_worker_excluded ⟨4, 3, 100⟩ 99 (by decide) (by decide) (by decide) (by decide)

/-- C30 (contiguous slices): for bucket indices `b1 ≤ b2` below the bucket count and
at least 2 threads, the worker of `b1` is at most the worker of `b2`, in the single
precision arithmetic of the routing; hence every bucket between two buckets of one
worker belongs to that worker, and the worker of a row is the worker of its bucket
`row_id % size`. -/
theorem contiguous_slices (b1 b2 size num_threads : Nat) (h12 : b1 ≤ b2) (h2 : b2 < size)
    (hn : 2 ≤ num_threads) :
    thread_id b1 size num_threads ≤ thread_id b2 size num_threads ∧
    (∀ b, b1 ≤ b → b ≤ b2 → thread_id b1 size num_threads = thread_id b2 size num_threads →
      thread_id b size num_threads = thread_id b1 size num_threads) ∧
    ∀ row_id, thread_id row_id size num_threads = thread_id (row_id % size) size num_threads := by
  have hs : 0 < size := by omega
  have hmod : ∀ b, b ≤ b2 → b % size = b := fun b hb => Nat.mod_eq_of_lt (by omega)
  refine ⟨?_, ?_, ?_⟩
  · apply thread_id_mono hs hn
    rw [hmod b1 h12, hmod b2 (le_refl _)]
    exact h12
  · intro b hb1 hb2 heq
    have l1 : thread_id b1 size num_threads ≤ thread_id b size num_threads := by
      apply thread_id_mono hs hn
      rw [hmod b1 h12, hmod b hb2]
      exact hb1
    have l2 : thread_id b size num_threads ≤ thread_id b2 size num_threads := by
      apply thread_id_mono hs hn
      rw [hmod b hb2, hmod b2 (le_refl _)]
      exact hb2
    omega
  · intro row_id
    unfold thread_id
    simp only [Nat.mod_mod]

/-- C30 on buckets 33 and 34 of 100 with 4 threads, the end of the first slice and
the start of the second. -/
theorem contiguous_slices_witness :
    thread_id 33 100 4 ≤ thread_id 34 100 4 ∧
    (∀ b, 33 ≤ b → b ≤ 34 → thread_id 33 100 4 = thread_id 34 100 4 →
      thread_id b 100 4 = thread_id 33 100 4) ∧
    ∀ row_id, thread_id row_id 100 4 = thread_id (row_id % 100) 100 4 :=
  contiguous_slices 33 34 100 4 (by decide) (by decide) (by decide)

/-! ## Claims C31 and C32 -/

/-! ### The descriptor is injective -/

theorem digitChar_facts : ∀ k : Fin 10,
    (Nat.digitChar k).toNat - 48 = k ∧ Nat.digitChar k ≠ '_' ∧ Nat.digitChar k ≠ '-' := by
  decide

theorem decimalValue_append (l : List Char) (c : Char) :
    decimalValue (l ++ [c]) = 10 * decimalValue l + (c.toNat - 48) := by
  simp [decimalValue, List.foldl_append]

theorem toDigitsCore_spec : ∀ fuel n : Nat, ∀ ds : List Char, n < fuel →
    ∃ l, Nat.toDigitsCore 10 fuel n ds = l ++ ds ∧ decimalValue l = n ∧
      ∀ c ∈ l, c ≠ '_' ∧ c ≠ '-' := by
  intro fuel
  induction fuel with
  | zero => intro n ds h; omega
  | succ fuel ih =>
    intro n ds h
    obtain ⟨hv, h1, h2⟩ := digitChar_facts ⟨n % 10, Nat.mod_lt n (by norm_num)⟩
    simp only at hv h1 h2
    unfold Nat.toDigitsCore
    by_cases h0 : n / 10 = 0
    · simp only [h0, if_true]
      refine ⟨[Nat.digitChar (n % 10)], rfl, ?_, ?_⟩
      · have := decimalValue_append [] (Nat.digitChar (n % 10))
        simp only [List.nil_append] at this
        rw [this, hv]
        simp [decimalValue]
        omega
      · intro c hc
        simp only [List.mem_singleton] at hc
        subst hc
        exact ⟨h1, h2⟩
    · simp only [h0, if_false]
      obtain ⟨l, hl, hval, hch⟩ := ih (n / 10) (Nat.digitChar (n % 10) :: ds) (by omega)
      refine ⟨l ++ [Nat.digitChar (n % 10)], ?_, ?_, ?_⟩
      · rw [hl]
        simp
      · rw [decimalValue_append, hval, hv]
        omega
      · intro c hc
        rcases List.mem_append.mp hc with hc | hc
        · exact hch c hc
        · simp only [List.mem_singleton] at hc
          subst hc
          exact ⟨h1, h2⟩

theorem repr_spec (n : Nat) :
    decimalValue (Nat.repr n).data = n ∧ ∀ c ∈ (Nat.repr n).data, c ≠ '_' ∧ c ≠ '-' := by
  obtain ⟨l, hl, hval, hch⟩ := toDigitsCore_spec (n + 1) n [] (by omega)
  have : (Nat.repr n).data = l := by
    simp [Nat.repr, Nat.toDigits, hl, List.asString]
  rw [this]
  exact ⟨hval, hch⟩

theorem repr_injective {m n : Nat} (h : (Nat.repr m).data = (Nat.repr n).data) : m = n := by
  rw [← (repr_spec m).1, ← (repr_spec n).1, h]

theorem intToString_data (i : Int) :
    (intToString i).data =
      if i < 0 then '-' :: (Nat.repr i.natAbs).data else (Nat.repr i.natAbs).data := by
  unfold intToString
  by_cases h : i < 0
  · rw [if_pos h, if_pos h, String.data_append]
    rfl
  · rw [if_neg h, if_neg h]

theorem intToString_no_separator (i : Int) : '_' ∉ (intToString i).data := by
  rw [intToString_data]
  intro hmem
  by_cases h : i < 0
  · rw [if_pos h] at hmem
    rcases List.mem_cons.mp hmem with hc | hc
    · exact absurd hc (by decide)
    · exact ((repr_spec _).2 _ hc).1 rfl
  · rw [if_neg h] at hmem
    exact ((repr_spec _).2 _ hmem).1 rfl

theorem intToString_injective {i j : Int} (h : (intToString i).data = (intToString j).data) :
    i = j := by
  rw [intToString_data, intToString_data] at h
  by_cases hi : i < 0 <;> by_cases hj : j < 0
  · rw [if_pos hi, if_pos hj] at h
    have := repr_injective (List.cons.inj h).2
    omega
  · rw [if_pos hi, if_neg hj] at h
    have hmem : '-' ∈ (Nat.repr j.natAbs).data := by
      rw [← h]
      exact List.mem_cons_self _ _
    exact absurd rfl ((repr_spec _).2 _ hmem).2
  · rw [if_neg hi, if_pos hj] at h
    have hmem : '-' ∈ (Nat.repr i.natAbs).data := by
      rw [h]
      exact List.mem_cons_self _ _
    exact absurd rfl ((repr_spec _).2 _ hmem).2
  · rw [if_neg hi, if_neg hj] at h
    have := repr_injective h
    omega

theorem append_separator_inj {c : Char} : ∀ {l1 l2 r1 r2 : List Char}, c ∉ l1 → c ∉ l2 →
    l1 ++ c :: r1 = l2 ++ c :: r2 → l1 = l2 ∧ r1 = r2 := by
  intro l1
  induction l1 with
  | nil =>
    intro l2 r1 r2 _ h2 h
    cases l2 with
    | nil => exact ⟨rfl, (List.cons.inj h).2⟩
    | cons a l2 =>
      have := (List.cons.inj h).1
      exact absurd (this ▸ List.mem_cons_self a l2) h2
  | cons a l1 ih =>
    intro l2 r1 r2 h1 h2 h
    cases l2 with
    | nil =>
      have := (List.cons.inj h).1
      exact absurd (this ▸ List.mem_cons_self a l1) h1
    | cons b l2 =>
      obtain ⟨hab, hrest⟩ := List.cons.inj h
      obtain ⟨e1, e2⟩ := ih (fun hm => h1 (List.mem_cons_of_mem a hm))
        (fun hm => h2 (List.mem_cons_of_mem b hm)) hrest
      exact ⟨by rw [hab, e1], e2⟩

theorem toInt32_injective {a b : Nat} (ha : a < 2 ^ 32) (hb : b < 2 ^ 32)
    (h : toInt32 a = toInt32 b) : a = b := by
  unfold toInt32 at h
  rw [Nat.mod_eq_of_lt ha, Nat.mod_eq_of_lt hb] at h
  split_ifs at h <;> omega

theorem lock_to_string_inj {t1 r1 t2 r2 : Int} {e1 e2 : Bool}
    (h : lock_to_string t1 r1 e1 = lock_to_string t2 r2 e2) : t1 = t2 ∧ r1 = r2 ∧ e1 = e2 := by
  have hd := congrArg String.data h
  rw [lock_to_string_data, lock_to_string_data] at hd
  obtain ⟨ht, hrest⟩ := append_separator_inj (intToString_no_separator t1)
    (intToString_no_separator t2) hd
  have hrest' : (intToString r1).data ++ '_' :: [if e1 then 'X' else 'S', '_', '0']
      = (intToString r2).data ++ '_' :: [if e2 then 'X' else 'S', '_', '0'] := hrest
  obtain ⟨hr, hmode⟩ := append_separator_inj (intToString_no_separator r1)
    (intToString_no_separator r2) hrest'
  refine ⟨intToString_injective ht, intToString_injective hr, ?_⟩
  have := (List.cons.inj hmode).1
  cases e1 <;> cases e2 <;> first | rfl | exact absurd this (by decide)

/-- C32 (descriptor injectivity): when `lock_to_string` gives the same plaintext for
two triples of arguments, the transaction ids are equal, the row ids are equal and
the modes are equal; and when the arguments are the `int` values of unsigned 32-bit
transaction and row ids, as in `acquire_lock`, these ids are equal too, so two
different grants are never signed over the same plaintext. -/
theorem descriptor_injective (t1 r1 t2 r2 : Int) (e1 e2 : Bool)
    (h : lock_to_string t1 r1 e1 = lock_to_string t2 r2 e2) :
    (t1 = t2 ∧ r1 = r2 ∧ e1 = e2) ∧
    ∀ a1 b1 a2 b2 : Nat, a1 < 2 ^ 32 → b1 < 2 ^ 32 → a2 < 2 ^ 32 → b2 < 2 ^ 32 →
      t1 = toInt32 a1 → r1 = toInt32 b1 → t2 = toInt32 a2 → r2 = toInt32 b2 →
      a1 = a2 ∧ b1 = b2 := by
  obtain ⟨ht, hr, he⟩ := lock_to_string_inj h
  refine ⟨⟨ht, hr, he⟩, ?_⟩
  intro a1 b1 a2 b2 ha1 hb1 ha2 hb2 e1 e2 e3 e4
  exact ⟨toInt32_injective ha1 ha2 (by rw [← e1, ← e3, ht]),
    toInt32_injective hb1 hb2 (by rw [← e2, ← e4, hr])⟩

/-- C32 on the descriptor of transaction 4000000000, row 7 and Exclusive mode. -/
theorem descriptor_injective_witness :
    (toInt32 4000000000 = toInt32 4000000000 ∧ (7 : Int) = 7 ∧ true = true) ∧
    ∀ a1 b1 a2 b2 : Nat, a1 < 2 ^ 32 → b1 < 2 ^ 32 → a2 < 2 ^ 32 → b2 < 2 ^ 32 →
      toInt32 4000000000 = toInt32 a1 → (7 : Int) = toInt32 b1 →
      toInt32 4000000000 = toInt32 a2 → (7 : Int) = toInt32 b2 →
      a1 = a2 ∧ b1 = b2 :=
  descriptor_injective (toInt32 4000000000) 7 (toInt32 4000000000) 7 true true rfl

/-! ### Consistency of the two tables -/

/-- C31 (table consistency): in every reachable state, for every transaction `t` of the
transaction table and every row `r`, `r` is among the locked rows of `t` exactly when
the lock table has a lock for `r` whose owners contain the id of `t` (which is the
key `t` is stored under); and every owner of every lock of the lock table is
registered in the transaction table. -/
theorem table_consistency (s : State) (hs : Reachable s) :
    (∀ k t r, s.transactionTable.get k = some t →
      t.transaction_id = k ∧
      (r ∈ t.locked_rows ↔ ∃ l, s.lockTable.get r = some l ∧ t.transaction_id ∈ l.owners)) ∧
    (∀ r l x, s.lockTable.get r = some l → x ∈ l.owners →
      ∃ t, s.transactionTable.get x = some t ∧ t.transaction_id = x) := by
  have inv := Inv_of_Reachable hs
  refine ⟨?_, ?_⟩
  · intro k t r hk
    have hkey := inv.key k t hk
    refine ⟨hkey, ?_, ?_⟩
    · intro hr
      obtain ⟨l, hl, hown⟩ := inv.held k t r hk hr
      exact ⟨l, hl, by rw [hkey]; exact hown⟩
    · rintro ⟨l, hl, hown⟩
      obtain ⟨t', ht', hr'⟩ := inv.owned r l t.transaction_id hl hown
      rw [hkey, hk] at ht'
      cases ht'
      exact hr'
  · intro r l x hl hx
    obtain ⟨t, ht, -⟩ := inv.owned r l x hl hx
    exact ⟨t, ht, inv.key x t ht⟩

/-- C31 on the state after transactions 0 and 1 took row 0 in Shared mode, transaction
0 took row 1 in Exclusive mode and then released row 0. -/
theorem table_consistency_witness :
    (∀ k t r, (run State.init [Op.register 0 10, Op.register 1 10, Op.lock 0 0 false,
        Op.lock 1 0 false, Op.lock 0 1 true, Op.unlock 0 0]).transactionTable.get k = some t →
      t.transaction_id = k ∧
      (r ∈ t.locked_rows ↔ ∃ l, (run State.init [Op.register 0 10, Op.register 1 10,
        Op.lock 0 0 false, Op.lock 1 0 false, Op.lock 0 1 true,
        Op.unlock 0 0]).lockTable.get r = some l ∧ t.transaction_id ∈ l.owners)) ∧
    (∀ r l x, (run State.init [Op.register 0 10, Op.register 1 10, Op.lock 0 0 false,
        Op.lock 1 0 false, Op.lock 0 1 true, Op.unlock 0 0]).lockTable.get r = some l →
      x ∈ l.owners →
      ∃ t, (run State.init [Op.register 0 10, Op.register 1 10, Op.lock 0 0 false,
        Op.lock 1 0 false, Op.lock 0 1 true, Op.unlock 0 0]).transactionTable.get x = some t ∧
        t.transaction_id = x) :=
  table_consistency _ ⟨[Op.register 0 10, Op.register 1 10, Op.lock 0 0 false,
    Op.lock 1 0 false, Op.lock 0 1 true, Op.unlock 0 0], rfl⟩

/-! ## A capability verifies for no other triple -/

end LockManager
